import Mathlib

/-!
Verification of the tiled-intermediate-representation kernel compiler.

This file shallowly embeds the C++ sources (`IR.hpp`, `IRBuilder.cpp`,
`TilingPass.cpp`, `CodeGenerator.cpp`) into Lean 4 and proves or refutes the
frozen specification claims about them.

Two embeddings of the IR are used:
* a pure-tree model (`PNode`) for structural / functional claims about
  `tilingPass`, `buildUntiledIR`, `parseExpression`, `generateExpression`;
* an explicit-heap model (`HCell`, `Heap`) in which nodes live at addresses
  and mutation is heap update, for the aliasing / no-mutation claims about
  `deepCopy` and `tilingPass`.

C++ strings are modeled as `List Char`; `size_t` arithmetic is `Nat` with an
explicit wrap at `2 ^ 64` where the source relies on unsigned wraparound
(`std::string::npos` tricks).  C++ exceptions are modeled with `Except`;
undefined behavior (an invalid `static_cast` member access, an out-of-bounds
`std::vector::operator[]`) is modeled as a dedicated error value, since the
source has no defined result there.
-/

set_option autoImplicit false

namespace TIR

/-- Character strings, modeling `std::string`. -/
abbrev Str := List Char

/-- `DType` from `IR.hpp`. -/
inductive DTy where
  | float32
  | float64
  | int32
  | int64
deriving DecidableEq, Repr

/-- `ConstValue = std::variant<int, long long, float, double>` from `IR.hpp`.
The integer alternatives carry their mathematical value; the floating-point
alternatives carry their raw bit pattern (no claim evaluates or renders a
floating-point literal: the builder only ever constructs `Int32` constants). -/
inductive CVal where
  | i32 (v : Int)
  | i64 (v : Int)
  | f32 (bits : Nat)
  | f64 (bits : Nat)
deriving DecidableEq, Repr

/-- The pure-tree model of `IRNode` (`IR.hpp`): a closed sum over the node
kinds.  A `Load`/`Store` holds the name of the `Tensor` it references; the
three registered tensors are globals keyed injectively by name, so the name
determines the referenced `Tensor` object. -/
inductive PNode where
  | const (v : CVal) (d : DTy)
  | var (name : Str)
  | min (a b : PNode)
  | add (a b : PNode)
  | mul (a b : PNode)
  | load (tensor : Str) (indices : List PNode)
  | store (tensor : Str) (indices : List PNode)
  | assign (target value : PNode)
  | loop (index : Str) (lb ub step : PNode) (body : List PNode)

mutual
/-- `deepCopy` from `TilingPass.cpp` (lines 27–97): recursive copy of a
subtree, dispatching on the node kind.  In the pure-tree model the copy
rebuilds the same tree value. -/
def deepCopy : PNode → PNode
  | .const v d => .const v d
  | .var n => .var n
  | .min a b => .min (deepCopy a) (deepCopy b)
  | .add a b => .add (deepCopy a) (deepCopy b)
  | .mul a b => .mul (deepCopy a) (deepCopy b)
  | .load t idx => .load t (deepCopyVector idx)
  | .store t idx => .store t (deepCopyVector idx)
  | .assign t v => .assign (deepCopy t) (deepCopy v)
  | .loop i lb ub st body =>
      .loop i (deepCopy lb) (deepCopy ub) (deepCopy st) (deepCopyVector body)

/-- `deepCopyVector` from `TilingPass.cpp` (lines 11–19): element-wise deep
copy of a vector of owned nodes. -/
def deepCopyVector : List PNode → List PNode
  | [] => []
  | x :: xs => deepCopy x :: deepCopyVector xs
end

/-- `tilingPass` from `TilingPass.cpp` (lines 105–146), pure-tree model.
The source `static_cast`s the root to `Loop`, takes `body_.front()` and
`static_cast`s it to `Loop` as well, without any validity check; member
access through a wrong cast, or `front()` on an empty body, is undefined
behavior, modeled here as `none`.  On a root whose first two levels are
loops it restructures a deep copy into the four-level tiled nest. -/
def tilingPass : PNode → Option PNode
  | .loop i lb ub st body =>
    match body with
    | [] => none
    | inner :: rest =>
      match inner with
      | .loop j lb2 ub2 st2 body2 =>
          -- cpy = deepCopy(nd); loop_i, loop_j point into the copy.
          -- Lines 114–131: fresh ii/jj/T variables and the rewritten bounds
          -- of the two point loops (bodies of the copy are kept).
          let loopJ : PNode :=
            .loop j (.var "jj".toList)
              (.min (.add (.var "jj".toList) (.var "T".toList)) (deepCopy ub2))
              (deepCopy st2) (deepCopyVector body2)
          let loopI : PNode :=
            .loop i (.var "ii".toList)
              (.min (.add (.var "ii".toList) (.var "T".toList)) (deepCopy ub))
              (deepCopy st) (loopJ :: deepCopyVector rest)
          -- Lines 133–143: the two tile loops wrapping the rewritten copy.
          let loopJJ : PNode :=
            .loop "jj".toList (deepCopy lb2) (deepCopy ub2) (.var "T".toList) [loopI]
          let loopII : PNode :=
            .loop "ii".toList (deepCopy lb) (deepCopy ub) (.var "T".toList) [loopJJ]
          some loopII
      | _ => none
  | _ => none

/-! ### String machinery (`std::string` on `List Char`, `size_t` on `Nat`) -/

/-- `std::string::npos`. -/
def NPOS : Nat := 2 ^ 64 - 1

/-- Reduction into `size_t`. -/
def w64 (n : Nat) : Nat := n % 2 ^ 64

/-- `size_t` subtraction `a - b` (for operands below `2 ^ 64`), wrapping. -/
def sub64 (a b : Nat) : Nat := w64 (a + 2 ^ 64 - w64 b)

/-- C `isspace` (C locale). -/
def isSpaceC (c : Char) : Bool :=
  c = ' ' ∨ c = '\t' ∨ c = '\n' ∨ c = '\x0b' ∨ c = '\x0c' ∨ c = '\r'

/-- `std::string::find(char)`: index of the first occurrence, else `npos`.
(Faithful for strings shorter than `npos`, i.e. every real one.) -/
def findChar (c : Char) : Str → Nat
  | [] => NPOS
  | x :: xs =>
    if x = c then 0
    else
      let r := findChar c xs
      if r = NPOS then NPOS else r + 1

/-- `std::string::rfind(char)`: index of the last occurrence, else `npos`. -/
def rfindChar (c : Char) : Str → Nat
  | [] => NPOS
  | x :: xs =>
    let r := rfindChar c xs
    if r ≠ NPOS then r + 1
    else if x = c then 0 else NPOS

/-- `std::string::find(const std::string &)`: first index at which the
pattern occurs, else `npos`; an empty pattern is found at index 0. -/
def findSub (pat : Str) : Str → Nat
  | [] => if pat = [] then 0 else NPOS
  | x :: xs =>
    if pat.isPrefixOf (x :: xs) then 0
    else
      let r := findSub pat xs
      if r = NPOS then NPOS else r + 1

/-- Errors of the builder.  The C++ surfaces them as exceptions
(`std::runtime_error`, `std::out_of_range`, `std::invalid_argument`) or, for
an out-of-bounds `std::vector::operator[]`, as undefined behavior. -/
inductive BuildErr where
  | parseError (msg : Str)
  | unknownTensor (name : Str)
  | substrRange
  | stoiError
  | vectorUB
  | fuel
deriving DecidableEq, Repr

/-- `s.substr(pos)`: throws `std::out_of_range` when `pos > size()`. -/
def substrFrom (s : Str) (pos : Nat) : Except BuildErr Str :=
  if pos > s.length then .error .substrRange else .ok (s.drop pos)

/-- `s.substr(pos, cnt)`: throws when `pos > size()`; the count clamps. -/
def substrCnt (s : Str) (pos cnt : Nat) : Except BuildErr Str :=
  if pos > s.length then .error .substrRange else .ok ((s.drop pos).take cnt)

/-- All delimiter-separated fields of a string (`std::getline` repeatedly),
empty fields included, except that a trailing delimiter yields no final
empty field. -/
def splitRaw (d : Char) : Str → List Str
  | [] => [[]]
  | c :: s =>
    let r := splitRaw d s
    if c = d then [] :: r else (c :: r.headD []) :: r.tail

/-- `split` from `IRBuilder.cpp` (lines 21–31): delimiter-separated fields
with the empty ones dropped. -/
def split (s : Str) (delim : Char) : List Str :=
  (splitRaw delim s).filter (fun t => t ≠ [])

/-! ### The DSL builder (`IRBuilder.cpp`) -/

/-- `clean_expr` from `IRBuilder.cpp` (lines 34–40): erase all whitespace,
then drop the first and the last character whenever they are `'('` and `')'`
— with no check that this pair of parentheses actually matches.
(`s.front()` on an empty string is formally UB; with libstdc++ it reads the
NUL terminator, so nothing is stripped, which is what this model does.) -/
def clean_expr (s : Str) : Str :=
  let t := s.filter (fun c => ¬ isSpaceC c)
  match t with
  | [] => []
  | c :: rest => if c = '(' ∧ t.getLast? = some ')' then rest.dropLast else t

/-- The global `TensorMap` of `IRBuilder.cpp` (lines 10–16): tensors `A`,
`B`, `C` (Float32, 1024×1024), looked up by name; `at` throws
`std::out_of_range` for an unregistered name.  The registry keys tensors
injectively by name, so the name stands for the returned reference. -/
def tensorMapAt (name : Str) : Except BuildErr Str :=
  if name = "A".toList ∨ name = "B".toList ∨ name = "C".toList then .ok name
  else .error (.unknownTensor name)

def msgInvalidAccess : Str := "Invalid array access format in body.".toList

/-- `parseTensorAccess` from `IRBuilder.cpp` (lines 43–67): look for `[` and
`]` anywhere in the string (no matching or ordering check) and throw a
`runtime_error` if either is absent; slice out the tensor name and the index
substring (`size_t` arithmetic: a `]` before the `[` wraps the count, which
then clamps to the whole tail); look the name up; split the index substring
at commas into `Variable` nodes. -/
def parseTensorAccess (s : Str) : Except BuildErr (Str × List PNode) :=
  -- ob := open_bracket, cb := close_bracket; name := s.take ob;
  -- indices_str := (s.drop (ob + 1)).take (cb - ob - 1), all in size_t
  if findChar '[' s = NPOS ∨ findChar ']' s = NPOS then
    .error (.parseError msgInvalidAccess)
  else do
    let t ← tensorMapAt (s.take (findChar '[' s))
    return (t,
      (split ((s.drop (w64 (findChar '[' s + 1))).take
        (sub64 (findChar ']' s) (findChar '[' s + 1))) ',').map
        (fun v => PNode.var v))

/-- `parseLoad` (lines 70–73). -/
def parseLoad (s : Str) : Except BuildErr PNode := do
  let (t, idx) ← parseTensorAccess s
  return .load t idx

/-- `parseStore` (lines 76–79). -/
def parseStore (s : Str) : Except BuildErr PNode := do
  let (t, idx) ← parseTensorAccess s
  return .store t idx

/-- `parseExpression` from `IRBuilder.cpp` (lines 82–110), with explicit
recursion fuel (the C++ recursion terminates because every live recursive
call is on a strictly shorter string; the builder passes `length + 1`, which
therefore always suffices). -/
def parseExpression : Nat → Str → Except BuildErr PNode
  | 0, _ => .error .fuel
  | f + 1, s =>
    -- cleaned := clean_expr s (written out at each use)
    if findChar '+' (clean_expr s) = NPOS ∧ findChar '*' (clean_expr s) = NPOS then
      parseLoad (clean_expr s)
    else
      -- op_pos := rfind('+'), then rfind('*')
      if rfindChar '+' (clean_expr s) ≠ NPOS then do
        let l ← parseExpression f ((clean_expr s).take (rfindChar '+' (clean_expr s)))
        let r ← parseExpression f
          ((clean_expr s).drop (w64 (rfindChar '+' (clean_expr s) + 1)))
        return .add l r
      else
        if rfindChar '*' (clean_expr s) ≠ NPOS then do
          let l ← parseExpression f ((clean_expr s).take (rfindChar '*' (clean_expr s)))
          let r ← parseExpression f
            ((clean_expr s).drop (w64 (rfindChar '*' (clean_expr s) + 1)))
          return .mul l r
        else
          -- dead fall-through kept from the source (line 109)
          parseExpression f (clean_expr s)

/-- Numeric value of an all-digit token. -/
def natOfDigits (s : Str) : Nat :=
  s.foldl (fun acc c => acc * 10 + (c.toNat - Char.toNat '0')) 0

/-- `std::stoi` on a token the caller checked to be all digits: throws
`invalid_argument` on the empty string and `out_of_range` beyond `INT_MAX`. -/
def stoiDigits (s : Str) : Except BuildErr Int :=
  if s = [] then .error .stoiError
  else if natOfDigits s > 2 ^ 31 - 1 then .error .stoiError
  else .ok (natOfDigits s : Int)

/-- The `parse_bound` lambda of `buildUntiledIR` (lines 150–155): an
all-digit token becomes a `Const(int32)` via `stoi`, anything else a
`Variable`. -/
def parse_bound (s : Str) : Except BuildErr PNode :=
  if s.all (fun c => c.isDigit) then do
    let v ← stoiDigits s
    return .const (.i32 v) .int32
  else
    return .var s

/-- The header-nesting loop of `buildUntiledIR` (lines 143–166): the tokens
are processed from the last to the first, each wrapping the body built so
far, so the first listed header ends up outermost.  An access
`parts[1]`/`bounds[k]` past the vector's size is undefined behavior. -/
def vecGet (l : List Str) (i : Nat) : Except BuildErr Str :=
  match l.get? i with
  | some v => .ok v
  | none => .error BuildErr.vectorUB

def buildLoopNest (toks : List Str) (inner : PNode) : Except BuildErr PNode :=
  match toks with
  | [] => .ok inner
  | tok :: rest => do
    let body ← buildLoopNest rest inner
    let parts ← pure (split tok '=')
    let var ← vecGet parts 0
    let bstr ← vecGet parts 1
    let bounds ← pure (split bstr ':')
    let b0 ← vecGet bounds 0
    let b1 ← vecGet bounds 1
    let b2 ← vecGet bounds 2
    let lb ← parse_bound b0
    let ub ← parse_bound b1
    let st ← parse_bound b2
    return .loop var lb ub st [body]

def kLOOPS : Str := "LOOPS:".toList

def kBODY : Str := "BODY:".toList

/-- `buildUntiledIR` from `IRBuilder.cpp` (lines 113–169).  The marker
positions are *not* validated: for a missing marker `find` yields
`npos = 2 ^ 64 - 1` and the subsequent `size_t` arithmetic silently wraps
(`npos + 6 ≡ 5`, `npos + 5 ≡ 4`). -/
def buildUntiledIR (input : Str) : Except BuildErr PNode := do
  let loopsStart ← pure (findSub kLOOPS input)
  let bodyStart ← pure (findSub kBODY input)
  let loopsStr ← substrCnt input (w64 (loopsStart + 6)) (sub64 bodyStart (loopsStart + 6))
  let bodyStr ← substrFrom input (w64 (bodyStart + 5))
  let assignPos ← pure (findChar '=' bodyStr)
  let targetStr ← pure (clean_expr (bodyStr.take assignPos))
  let valueRaw ← substrFrom bodyStr (w64 (assignPos + 1))
  let valueStr ← pure (clean_expr valueRaw)
  let storeTarget ← parseStore targetStr
  let valueExpr ← parseExpression (valueStr.length + 1) valueStr
  let loopToks ← pure (split loopsStr ',')
  buildLoopNest loopToks (PNode.assign storeTarget valueExpr)

/-! ### The code generator (`CodeGenerator.cpp`) -/

def UNHANDLED_EXPR : Str := "/* UNHANDLED_EXPR_TYPE */".toList

def INVALID_TARGET : Str := "/* INVALID_TARGET */".toList

/-- `std::to_string` over `ConstValue`.  The integer alternatives render
their decimal value; the floating-point alternatives are rendered from their
opaque bit pattern — no claim, and no tree this program ever builds, holds a
floating-point constant (`parse_bound` only makes `Int32` ones). -/
def renderCVal : CVal → Str
  | .i32 v => (toString v).toList
  | .i64 v => (toString v).toList
  | .f32 bits => (toString bits).toList
  | .f64 bits => (toString bits).toList

mutual
/-- `generateExpression` from `CodeGenerator.cpp` (lines 20–68): context-free
rendering of an expression; `Loop`, `Assign` and `Store` fall into the
`default:` branch and render the diagnostic placeholder. -/
def generateExpression : PNode → Str
  | .const v _ => renderCVal v
  | .var n => n
  | .add a b =>
      "(".toList ++ generateExpression a ++ " + ".toList ++ generateExpression b ++ ")".toList
  | .mul a b =>
      "(".toList ++ generateExpression a ++ " * ".toList ++ generateExpression b ++ ")".toList
  | .min a b =>
      "std::min(".toList ++ generateExpression a ++ ", ".toList ++
        generateExpression b ++ ")".toList
  | .load t idx => t ++ "[".toList ++ genIndices idx ++ "]".toList
  | .store _ _ => UNHANDLED_EXPR
  | .assign _ _ => UNHANDLED_EXPR
  | .loop _ _ _ _ _ => UNHANDLED_EXPR

/-- The index-joining loops of `generateExpression`/`codeGeneration`:
generated index expressions joined by `", "`. -/
def genIndices : List PNode → Str
  | [] => []
  | [x] => generateExpression x
  | x :: y :: rest => generateExpression x ++ ", ".toList ++ genIndices (y :: rest)
end

def indent_level_code_gen (depth : Nat) : Str := List.replicate (depth * 4) ' '

mutual
/-- `codeGeneration` from `CodeGenerator.cpp` (lines 77–139), modeled as the
text appended to the output stream: indentation, then a counted-loop header
with recursively generated body for a `Loop`, `target = value;` for an
`Assign` (tensor access for a `Store` target, bare name for a `Variable`,
placeholder otherwise), and nothing for any other kind (the `default:`
break). -/
def codeGeneration (root : PNode) (depth : Nat) : Str :=
  indent_level_code_gen depth ++
  match root with
  | .loop i lb ub st body =>
      "for (int ".toList ++ i ++ " = ".toList ++ generateExpression lb ++ "; ".toList ++
        i ++ " < ".toList ++ generateExpression ub ++ "; ".toList ++
        i ++ " += ".toList ++ generateExpression st ++ ") \x7b\n".toList ++
        codeGenList body (depth + 1) ++
        indent_level_code_gen depth ++ "\x7d\n".toList
  | .assign t v =>
      (match t with
        | .store tn idx => tn ++ "[".toList ++ genIndices idx ++ "]".toList
        | .var n => n
        | _ => INVALID_TARGET) ++ " = ".toList ++ generateExpression v ++ ";\n".toList
  | _ => []

def codeGenList : List PNode → Nat → Str
  | [], _ => []
  | x :: xs, d => codeGeneration x d ++ codeGenList xs d
end

/-! ### The tensor registry (`include/IR.hpp`) -/

structure TensorT where
  name : Str
  dtype : DTy
  dims : Nat
  extents : List Nat
  strides : List Nat
deriving DecidableEq, Repr

/-- The stride loop of the `Tensor` constructor (`include/IR.hpp` lines
50–60): walk the dimensions from last to first, record the running stride,
then multiply it by the current extent (in `size_t`, i.e. modulo `2 ^ 64`).
Returns (final running stride, strides vector). -/
def computeStrides : List Nat → Nat × List Nat
  | [] => (1, [])
  | e :: rest =>
    let (cur, tail) := computeStrides rest
    (w64 (cur * e), cur :: tail)

def msgDims : Str := "dims must match the size of extents".toList

/-- The `Tensor` constructor (`include/IR.hpp` lines 43–61): throws
`std::invalid_argument` iff `dims != extents.size()`; otherwise stores the
extents and computes the row-major strides.  No check of any kind is made on
the extents' values (they are unsigned, and zero is accepted). -/
def tensorMake (n : Str) (d : DTy) (dims : Nat) (extents : List Nat) :
    Except Str TensorT :=
  if dims ≠ extents.length then .error msgDims
  else .ok ⟨n, d, dims, extents, (computeStrides extents).2⟩

/-- The row-major rule in the spec's words: the last dimension's stride is 1
and each preceding dimension's stride is the product of the subsequent
extents (landing in `size_t`). -/
def rowMajorStrides (extents : List Nat) : List Nat :=
  (List.range extents.length).map (fun i => w64 ((extents.drop (i + 1)).prod))

mutual
/-- Claim C10's invariant: every `Loop` node of the tree owns exactly one
body statement. -/
def allLoopsSingleton : PNode → Bool
  | .const _ _ => true
  | .var _ => true
  | .min a b => allLoopsSingleton a && allLoopsSingleton b
  | .add a b => allLoopsSingleton a && allLoopsSingleton b
  | .mul a b => allLoopsSingleton a && allLoopsSingleton b
  | .load _ idx => allLoopsSingletonL idx
  | .store _ idx => allLoopsSingletonL idx
  | .assign t v => allLoopsSingleton t && allLoopsSingleton v
  | .loop _ lb ub st body =>
      decide (body.length = 1) && allLoopsSingleton lb && allLoopsSingleton ub &&
        allLoopsSingleton st && allLoopsSingletonL body

def allLoopsSingletonL : List PNode → Bool
  | [] => true
  | x :: xs => allLoopsSingleton x && allLoopsSingletonL xs
end

/-! ### Abstract DSL programs and their canonical text (for claim C5)

Claim C5 quantifies over "valid DSL program text".  Validity is made formal
by rendering an abstract program — a header list, the statement's left-side
access, and a grammar expression for its right side (§4.2 of the spec) — to
its canonical (whitespace-free) text, under well-formedness conditions on
the tokens.

The positive theorem (`buildUntiledIR_valid_program`) does NOT cover every
grammar-valid program: it is restricted to the canonical whitespace-free
rendering, and its token condition `headerTokOk` additionally requires
header tokens to contain no letter `B`.  The `B`-freeness is a conservative
sufficient condition against marker collisions — `find("BODY:")` scans the
whole text, so a grammar-valid bound token such as `BODY` makes the marker
match inside the header section and the build fails
(`buildUntiledIR_marker_collision_fails`); `grammar-validity alone`
(`progOkGrammar`, no `B`-restriction) is therefore not enough for the
claimed k-nest result. -/

/-- A DSL loop header `var=lb:ub:st`, as four raw tokens. -/
structure LoopHeader where
  var : Str
  lb : Str
  ub : Str
  st : Str

/-- The §4.2 grammar of right-side expressions: tensor accesses, `+`, `*`,
and parentheses. -/
inductive RExpr where
  | acc (tensor : Str) (idx : List Str)
  | paren (e : RExpr)
  | add (a b : RExpr)
  | mul (a b : RExpr)

/-- Join strings with a separator. -/
def interc (sep : Str) : List Str → Str
  | [] => []
  | [x] => x
  | x :: y :: rest => x ++ sep ++ interc sep (y :: rest)

/-- Text of a tensor access `t[i1,...,ik]`. -/
def renderAccess (t : Str) (idx : List Str) : Str :=
  t ++ ['['] ++ interc [','] idx ++ [']']

/-- Text of a right-side expression. -/
def renderExpr : RExpr → Str
  | .acc t i => renderAccess t i
  | .paren e => ['('] ++ renderExpr e ++ [')']
  | .add a b => renderExpr a ++ ['+'] ++ renderExpr b
  | .mul a b => renderExpr a ++ ['*'] ++ renderExpr b

/-- Text of a loop header. -/
def renderHeader (h : LoopHeader) : Str :=
  h.var ++ ['='] ++ h.lb ++ [':'] ++ h.ub ++ [':'] ++ h.st

/-- An abstract DSL program. -/
structure Prog where
  headers : List LoopHeader
  lhsTensor : Str
  lhsIdx : List Str
  rhs : RExpr

/-- Canonical program text: `LOOPS:` + comma-joined headers + `BODY:` +
`lhs=rhs`, with no whitespace. -/
def renderProg (p : Prog) : Str :=
  kLOOPS ++ interc [','] (p.headers.map renderHeader) ++
    kBODY ++ renderAccess p.lhsTensor p.lhsIdx ++ ['='] ++ renderExpr p.rhs

/-- A header-section token as the positive theorem restricts it: nonempty,
alphanumeric, and free of `B`.  The `B`-freeness is strictly more than the
grammar demands (the real parser handles e.g. an index named `B` fine): it
is a conservative sufficient condition guaranteeing that the substring
`BODY:` cannot occur before the real marker, which the grammar alone does
not guarantee (see `buildUntiledIR_marker_collision_fails`). -/
def headerTokOk (s : Str) : Prop :=
  s ≠ [] ∧ ∀ c ∈ s, c.isAlphanum = true ∧ c ≠ 'B'

/-- A bound token additionally fits `int` when it is all digits (so `stoi`
does not overflow). -/
def boundTokOk (s : Str) : Prop :=
  headerTokOk s ∧ (s.all (fun c => c.isDigit) = true → natOfDigits s ≤ 2 ^ 31 - 1)

def headerOk (h : LoopHeader) : Prop :=
  headerTokOk h.var ∧ boundTokOk h.lb ∧ boundTokOk h.ub ∧ boundTokOk h.st

/-- An index identifier: nonempty and alphanumeric. -/
def identOk (s : Str) : Prop := s ≠ [] ∧ ∀ c ∈ s, c.isAlphanum = true

/-- A well-formed access: a registered tensor name and a nonempty list of
identifiers. -/
def accessOk (t : Str) (idx : List Str) : Prop :=
  (t = "A".toList ∨ t = "B".toList ∨ t = "C".toList) ∧ idx ≠ [] ∧ ∀ i ∈ idx, identOk i

def rexprOk : RExpr → Prop
  | .acc t i => accessOk t i
  | .paren e => rexprOk e
  | .add a b => rexprOk a ∧ rexprOk b
  | .mul a b => rexprOk a ∧ rexprOk b

/-- No parentheses anywhere in the expression. -/
def parenFree : RExpr → Prop
  | .acc _ _ => True
  | .paren _ => False
  | .add a b => parenFree a ∧ parenFree b
  | .mul a b => parenFree a ∧ parenFree b

/-- A valid program: well-formed header tokens, a registered left-side
access, and a well-formed right side. -/
def progOk (p : Prog) : Prop :=
  (∀ h ∈ p.headers, headerOk h) ∧ accessOk p.lhsTensor p.lhsIdx ∧ rexprOk p.rhs

def headerTokOkB (s : Str) : Bool :=
  decide (s ≠ []) && s.all (fun c => c.isAlphanum && c != 'B')

instance headerTokOkDec (s : Str) : Decidable (headerTokOk s) :=
  decidable_of_iff (headerTokOkB s = true) (by
    simp [headerTokOk, headerTokOkB, List.all_eq_true])

instance boundTokOkDec (s : Str) : Decidable (boundTokOk s) :=
  instDecidableAnd

instance headerOkDec (h : LoopHeader) : Decidable (headerOk h) :=
  instDecidableAnd

def identOkB (s : Str) : Bool :=
  decide (s ≠ []) && s.all (fun c => c.isAlphanum)

instance identOkDec (s : Str) : Decidable (identOk s) :=
  decidable_of_iff (identOkB s = true) (by
    simp [identOk, identOkB, List.all_eq_true])

instance accessOkDec (t : Str) (idx : List Str) : Decidable (accessOk t idx) :=
  instDecidableAnd

instance rexprOkDec : (e : RExpr) → Decidable (rexprOk e)
  | .acc t i => accessOkDec t i
  | .paren e => rexprOkDec e
  | .add a b => @instDecidableAnd _ _ (rexprOkDec a) (rexprOkDec b)
  | .mul a b => @instDecidableAnd _ _ (rexprOkDec a) (rexprOkDec b)

instance parenFreeDec : (e : RExpr) → Decidable (parenFree e)
  | .acc _ _ => .isTrue trivial
  | .paren _ => .isFalse (fun h => h)
  | .add a b => @instDecidableAnd _ _ (parenFreeDec a) (parenFreeDec b)
  | .mul a b => @instDecidableAnd _ _ (parenFreeDec a) (parenFreeDec b)

instance progOkDec (p : Prog) : Decidable (progOk p) :=
  instDecidableAnd

/-- A bound token as the grammar alone constrains it: nonempty and
alphanumeric (an all-digit one fitting `int`), WITHOUT the `B`-freeness
that `headerTokOk` adds on top. -/
def boundTokLoose (s : Str) : Prop :=
  identOk s ∧ (s.all (fun c => c.isDigit) = true → natOfDigits s ≤ 2 ^ 31 - 1)

def headerLoose (hd : LoopHeader) : Prop :=
  identOk hd.var ∧ boundTokLoose hd.lb ∧ boundTokLoose hd.ub ∧ boundTokLoose hd.st

/-- Grammar-validity of a program: exactly what "valid DSL program text"
gives, with no protection against marker collisions.  Every `progOk`
program is `progOkGrammar`, but not conversely. -/
def progOkGrammar (p : Prog) : Prop :=
  (∀ hd ∈ p.headers, headerLoose hd) ∧ accessOk p.lhsTensor p.lhsIdx ∧ rexprOk p.rhs

instance boundTokLooseDec (s : Str) : Decidable (boundTokLoose s) :=
  instDecidableAnd

instance headerLooseDec (hd : LoopHeader) : Decidable (headerLoose hd) :=
  instDecidableAnd

instance progOkGrammarDec (p : Prog) : Decidable (progOkGrammar p) :=
  instDecidableAnd

/-- The grammar-valid, parenthesis-free program
`LOOPS:i=0:BODY:1BODY:C[i]=A[i]`, whose upper bound is the bare symbol
`BODY`. -/
def pMarkerCollision : Prog :=
  ⟨[⟨"i".toList, "0".toList, "BODY".toList, "1".toList⟩],
   "C".toList, ["i".toList], .acc "A".toList ["i".toList]⟩

/-- Claim C5's result shape: one `Loop` per header, the first header
outermost, each loop owning exactly the next level as its single body
statement, innermost a single `Assign` whose target is the `Store` built
from the statement's left side. -/
def nestShape : List LoopHeader → Str → List Str → PNode → Prop
  | [], lt, li, t => ∃ v, t = .assign (.store lt (li.map PNode.var)) v
  | h :: hs, lt, li, t =>
      ∃ lb ub st inner, t = .loop h.var lb ub st [inner] ∧ nestShape hs lt li inner

/-- `out` is `inner` wrapped in one singleton-body `Loop` per header, the
first header outermost. -/
def nestAround : List LoopHeader → PNode → PNode → Prop
  | [], inner, out => out = inner
  | h :: hs, inner, out =>
      ∃ lb ub st rest, out = .loop h.var lb ub st [rest] ∧ nestAround hs inner rest

/-- Strings that are a chain of well-formed accesses joined by `+`/`*`
characters — the possible right-side texts of a paren-free program. -/
inductive Chain : Str → Prop where
  | single : ∀ t idx, accessOk t idx → Chain (renderAccess t idx)
  | op : ∀ s c t idx, Chain s → (c = '+' ∨ c = '*') → accessOk t idx →
      Chain (s ++ c :: renderAccess t idx)

/-! ### Explicit-heap model (for claims C2 and C3)

`deepCopy` and `tilingPass` are modeled a second time over an explicit heap
in which every node object lives at an address, `std::make_unique` is
allocation of a fresh address, and the in-place rewrites of `tilingPass`
are heap updates.  This makes the aliasing claims expressible: "shares no
node instance" is address-disjointness, "never mutates its input" is that
no cell of the input region changes. -/

/-- A heap cell: one `IRNode` object with its owned children by address
(`unique_ptr` members) and its non-owned tensor reference by name. -/
inductive HCell where
  | constC (v : CVal) (d : DTy)
  | varC (name : Str)
  | minC (a b : Nat)
  | addC (a b : Nat)
  | mulC (a b : Nat)
  | loadC (tensor : Str) (indices : List Nat)
  | storeC (tensor : Str) (indices : List Nat)
  | assignC (target value : Nat)
  | loopC (index : Str) (lb ub step : Nat) (body : List Nat)
deriving DecidableEq, Repr

/-- The heap is an arena: a cell's address is its index, and allocation
appends at the end. -/
abbrev Heap := List HCell

def alloc (h : Heap) (c : HCell) : Heap × Nat := (h ++ [c], h.length)

/-- The owned child addresses of a cell. -/
def cellKids : HCell → List Nat
  | .constC _ _ => []
  | .varC _ => []
  | .minC a b => [a, b]
  | .addC a b => [a, b]
  | .mulC a b => [a, b]
  | .loadC _ idx => idx
  | .storeC _ idx => idx
  | .assignC t v => [t, v]
  | .loopC _ lb ub st body => lb :: ub :: st :: body

/-- Sequencing of `Option` results (explicit combinator so that unfolding
lemmas stay rewrite-friendly). -/
def omap1 {α γ : Type} (x : Option α) (k : α → γ) : Option γ :=
  match x with
  | some a => some (k a)
  | none => none

def omap2 {α β γ : Type} (x : Option α) (y : Option β) (k : α → β → γ) : Option γ :=
  match x, y with
  | some a, some b => some (k a b)
  | _, _ => none

def omap4 {α β γ δ ε : Type} (x : Option α) (y : Option β) (z : Option γ)
    (w : Option δ) (k : α → β → γ → δ → ε) : Option ε :=
  match x, y, z, w with
  | some a, some b, some c, some d => some (k a b c d)
  | _, _, _, _ => none

mutual
/-- Extract the pure tree rooted at an address (fuel-bounded; `none` on a
dangling address or exhausted fuel). -/
def readTree : Nat → Heap → Nat → Option PNode
  | 0, _, _ => none
  | f + 1, h, a =>
    match h.get? a with
    | none => none
    | some (.constC v d) => some (.const v d)
    | some (.varC n) => some (.var n)
    | some (.minC x y) => omap2 (readTree f h x) (readTree f h y) PNode.min
    | some (.addC x y) => omap2 (readTree f h x) (readTree f h y) PNode.add
    | some (.mulC x y) => omap2 (readTree f h x) (readTree f h y) PNode.mul
    | some (.loadC t idx) => omap1 (readTreeL f h idx) (PNode.load t)
    | some (.storeC t idx) => omap1 (readTreeL f h idx) (PNode.store t)
    | some (.assignC x y) => omap2 (readTree f h x) (readTree f h y) PNode.assign
    | some (.loopC i lb ub st body) =>
      omap4 (readTree f h lb) (readTree f h ub) (readTree f h st)
        (readTreeL f h body) (PNode.loop i)

def readTreeL : Nat → Heap → List Nat → Option (List PNode)
  | 0, _, _ => none
  | _ + 1, _, [] => some []
  | f + 1, h, a :: as => omap2 (readTree f h a) (readTreeL f h as) List.cons
end

/-- Sequencing of heap-threading computations that may fail: on failure the
heap obtained so far is kept and the failure propagates. -/
def hbind {α β : Type} (r : Heap × Option α) (k : Heap → α → Heap × Option β) :
    Heap × Option β :=
  match r with
  | (h1, some a) => k h1 a
  | (h1, none) => (h1, none)

/-- Allocate a cell and return its (successful) address. -/
def allocS (h : Heap) (c : HCell) : Heap × Option Nat := (h ++ [c], some h.length)

mutual
/-- `deepCopy` (`TilingPass.cpp` lines 27–97) over the explicit heap: read
the cell, recursively copy the owned children, allocate the new cell.  In
the `Loop` case the new node is allocated first and its body is copied and
assigned afterwards, as in the source.  `none` only on a dangling address
or exhausted fuel (the C++ recursion always terminates on real trees). -/
def deepCopyH : Nat → Heap → Nat → Heap × Option Nat
  | 0, h, _ => (h, none)
  | f + 1, h, a =>
    match h.get? a with
    | none => (h, none)
    | some (.constC v d) => allocS h (.constC v d)
    | some (.varC n) => allocS h (.varC n)
    | some (.minC x y) =>
      hbind (deepCopyH f h x) fun h1 x2 =>
      hbind (deepCopyH f h1 y) fun h2 y2 => allocS h2 (.minC x2 y2)
    | some (.addC x y) =>
      hbind (deepCopyH f h x) fun h1 x2 =>
      hbind (deepCopyH f h1 y) fun h2 y2 => allocS h2 (.addC x2 y2)
    | some (.mulC x y) =>
      hbind (deepCopyH f h x) fun h1 x2 =>
      hbind (deepCopyH f h1 y) fun h2 y2 => allocS h2 (.mulC x2 y2)
    | some (.loadC t idx) =>
      hbind (deepCopyListH f h idx) fun h1 idx2 => allocS h1 (.loadC t idx2)
    | some (.storeC t idx) =>
      hbind (deepCopyListH f h idx) fun h1 idx2 => allocS h1 (.storeC t idx2)
    | some (.assignC x y) =>
      hbind (deepCopyH f h x) fun h1 x2 =>
      hbind (deepCopyH f h1 y) fun h2 y2 => allocS h2 (.assignC x2 y2)
    | some (.loopC i lb ub st body) =>
      hbind (deepCopyH f h lb) fun h1 lb2 =>
      hbind (deepCopyH f h1 ub) fun h2 ub2 =>
      hbind (deepCopyH f h2 st) fun h3 st2 =>
      hbind (deepCopyListH f (h3 ++ [.loopC i lb2 ub2 st2 []]) body) fun h5 body2 =>
        (h5.set h3.length (.loopC i lb2 ub2 st2 body2), some h3.length)

/-- `deepCopyVector` (`TilingPass.cpp` lines 11–19) over the explicit heap:
copy each element in order. -/
def deepCopyListH : Nat → Heap → List Nat → Heap × Option (List Nat)
  | 0, h, _ => (h, none)
  | _ + 1, h, [] => (h, some [])
  | f + 1, h, a :: as =>
    hbind (deepCopyH f h a) fun h1 a2 =>
    hbind (deepCopyListH f h1 as) fun h2 as2 => (h2, some (a2 :: as2))
end

/-- Run a continuation on the fields of a `Loop` cell; any other cell is the
undefined-behavior `static_cast` (`(h, none)`). -/
def withLoop (h : Heap) (a : Nat)
    (k : Str → Nat → Nat → Nat → List Nat → Heap × Option Nat) :
    Heap × Option Nat :=
  match h.get? a with
  | some (.loopC i lb ub st body) => k i lb ub st body
  | _ => (h, none)

/-- Run a continuation on `body_.front()`; an empty vector is undefined
behavior (`(h, none)`). -/
def withHead (h : Heap) (l : List Nat) (k : Nat → Heap × Option Nat) :
    Heap × Option Nat :=
  match l with
  | [] => (h, none)
  | a :: _ => k a

/-- `tilingPass` (`TilingPass.cpp` lines 105–146) over the explicit heap,
statement by statement.  The unchecked `static_cast`s demand that the root
cell and the first cell of its body are loops (anything else is undefined
behavior — `none`); then: `cpy = deepCopy(nd)`; fresh `ii`/`jj`/`T`
variables; the `Add` and `Min` bound trees (lines 118–126); the four
in-place bound mutations on the two copied loops (lines 128–131); the two
fresh tile loops (lines 133–140); the two `push_back`s (lines 142–143). -/
def tilingPassH (f : Nat) (h : Heap) (root : Nat) : Heap × Option Nat :=
  withLoop h root fun _ lbI ubI _ bodyI =>
  withHead h bodyI fun ogJ =>
  withLoop h ogJ fun _ lbJ ubJ _ _ =>
  hbind (deepCopyH f h root) fun h1 cpy =>
  withLoop h1 cpy fun i _ ubI2 stI2 bodyI2 =>
  withHead h1 bodyI2 fun lj =>
  withLoop h1 lj fun j _ ubJ2 stJ2 bodyJ2 =>
  hbind (allocS h1 (.varC "ii".toList)) fun hA aII =>
  hbind (allocS hA (.varC "jj".toList)) fun hB aJJ =>
  hbind (allocS hB (.varC "T".toList)) fun hC aT =>
  hbind (deepCopyH f hC aII) fun h5 aII2 =>
  hbind (deepCopyH f h5 aT) fun h6 aT2 =>
  hbind (allocS h6 (.addC aII2 aT2)) fun h7 aAddI =>
  hbind (deepCopyH f h7 aJJ) fun h8 aJJ2 =>
  hbind (deepCopyH f h8 aT) fun h9 aT3 =>
  hbind (allocS h9 (.addC aJJ2 aT3)) fun h10 aAddJ =>
  hbind (deepCopyH f h10 ubI) fun h11 ubI3 =>
  hbind (allocS h11 (.minC aAddI ubI3)) fun h12 aMinI =>
  hbind (deepCopyH f h12 ubJ) fun h13 ubJ3 =>
  hbind (allocS h13 (.minC aAddJ ubJ3)) fun h14 aMinJ =>
  hbind (deepCopyH f h14 aII) fun h15 aII3 =>
  hbind (deepCopyH f (h15.set cpy (.loopC i aII3 ubI2 stI2 bodyI2)) aJJ)
    fun h17 aJJ3 =>
  hbind (deepCopyH f
      (((h17.set lj (.loopC j aJJ3 ubJ2 stJ2 bodyJ2)).set cpy
        (.loopC i aII3 aMinI stI2 bodyI2)).set lj
        (.loopC j aJJ3 aMinJ stJ2 bodyJ2)) lbJ) fun h21 lbJ3 =>
  hbind (deepCopyH f h21 ubJ) fun h22 ubJ4 =>
  hbind (deepCopyH f h22 aT) fun h23 aT4 =>
  hbind (allocS h23 (.loopC "jj".toList lbJ3 ubJ4 aT4 [])) fun h24 aLjj =>
  hbind (deepCopyH f h24 lbI) fun h25 lbI3 =>
  hbind (deepCopyH f h25 ubI) fun h26 ubI4 =>
  hbind (deepCopyH f h26 aT) fun h27 aT5 =>
  hbind (allocS h27 (.loopC "ii".toList lbI3 ubI4 aT5 [])) fun h28 aLii =>
  ((h28.set aLjj (.loopC "jj".toList lbJ3 ubJ4 aT4 [cpy])).set aLii
    (.loopC "ii".toList lbI3 ubI4 aT5 [aLjj]), some aLii)

/-- `h2` preserves every cell of the region `[0, h.length)` and only grows. -/
def Extends (h h2 : Heap) : Prop :=
  h.length ≤ h2.length ∧ ∀ i, i < h.length → h2.get? i = h.get? i

/-- Every cell of `h2` in the fresh region `[h.length, …)` points only into
the fresh region (and within `h2`). -/
def FreshClosed (h h2 : Heap) : Prop :=
  ∀ i c, h.length ≤ i → h2.get? i = some c →
    ∀ k ∈ cellKids c, h.length ≤ k ∧ k < h2.length

/-- Node kinds that are invalid in expression position (claim C7): `Loop`,
`Assign`, and a `Store` used as a value. -/
def isExprInvalid : PNode → Bool
  | .assign _ _ => true
  | .store _ _ => true
  | .loop _ _ _ _ _ => true
  | _ => false

/-- Index (within the enclosing string) at which the parenthesis currently
open at depth `d` is closed, scanning from position `i`; `none` if it never
closes. -/
def matchClosePos (d i : Nat) : Str → Option Nat
  | [] => none
  | c :: rest =>
    if c = '(' then matchClosePos (d + 1) (i + 1) rest
    else if c = ')' then
      (if d = 1 then some i else matchClosePos (d - 1) (i + 1) rest)
    else matchClosePos d (i + 1) rest

/-- A text fully wrapped in one matching pair of parentheses: it starts with
`'('` and that parenthesis closes exactly at the final character. -/
def fullyWrapped (t : Str) : Bool :=
  match t with
  | '(' :: rest =>
    match matchClosePos 1 1 rest with
    | some p => p + 1 = t.length
    | none => false
  | _ => false

/-- Claim C6's description of the expression parser, as worded: clean the
whitespace; a sub-expression fully wrapped in one *matching* pair of
parentheses has that pair stripped before re-scanning; otherwise split at
the rightmost `+` if any occurs, else at the rightmost `*`, recursing on the
two sides; an operator-free text is a tensor access.  (This definition
follows the claim's words, to be compared with the source's
`parseExpression`.) -/
def parseExpressionClaim : Nat → Str → Except BuildErr PNode
  | 0, _ => .error .fuel
  | f + 1, s =>
    let t := s.filter (fun c => ¬ isSpaceC c)
    if fullyWrapped t then parseExpressionClaim f ((t.drop 1).dropLast)
    else
      let p := rfindChar '+' t
      if p ≠ NPOS then do
        let l ← parseExpressionClaim f (t.take p)
        let r ← parseExpressionClaim f (t.drop (p + 1))
        return .add l r
      else
        let q := rfindChar '*' t
        if q ≠ NPOS then do
          let l ← parseExpressionClaim f (t.take q)
          let r ← parseExpressionClaim f (t.drop (q + 1))
          return .mul l r
        else parseLoad t

/-- The paren stripping the source actually performs: drop the first and
last characters whenever they are `'('` and `')'`, matching or not. -/
def stripOuterParens (t : Str) : Str :=
  if t.head? = some '(' ∧ t.getLast? = some ')' then (t.drop 1).dropLast else t

/-- Claim C6 as amended, in its own words: on the whitespace-cleaned text,
with the first and last characters dropped whenever they are `'('` and `')'`
(matching or not), split at the rightmost `+` if any occurs, else at the
rightmost `*`, recursing on the two sides; an operator-free text is parsed
as a tensor access. -/
def parseExpressionAmended : Nat → Str → Except BuildErr PNode
  | 0, _ => .error .fuel
  | f + 1, s =>
    let t := stripOuterParens (s.filter (fun c => ¬ isSpaceC c))
    let p := rfindChar '+' t
    if p ≠ NPOS then do
      let l ← parseExpressionAmended f (t.take p)
      let r ← parseExpressionAmended f (t.drop (p + 1))
      return .add l r
    else
      let q := rfindChar '*' t
      if q ≠ NPOS then do
        let l ← parseExpressionAmended f (t.take q)
        let r ← parseExpressionAmended f (t.drop (q + 1))
        return .mul l r
      else parseLoad t

/-- The shape actually required by `tilingPass` to avoid undefined behavior:
the root is a `Loop` with a nonempty body whose first statement is a `Loop`.
Nothing about the inner loop's body is examined by the pass. -/
def tilingShapeOk : PNode → Bool
  | .loop _ _ _ _ (inner :: _) =>
    match inner with
    | .loop _ _ _ _ _ => true
    | _ => false
  | _ => false

/-- Frame invariant of one allocation step relative to a base heap `h`: the
result heap preserves every cell of `h` and only grows, every cell of the
fresh region points into the fresh region, and a returned address is fresh. -/
def CopyOk (h : Heap) (r : Heap × Option Nat) : Prop :=
  Extends h r.1 ∧ FreshClosed h r.1 ∧
    ∀ a2, r.2 = some a2 → h.length ≤ a2 ∧ a2 < r.1.length

/-- `CopyOk` for a step returning a list of addresses. -/
def CopyOkL (h : Heap) (r : Heap × Option (List Nat)) : Prop :=
  Extends h r.1 ∧ FreshClosed h r.1 ∧
    ∀ as2, r.2 = some as2 → ∀ x ∈ as2, h.length ≤ x ∧ x < r.1.length

/-- Concrete heap holding the tree `x = 1` (an `Assign` at address 2). -/
def hC3 : Heap := [.varC ['x'], .constC (.i32 1) .int32, .assignC 0 1]

/-- Concrete heap holding the two-level nest
`for i = 0..10 step 1 { for j = 0..10 step 1 { x = 1 } }` rooted at 10. -/
def hC2 : Heap :=
  [.constC (.i32 0) .int32, .constC (.i32 10) .int32, .constC (.i32 1) .int32,
   .constC (.i32 0) .int32, .constC (.i32 10) .int32, .constC (.i32 1) .int32,
   .varC ['x'], .constC (.i32 1) .int32, .assignC 6 7,
   .loopC ['j'] 3 4 5 [8], .loopC ['i'] 0 1 2 [9]]

end TIR

namespace TIR

/-- Structural induction principle for the nested inductive `PNode`,
giving element-wise hypotheses for the child lists. -/
@[induction_eliminator]
theorem PNode.indOn {motive : PNode → Prop}
    (const : ∀ v d, motive (.const v d))
    (var : ∀ n, motive (.var n))
    (min : ∀ a b, motive a → motive b → motive (.min a b))
    (add : ∀ a b, motive a → motive b → motive (.add a b))
    (mul : ∀ a b, motive a → motive b → motive (.mul a b))
    (load : ∀ t idx, (∀ x ∈ idx, motive x) → motive (.load t idx))
    (store : ∀ t idx, (∀ x ∈ idx, motive x) → motive (.store t idx))
    (assign : ∀ t v, motive t → motive v → motive (.assign t v))
    (loop : ∀ i lb ub st body, motive lb → motive ub → motive st →
      (∀ x ∈ body, motive x) → motive (.loop i lb ub st body)) :
    ∀ t, motive t :=
  @PNode.rec motive (fun l => ∀ x ∈ l, motive x)
    const var min add mul load store assign loop
    (fun x hx => absurd hx (List.not_mem_nil x))
    (fun h t mh mt x hx => by
      rcases List.mem_cons.mp hx with h1 | h2
      · exact h1 ▸ mh
      · exact mt x h2)

theorem deepCopyVector_eq_map (l : List PNode) :
    deepCopyVector l = l.map deepCopy := by
  induction l with
  | nil => rfl
  | cons x xs ih => simp [deepCopyVector, ih]

theorem deepCopyVector_id_of (l : List PNode) (h : ∀ x ∈ l, deepCopy x = x) :
    deepCopyVector l = l := by
  induction l with
  | nil => rfl
  | cons x xs ih =>
      simp only [deepCopyVector, h x (List.mem_cons_self x xs)]
      rw [ih (fun y hy => h y (List.mem_cons_of_mem x hy))]

theorem deepCopy_id : ∀ t : PNode, deepCopy t = t := by
  intro t
  induction t with
  | const v d => rfl
  | var n => rfl
  | min a b iha ihb => simp [deepCopy, iha, ihb]
  | add a b iha ihb => simp [deepCopy, iha, ihb]
  | mul a b iha ihb => simp [deepCopy, iha, ihb]
  | load t idx ih => simp [deepCopy, deepCopyVector_id_of idx ih]
  | store t idx ih => simp [deepCopy, deepCopyVector_id_of idx ih]
  | assign t v iht ihv => simp [deepCopy, iht, ihv]
  | loop i lb ub st body ih1 ih2 ih3 ih4 =>
      simp [deepCopy, ih1, ih2, ih3, deepCopyVector_id_of body ih4]

/-- Claim C1: on a two-level one-statement nest whose innermost statement is
an `Assign`, `tilingPass` produces the four-level nest `ii > jj > i > j >
Assign`: tile loop `ii` over `[lb_i, ub_i)` step `T`, tile loop `jj` over
`[lb_j, ub_j)` step `T`, point loop `i` over `[ii, Min(ii+T, ub_i))` with the
original step `s_i`, point loop `j` over `[jj, Min(jj+T, ub_j))` with the
original step `s_j`, and a copy of the original `Assign` innermost. -/
theorem tilingPass_two_level_shape (i j : Str) (lbI ubI stI lbJ ubJ stJ tgt val : PNode) :
    tilingPass (.loop i lbI ubI stI [.loop j lbJ ubJ stJ [.assign tgt val]]) =
      some (.loop "ii".toList lbI ubI (.var "T".toList)
        [.loop "jj".toList lbJ ubJ (.var "T".toList)
          [.loop i (.var "ii".toList)
              (.min (.add (.var "ii".toList) (.var "T".toList)) ubI) stI
            [.loop j (.var "jj".toList)
                (.min (.add (.var "jj".toList) (.var "T".toList)) ubJ) stJ
              [.assign tgt val]]]]) := by
  simp [tilingPass, deepCopyVector, deepCopy_id]

/-- Claim C4, counterexample: this input is *not* a clean two-level
one-statement nest (its innermost statement is a `Loop`, not an `Assign`),
yet `tilingPass` does not fail at all — there is no
`StructuralPreconditionError` anywhere in the code — it happily transforms
the tree. -/
theorem tilingPass_no_error_on_three_level_nest :
    tilingPass
      (.loop "i".toList (.const (.i32 0) .int32) (.var "N".toList) (.const (.i32 1) .int32)
        [.loop "j".toList (.const (.i32 0) .int32) (.var "M".toList) (.const (.i32 1) .int32)
          [.loop "k".toList (.const (.i32 0) .int32) (.var "K".toList) (.const (.i32 1) .int32)
            []]]) =
      some (.loop "ii".toList (.const (.i32 0) .int32) (.var "N".toList) (.var "T".toList)
        [.loop "jj".toList (.const (.i32 0) .int32) (.var "M".toList) (.var "T".toList)
          [.loop "i".toList (.var "ii".toList)
              (.min (.add (.var "ii".toList) (.var "T".toList)) (.var "N".toList))
              (.const (.i32 1) .int32)
            [.loop "j".toList (.var "jj".toList)
                (.min (.add (.var "jj".toList) (.var "T".toList)) (.var "M".toList))
                (.const (.i32 1) .int32)
              [.loop "k".toList (.const (.i32 0) .int32) (.var "K".toList)
                  (.const (.i32 1) .int32) []]]]]) := rfl

/-- Claim C4, amended: `tilingPass` checks no precondition.  It succeeds
exactly when the root is a `Loop` with a nonempty body whose first statement
is a `Loop` (regardless of what the inner body holds); on every other shape
its behavior is undefined (the source `static_cast`s and dereferences without
any validation — its own comment warns "PROGRAM WILL CRASH").  No
`StructuralPreconditionError` is ever raised. -/
theorem tilingPass_succeeds_iff_outer_two_loops (nd : PNode) :
    (tilingPass nd).isSome = tilingShapeOk nd := by
  cases nd with
  | loop i lb ub st body =>
    cases body with
    | nil => rfl
    | cons inner rest => cases inner <;> rfl
  | const v d => rfl
  | var n => rfl
  | min a b => rfl
  | add a b => rfl
  | mul a b => rfl
  | load t idx => rfl
  | store t idx => rfl
  | assign t v => rfl

theorem NPOS_pos : 0 < NPOS := by norm_num [NPOS]

theorem findChar_eq_NPOS_of_not_mem {c : Char} : ∀ {s : Str}, c ∉ s → findChar c s = NPOS := by
  intro s
  induction s with
  | nil => intro _; rfl
  | cons x xs ih =>
      intro h
      have hx : ¬ x = c := fun hc => h (hc ▸ List.mem_cons_self x xs)
      have hxs : c ∉ xs := fun hc => h (List.mem_cons_of_mem x hc)
      simp [findChar, hx, ih hxs]

theorem rfindChar_eq_NPOS_of_not_mem {c : Char} : ∀ {s : Str}, c ∉ s → rfindChar c s = NPOS := by
  intro s
  induction s with
  | nil => intro _; rfl
  | cons x xs ih =>
      intro h
      have hx : ¬ x = c := fun hc => h (hc ▸ List.mem_cons_self x xs)
      have hxs : c ∉ xs := fun hc => h (List.mem_cons_of_mem x hc)
      simp [rfindChar, hx, ih hxs]

theorem findChar_spec (c : Char) :
    ∀ s : Str, s.length ≤ NPOS →
      (findChar c s = NPOS ↔ c ∉ s) ∧ (findChar c s ≠ NPOS → findChar c s < s.length) := by
  intro s
  induction s with
  | nil => intro _; simp [findChar]
  | cons x xs ih =>
      intro hlen
      have hxs : xs.length ≤ NPOS := le_trans (Nat.le_succ _) hlen
      obtain ⟨ih1, ih2⟩ := ih hxs
      by_cases hx : x = c
      · have hf : findChar c (x :: xs) = 0 := by simp [findChar, hx]
        rw [hf]
        refine ⟨iff_of_false (Nat.ne_of_lt NPOS_pos) ?_, fun _ => Nat.succ_pos _⟩
        exact fun hnm => hnm (hx ▸ List.mem_cons_self x xs)
      · by_cases hr : findChar c xs = NPOS
        · have hf : findChar c (x :: xs) = NPOS := by simp [findChar, hx, hr]
          rw [hf]
          refine ⟨iff_of_true rfl ?_, fun hne => absurd rfl hne⟩
          intro hmem
          rcases List.mem_cons.mp hmem with h1 | h2
          · exact hx h1.symm
          · exact ih1.mp hr h2
        · have hlt : findChar c xs < xs.length := ih2 hr
          have hne : findChar c xs + 1 ≠ NPOS := by
            have h1 : findChar c xs + 1 ≤ xs.length := hlt
            have h2 : xs.length < (x :: xs).length := by simp
            exact Nat.ne_of_lt (lt_of_le_of_lt h1 (lt_of_lt_of_le h2 hlen))
          have hmem : c ∈ xs := by
            by_contra hcon
            exact hr (findChar_eq_NPOS_of_not_mem hcon)
          have hf : findChar c (x :: xs) = findChar c xs + 1 := by
            simp [findChar, hx, hr]
          rw [hf]
          refine ⟨iff_of_false hne ?_, fun _ => Nat.succ_lt_succ hlt⟩
          exact fun hnm => hnm (List.mem_cons_of_mem x hmem)

theorem rfindChar_spec (c : Char) :
    ∀ s : Str, s.length ≤ NPOS →
      (rfindChar c s = NPOS ↔ c ∉ s) ∧ (rfindChar c s ≠ NPOS → rfindChar c s < s.length) := by
  intro s
  induction s with
  | nil => intro _; simp [rfindChar]
  | cons x xs ih =>
      intro hlen
      have hxs : xs.length ≤ NPOS := le_trans (Nat.le_succ _) hlen
      obtain ⟨ih1, ih2⟩ := ih hxs
      by_cases hr : rfindChar c xs = NPOS
      · by_cases hx : x = c
        · have hf : rfindChar c (x :: xs) = 0 := by simp [rfindChar, hx, hr]
          rw [hf]
          refine ⟨iff_of_false (Nat.ne_of_lt NPOS_pos) ?_, fun _ => Nat.succ_pos _⟩
          exact fun hnm => hnm (hx ▸ List.mem_cons_self x xs)
        · have hf : rfindChar c (x :: xs) = NPOS := by simp [rfindChar, hx, hr]
          rw [hf]
          refine ⟨iff_of_true rfl ?_, fun hne => absurd rfl hne⟩
          intro hmem
          rcases List.mem_cons.mp hmem with h1 | h2
          · exact hx h1.symm
          · exact ih1.mp hr h2
      · have hlt : rfindChar c xs < xs.length := ih2 hr
        have hne : rfindChar c xs + 1 ≠ NPOS := by
          have h1 : rfindChar c xs + 1 ≤ xs.length := hlt
          have h2 : xs.length < (x :: xs).length := by simp
          exact Nat.ne_of_lt (lt_of_le_of_lt h1 (lt_of_lt_of_le h2 hlen))
        have hmem : c ∈ xs := by
          by_contra hcon
          exact hr (rfindChar_eq_NPOS_of_not_mem hcon)
        have hf : rfindChar c (x :: xs) = rfindChar c xs + 1 := by
          simp [rfindChar, hr]
        rw [hf]
        refine ⟨iff_of_false hne ?_, fun _ => Nat.succ_lt_succ hlt⟩
        exact fun hnm => hnm (List.mem_cons_of_mem x hmem)

/-- Claim C8, counterexample: this input has no `BODY:` marker at all, yet
`buildUntiledIR` succeeds.  `find("BODY:")` returns `npos`, the `size_t`
arithmetic wraps (`npos + 5 ≡ 4`), so the body is silently taken from index
4 onward and everything happens to parse. -/
theorem buildUntiledIR_missing_BODY_marker_succeeds :
    buildUntiledIR "ZZZZC[i,j]=A[i,j]LOOPS:i=0:N:1".toList =
      .ok (.loop "i".toList (.const (.i32 0) .int32) (.var "N".toList) (.const (.i32 1) .int32)
        [.assign (.store "C".toList [.var "i".toList, .var "j".toList])
          (.load "A".toList [.var "i".toList, .var "j".toList])]) := by
  rfl

/-- Claim C8, amended: a tensor access in which `[` or `]` does not occur at
all fails with the `runtime_error` reason `Invalid array access format in
body.` (the model's `ParseError`); but the `LOOPS:`/`BODY:` markers are not
validated (a missing marker wraps the `size_t` substring arithmetic and can
even yield a successful parse), and a bracket *pair* is never checked for
matching — only the presence of each bracket somewhere in the access. -/
theorem parseTensorAccess_missing_bracket (s : Str)
    (h : findChar '[' s = NPOS ∨ findChar ']' s = NPOS) :
    parseTensorAccess s = .error (.parseError msgInvalidAccess) := by
  rcases h with h | h <;> simp [parseTensorAccess, h]

/-- Witness for `parseTensorAccess_missing_bracket` at the access `Ci,j`. -/
theorem parseTensorAccess_missing_bracket_witness :
    parseTensorAccess "Ci,j".toList = .error (.parseError msgInvalidAccess) :=
  parseTensorAccess_missing_bracket "Ci,j".toList (Or.inl rfl)

theorem computeStrides_fst (l : List Nat) : (computeStrides l).1 = w64 l.prod := by
  induction l with
  | nil => simp [computeStrides, w64, Nat.mod_eq_of_lt]
  | cons e rest ih =>
      simp only [computeStrides, ih, List.prod_cons, w64]
      rw [Nat.mod_mul_mod, Nat.mul_comm]

theorem computeStrides_snd (l : List Nat) : (computeStrides l).2 = rowMajorStrides l := by
  induction l with
  | nil => rfl
  | cons e rest ih =>
      simp only [computeStrides, rowMajorStrides, List.length_cons,
        List.range_succ_eq_map, List.map_cons, List.drop_succ_cons, List.drop_zero,
        List.map_map]
      rw [computeStrides_fst, ih, rowMajorStrides]
      congr 1

/-- Claim C9, counterexample: registering a tensor with a zero extent (the
only way an unsigned extent can be `≤ 0`) succeeds — the constructor checks
nothing except `dims == extents.size()`, so no `ShapeMismatchError` arises
where the claim requires one. -/
theorem tensorMake_zero_extent_succeeds :
    tensorMake "X".toList .float32 1 [0] =
      .ok ⟨"X".toList, .float32, 1, [0], [1]⟩ := by
  rfl

/-- Claim C9, amended: registration fails (with the `std::invalid_argument`
reason `dims must match the size of extents`) exactly when the declared rank
differs from the number of extents; extents are unsigned and their values
are not checked (zero is accepted).  On success the strides follow the
row-major rule — last stride 1, each preceding stride the product of the
subsequent extents — computed in `size_t`, i.e. modulo `2 ^ 64`. -/
theorem tensorMake_spec (n : Str) (d : DTy) (dims : Nat) (extents : List Nat) :
    (dims ≠ extents.length → tensorMake n d dims extents = .error msgDims) ∧
    (dims = extents.length →
      tensorMake n d dims extents =
        .ok ⟨n, d, dims, extents, rowMajorStrides extents⟩) := by
  constructor
  · intro h
    simp [tensorMake, h]
  · intro h
    simp [tensorMake, h, computeStrides_snd]

/-- Witness for `tensorMake_spec`: a mismatched-rank registration fails, a
matched one succeeds with row-major strides. -/
theorem tensorMake_spec_witness :
    tensorMake "X".toList .float32 2 [3] = .error msgDims ∧
    tensorMake "A".toList .float32 2 [1024, 1024] =
      .ok ⟨"A".toList, .float32, 2, [1024, 1024], rowMajorStrides [1024, 1024]⟩ :=
  ⟨(tensorMake_spec "X".toList .float32 2 [3]).1 (by norm_num),
   (tensorMake_spec "A".toList .float32 2 [1024, 1024]).2 (by norm_num)⟩

/-- Claim C7: code generation is total — both `generateExpression` and
`codeGeneration` are plain total functions into strings, faithfully so
because the source never throws (every `switch` carries a `default`) — and
every node kind that is invalid in expression position (`Loop`, `Assign`, or
a `Store` used as a value) renders the visible diagnostic placeholder
`/* UNHANDLED_EXPR_TYPE */` rather than failing. -/
theorem generateExpression_invalid_kind_placeholder (t : PNode)
    (h : isExprInvalid t = true) :
    generateExpression t = UNHANDLED_EXPR := by
  cases t with
  | assign a b => rfl
  | store tn idx => rfl
  | loop i lb ub st body => rfl
  | const v d => exact absurd h (by simp [isExprInvalid])
  | var n => exact absurd h (by simp [isExprInvalid])
  | min a b => exact absurd h (by simp [isExprInvalid])
  | add a b => exact absurd h (by simp [isExprInvalid])
  | mul a b => exact absurd h (by simp [isExprInvalid])
  | load tn idx => exact absurd h (by simp [isExprInvalid])

/-- Witness for `generateExpression_invalid_kind_placeholder`: a `Store`
used as a value renders the placeholder. -/
theorem generateExpression_invalid_kind_placeholder_witness :
    generateExpression (.store "C".toList [.var "i".toList]) = UNHANDLED_EXPR :=
  generateExpression_invalid_kind_placeholder _ rfl

/-- Claim C6, counterexample: on `(A[i,j])*(B[i,j])` — a grammatical product
of two parenthesized accesses — the claim's algorithm (strip only a fully
*matching* wrap, then split at the rightmost operator) parses
`Mul(Load A, Load B)`, but the source's `clean_expr` strips the non-matching
outer `(`/`)` pair, producing `A[i,j])*(B[i,j]`, whose right factor `(B[i,j]`
then fails tensor lookup with the unknown name `(B`. -/
theorem parseExpression_paren_counterexample :
    parseExpression 40 "(A[i,j])*(B[i,j])".toList =
      .error (.unknownTensor "(B".toList) ∧
    parseExpressionClaim 40 "(A[i,j])*(B[i,j])".toList =
      .ok (.mul (.load "A".toList [.var "i".toList, .var "j".toList])
        (.load "B".toList [.var "i".toList, .var "j".toList])) :=
  ⟨rfl, rfl⟩

theorem clean_expr_eq_strip (s : Str) :
    clean_expr s = stripOuterParens (s.filter (fun c => ¬ isSpaceC c)) := by
  unfold clean_expr stripOuterParens
  cases h : s.filter (fun c => ¬ isSpaceC c) with
  | nil => rfl
  | cons c rest => simp

theorem stripOuterParens_length_le (t : Str) :
    (stripOuterParens t).length ≤ t.length := by
  unfold stripOuterParens
  split
  · simp only [List.length_dropLast, List.length_drop]
    omega
  · exact le_refl _

theorem clean_expr_length_le (s : Str) : (clean_expr s).length ≤ s.length := by
  rw [clean_expr_eq_strip]
  exact le_trans (stripOuterParens_length_le _) (List.length_filter_le _ s)

/-- Claim C6, amended: the operator resolution is as claimed — split at the
rightmost `+` of the cleaned text if any occurs, else at the rightmost `*`,
an operator-free text being a tensor access — but the cleaning is the
source's: after removing whitespace, the first and last characters are
dropped whenever they are `'('` and `')'`, *whether or not they are a
matching pair*.  (Stated for strings of C++-representable length.) -/
theorem parseExpression_eq_amended :
    ∀ f s, s.length ≤ NPOS → parseExpression f s = parseExpressionAmended f s := by
  intro f
  induction f with
  | zero => intro s _; rfl
  | succ f ih =>
      intro s hlen
      have hclean : stripOuterParens (s.filter (fun c => ¬ isSpaceC c)) = clean_expr s :=
        (clean_expr_eq_strip s).symm
      have hlent : (clean_expr s).length ≤ NPOS :=
        le_trans (clean_expr_length_le s) hlen
      have htakelen : ∀ k : Nat, ((clean_expr s).take k).length ≤ NPOS := by
        intro k
        rw [List.length_take]
        exact le_trans (min_le_right _ _) hlent
      have hdroplen : ∀ k : Nat, ((clean_expr s).drop k).length ≤ NPOS := by
        intro k
        rw [List.length_drop]
        exact le_trans (Nat.sub_le _ _) hlent
      obtain ⟨hfp, _⟩ := findChar_spec '+' (clean_expr s) hlent
      obtain ⟨hfs, _⟩ := findChar_spec '*' (clean_expr s) hlent
      obtain ⟨hrp, hrp2⟩ := rfindChar_spec '+' (clean_expr s) hlent
      obtain ⟨hrs, hrs2⟩ := rfindChar_spec '*' (clean_expr s) hlent
      simp only [parseExpression, parseExpressionAmended, hclean]
      by_cases hp : rfindChar '+' (clean_expr s) = NPOS
      · have hplus : findChar '+' (clean_expr s) = NPOS := hfp.mpr (hrp.mp hp)
        by_cases hq : rfindChar '*' (clean_expr s) = NPOS
        · -- neither operator occurs: both sides parse a tensor access
          have hstar : findChar '*' (clean_expr s) = NPOS := hfs.mpr (hrs.mp hq)
          simp [hp, hq, hplus, hstar]
        · -- '*' present, '+' absent: both sides split at the rightmost '*'
          have hstar : ¬ findChar '*' (clean_expr s) = NPOS :=
            fun hN => hq (rfindChar_eq_NPOS_of_not_mem (hfs.mp hN))
          have hql : rfindChar '*' (clean_expr s) < (clean_expr s).length := hrs2 hq
          have hw : w64 (rfindChar '*' (clean_expr s) + 1) =
              rfindChar '*' (clean_expr s) + 1 := by
            apply Nat.mod_eq_of_lt
            have h1 : rfindChar '*' (clean_expr s) + 1 ≤ NPOS :=
              Nat.succ_le_of_lt (lt_of_lt_of_le hql hlent)
            calc rfindChar '*' (clean_expr s) + 1 ≤ NPOS := h1
              _ < 2 ^ 64 := by norm_num [NPOS]
          simp only [hp, hq, hplus, hstar, ne_eq, not_true_eq_false, not_false_eq_true,
            if_true, if_false, false_and, and_false, ite_false, ite_true]
          rw [hw, ih _ (htakelen _), ih _ (hdroplen _)]
      · -- '+' present: both sides split at the rightmost '+'
        have hplus : ¬ findChar '+' (clean_expr s) = NPOS :=
          fun hN => hp (rfindChar_eq_NPOS_of_not_mem (hfp.mp hN))
        have hpl : rfindChar '+' (clean_expr s) < (clean_expr s).length := hrp2 hp
        have hw : w64 (rfindChar '+' (clean_expr s) + 1) =
            rfindChar '+' (clean_expr s) + 1 := by
          apply Nat.mod_eq_of_lt
          have h1 : rfindChar '+' (clean_expr s) + 1 ≤ NPOS :=
            Nat.succ_le_of_lt (lt_of_lt_of_le hpl hlent)
          calc rfindChar '+' (clean_expr s) + 1 ≤ NPOS := h1
            _ < 2 ^ 64 := by norm_num [NPOS]
        simp only [hp, hplus, ne_eq, not_true_eq_false, not_false_eq_true,
          if_true, if_false, false_and, and_false, ite_false, ite_true]
        rw [hw, ih _ (htakelen _), ih _ (hdroplen _)]

/-- Witness for `parseExpression_eq_amended` at `A[i,j]+B[i,j]`. -/
theorem parseExpression_eq_amended_witness :
    parseExpression 20 "A[i,j]+B[i,j]".toList =
      parseExpressionAmended 20 "A[i,j]+B[i,j]".toList :=
  parseExpression_eq_amended 20 "A[i,j]+B[i,j]".toList (by norm_num [NPOS])

theorem findChar_append_first {c : Char} :
    ∀ {xs : Str} (ys : Str), c ∉ xs → xs.length < NPOS →
      findChar c (xs ++ c :: ys) = xs.length := by
  intro xs
  induction xs with
  | nil => intro ys _ _; simp [findChar]
  | cons x xt ih =>
      intro ys hmem hlen
      have hx : ¬ x = c := fun hc => hmem (hc ▸ List.mem_cons_self x xt)
      have hmem' : c ∉ xt := fun hc => hmem (List.mem_cons_of_mem x hc)
      have hlen' : xt.length < NPOS := lt_trans (by simp) hlen
      have hr := ih ys hmem' hlen'
      simp only [List.cons_append, findChar, List.append_eq, if_neg hx]
      rw [hr, if_neg (Nat.ne_of_lt hlen')]
      simp

theorem rfindChar_append_last {c : Char} :
    ∀ {xs : Str} (ys : Str), c ∉ ys → xs.length < NPOS →
      rfindChar c (xs ++ c :: ys) = xs.length := by
  intro xs
  induction xs with
  | nil =>
      intro ys hmem _
      simp [rfindChar, rfindChar_eq_NPOS_of_not_mem hmem]
  | cons x xt ih =>
      intro ys hmem hlen
      have hlen' : xt.length < NPOS := lt_trans (by simp) hlen
      have hr := ih ys hmem hlen'
      simp only [List.cons_append, rfindChar, List.append_eq]
      rw [hr, if_pos (Nat.ne_of_lt hlen')]
      simp

theorem rfindChar_append_no_right {c : Char} (xs : Str) {ys : Str} (hmem : c ∉ ys) :
    rfindChar c (xs ++ ys) = rfindChar c xs := by
  induction xs with
  | nil => simp [rfindChar, rfindChar_eq_NPOS_of_not_mem hmem]
  | cons x xt ih =>
      simp only [List.cons_append, rfindChar, List.append_eq]
      rw [ih]

theorem splitRaw_no_delim {d : Char} : ∀ {x : Str}, d ∉ x → splitRaw d x = [x] := by
  intro x
  induction x with
  | nil => intro _; rfl
  | cons c cs ih =>
      intro h
      have hc : ¬ c = d := fun hcd => h (hcd ▸ List.mem_cons_self c cs)
      have hcs : d ∉ cs := fun hm => h (List.mem_cons_of_mem c hm)
      simp [splitRaw, hc, ih hcs]

theorem splitRaw_append_delim {d : Char} :
    ∀ {x : Str} (r : Str), d ∉ x → splitRaw d (x ++ d :: r) = x :: splitRaw d r := by
  intro x
  induction x with
  | nil => intro r _; simp [splitRaw]
  | cons c cs ih =>
      intro r h
      have hc : ¬ c = d := fun hcd => h (hcd ▸ List.mem_cons_self c cs)
      have hcs : d ∉ cs := fun hm => h (List.mem_cons_of_mem c hm)
      simp [splitRaw, hc, ih r hcs]

theorem splitRaw_interc {d : Char} :
    ∀ {toks : List Str}, toks ≠ [] → (∀ t ∈ toks, d ∉ t) →
      splitRaw d (interc [d] toks) = toks := by
  intro toks
  induction toks with
  | nil => intro h _; exact absurd rfl h
  | cons x rest ih =>
      intro _ hall
      cases rest with
      | nil =>
          simp only [interc]
          exact splitRaw_no_delim (hall x (List.mem_cons_self x []))
      | cons y rest2 =>
          have hx : d ∉ x := hall x (List.mem_cons_self x (y :: rest2))
          have hrest : ∀ t ∈ y :: rest2, d ∉ t :=
            fun t ht => hall t (List.mem_cons_of_mem x ht)
          simp only [interc, List.append_assoc, List.singleton_append]
          rw [splitRaw_append_delim _ hx, ih (by simp) hrest]

theorem split_interc {d : Char} {toks : List Str}
    (h : ∀ t ∈ toks, t ≠ [] ∧ d ∉ t) :
    split (interc [d] toks) d = toks := by
  cases toks with
  | nil => rfl
  | cons x rest =>
      unfold split
      rw [splitRaw_interc (by simp) (fun t ht => (h t ht).2)]
      exact List.filter_eq_self.mpr (fun t ht => by simpa using (h t ht).1)

theorem isAlphanum_not_space {c : Char} (h : c.isAlphanum = true) :
    isSpaceC c = false := by
  by_contra hcon
  have hsp : isSpaceC c = true := by
    cases hsc : isSpaceC c
    · exact absurd hsc hcon
    · rfl
  have : c = ' ' ∨ c = '\t' ∨ c = '\n' ∨ c = '\x0b' ∨ c = '\x0c' ∨ c = '\r' := by
    simpa [isSpaceC] using hsp
  rcases this with h1 | h1 | h1 | h1 | h1 | h1 <;> subst h1 <;> simp_all

theorem clean_expr_id_of {s : Str} (hsp : ∀ c ∈ s, isSpaceC c = false)
    (hhd : s.head? ≠ some '(') : clean_expr s = s := by
  have hfil : s.filter (fun c => ¬ isSpaceC c) = s :=
    List.filter_eq_self.mpr (fun c hc => by simp [hsp c hc])
  unfold clean_expr
  rw [hfil]
  cases s with
  | nil => rfl
  | cons c rest =>
      have : ¬ c = '(' := fun hc => hhd (by simp [hc])
      simp [this]

theorem sub64_eq {a b : Nat} (hba : b ≤ a) (ha : a < 2 ^ 64) : sub64 a b = a - b := by
  unfold sub64 w64
  omega

theorem w64_eq {a : Nat} (ha : a < 2 ^ 64) : w64 a = a := Nat.mod_eq_of_lt ha

theorem interc_mem {sep : Str} {c : Char} :
    ∀ {toks : List Str}, c ∈ interc sep toks → c ∈ sep ∨ ∃ t ∈ toks, c ∈ t := by
  intro toks
  induction toks with
  | nil => intro h; simp [interc] at h
  | cons x rest ih =>
      cases rest with
      | nil =>
          intro h
          exact Or.inr ⟨x, List.mem_cons_self x [], by simpa [interc] using h⟩
      | cons y r2 =>
          intro h
          simp only [interc] at h
          rcases List.mem_append.mp h with h1 | h2
          · rcases List.mem_append.mp h1 with h3 | h4
            · exact Or.inr ⟨x, List.mem_cons_self x (y :: r2), h3⟩
            · exact Or.inl h4
          · rcases ih h2 with h3 | ⟨u, hu, hcu⟩
            · exact Or.inl h3
            · exact Or.inr ⟨u, List.mem_cons_of_mem x hu, hcu⟩

theorem tensor_name_chars {t : Str}
    (h : t = "A".toList ∨ t = "B".toList ∨ t = "C".toList) :
    ∀ c ∈ t, c.isAlphanum = true := by
  rcases h with h | h | h <;> subst h <;> intro c hc <;> simp at hc <;> subst hc <;> decide

theorem renderAccess_chars {t : Str} {idx : List Str} (h : accessOk t idx) :
    ∀ c ∈ renderAccess t idx,
      c.isAlphanum = true ∨ c = '[' ∨ c = ']' ∨ c = ',' := by
  intro c hc
  unfold renderAccess at hc
  rcases List.mem_append.mp hc with h1 | h2
  · rcases List.mem_append.mp h1 with h3 | h4
    · rcases List.mem_append.mp h3 with h5 | h6
      · exact Or.inl (tensor_name_chars h.1 c h5)
      · simp at h6; subst h6; right; left; rfl
    · rcases interc_mem h4 with h5 | ⟨u, hu, hcu⟩
      · simp at h5; subst h5; right; right; right; rfl
      · exact Or.inl ((h.2.2 u hu).2 c hcu)
  · simp at h2; subst h2; right; right; left; rfl

theorem renderAccess_not_mem {t : Str} {idx : List Str} (h : accessOk t idx)
    {c : Char} (hal : c.isAlphanum = false) (h1 : c ≠ '[') (h2 : c ≠ ']')
    (h3 : c ≠ ',') : c ∉ renderAccess t idx := by
  intro hmem
  rcases renderAccess_chars h c hmem with h4 | h4 | h4 | h4
  · rw [hal] at h4; exact Bool.false_ne_true h4
  · exact h1 h4
  · exact h2 h4
  · exact h3 h4

theorem renderAccess_no_space {t : Str} {idx : List Str} (h : accessOk t idx) :
    ∀ c ∈ renderAccess t idx, isSpaceC c = false := by
  intro c hc
  rcases renderAccess_chars h c hc with h4 | h4 | h4 | h4
  · exact isAlphanum_not_space h4
  · subst h4; decide
  · subst h4; decide
  · subst h4; decide

theorem renderAccess_head {t : Str} {idx : List Str} (h : accessOk t idx) :
    (renderAccess t idx).head? ≠ some '(' := by
  rcases h.1 with h1 | h1 | h1 <;> subst h1 <;> simp [renderAccess]

theorem clean_expr_renderAccess {t : Str} {idx : List Str} (h : accessOk t idx) :
    clean_expr (renderAccess t idx) = renderAccess t idx :=
  clean_expr_id_of (renderAccess_no_space h) (renderAccess_head h)

theorem parseTensorAccess_render {t : Str} {idx : List Str} (h : accessOk t idx)
    (hlen : (renderAccess t idx).length ≤ NPOS) :
    parseTensorAccess (renderAccess t idx) = .ok (t, idx.map PNode.var) := by
  have hIchars : ∀ c ∈ interc [','] idx, c.isAlphanum = true ∨ c = ',' := by
    intro c hc
    rcases interc_mem hc with h5 | ⟨u, hu, hcu⟩
    · simp at h5; subst h5; exact Or.inr rfl
    · exact Or.inl ((h.2.2 u hu).2 c hcu)
  have hsplit1 : renderAccess t idx =
      t ++ '[' :: (interc [','] idx ++ ']' :: []) := by
    simp [renderAccess]
  have hsplit2 : renderAccess t idx =
      (t ++ '[' :: interc [','] idx) ++ ']' :: [] := by
    simp [renderAccess]
  have hlen1 : (renderAccess t idx).length =
      t.length + (interc [','] idx).length + 2 := by
    rw [hsplit1]; simp; omega
  have hob : findChar '[' (renderAccess t idx) = t.length := by
    rw [hsplit1]
    apply findChar_append_first
    · intro hmem
      have := tensor_name_chars h.1 '[' hmem
      simp at this
    · omega
  have hcb : findChar ']' (renderAccess t idx) =
      t.length + 1 + (interc [','] idx).length := by
    rw [hsplit2]
    have := @findChar_append_first ']' (t ++ '[' :: interc [','] idx)
      []
      (by
        intro hmem
        rcases List.mem_append.mp hmem with h1 | h1
        · have := tensor_name_chars h.1 ']' h1
          simp at this
        · rcases List.mem_cons.mp h1 with h2 | h2
          · exact absurd h2 (by decide)
          · rcases hIchars ']' h2 with h3 | h3 <;> simp at h3)
      (by simp; omega)
    rw [this]
    simp
    omega
  have hobNe : findChar '[' (renderAccess t idx) ≠ NPOS := by rw [hob]; omega
  have hcbNe : findChar ']' (renderAccess t idx) ≠ NPOS := by rw [hcb]; omega
  unfold parseTensorAccess
  rw [if_neg (by
    intro hor
    rcases hor with hor | hor
    · exact hobNe hor
    · exact hcbNe hor)]
  rw [hob, hcb]
  have htake : (renderAccess t idx).take t.length = t := by
    rw [hsplit1]; exact List.take_left t _
  have hw : w64 (t.length + 1) = t.length + 1 := by
    apply w64_eq
    have : NPOS < 2 ^ 64 := by norm_num [NPOS]
    omega
  have hdrop : (renderAccess t idx).drop (w64 (t.length + 1)) =
      interc [','] idx ++ ']' :: [] := by
    rw [hw, hsplit1]
    have : t ++ '[' :: (interc [','] idx ++ ']' :: []) =
        (t ++ ['[']) ++ (interc [','] idx ++ ']' :: []) := by simp
    rw [this]
    have hl : (t ++ ['[']).length = t.length + 1 := by simp
    rw [← hl, List.drop_left]
  have hsub : sub64 (t.length + 1 + (interc [','] idx).length) (t.length + 1) =
      (interc [','] idx).length := by
    rw [sub64_eq (by omega) (by
      have : NPOS < 2 ^ 64 := by norm_num [NPOS]
      omega)]
    omega
  rw [htake, hdrop, hsub, List.take_left]
  have hAt : tensorMapAt t = .ok t := by
    rcases h.1 with h1 | h1 | h1 <;> subst h1 <;> simp [tensorMapAt]
  have hspl : split (interc [','] idx) ',' = idx := by
    apply split_interc
    intro tok htok
    refine ⟨(h.2.2 tok htok).1, ?_⟩
    intro hmem
    have := (h.2.2 tok htok).2 ',' hmem
    simp at this
  rw [hAt]
  simp [bind, Except.bind, pure, Except.pure, hspl]

theorem parseStore_render {t : Str} {idx : List Str} (h : accessOk t idx)
    (hlen : (renderAccess t idx).length ≤ NPOS) :
    parseStore (renderAccess t idx) = .ok (.store t (idx.map PNode.var)) := by
  unfold parseStore
  rw [parseTensorAccess_render h hlen]
  rfl

theorem parseLoad_render {t : Str} {idx : List Str} (h : accessOk t idx)
    (hlen : (renderAccess t idx).length ≤ NPOS) :
    parseLoad (renderAccess t idx) = .ok (.load t (idx.map PNode.var)) := by
  unfold parseLoad
  rw [parseTensorAccess_render h hlen]
  rfl

theorem Chain.append {s u : Str} {c : Char} (hs : Chain s) (hu : Chain u)
    (hc : c = '+' ∨ c = '*') : Chain (s ++ c :: u) := by
  induction hu with
  | single t idx hacc => exact Chain.op s c t idx hs hc hacc
  | op u2 c2 t idx hu2 hc2 hacc ih =>
      have : s ++ c :: (u2 ++ c2 :: renderAccess t idx) =
          (s ++ c :: u2) ++ c2 :: renderAccess t idx := by simp
      rw [this]
      exact Chain.op _ c2 t idx ih hc2 hacc

theorem chain_chars {s : Str} (hch : Chain s) :
    ∀ c ∈ s, c.isAlphanum = true ∨ c = '[' ∨ c = ']' ∨ c = ',' ∨
      c = '+' ∨ c = '*' := by
  induction hch with
  | single t idx hacc =>
      intro c hc
      rcases renderAccess_chars hacc c hc with h | h | h | h
      · exact Or.inl h
      · exact Or.inr (Or.inl h)
      · exact Or.inr (Or.inr (Or.inl h))
      · exact Or.inr (Or.inr (Or.inr (Or.inl h)))
  | op u2 c2 t idx hu2 hc2 hacc ih =>
      intro c hc
      rcases List.mem_append.mp hc with h1 | h1
      · exact ih c h1
      · rcases List.mem_cons.mp h1 with h2 | h2
        · subst h2
          rcases hc2 with h3 | h3 <;> subst h3
          · exact Or.inr (Or.inr (Or.inr (Or.inr (Or.inl rfl))))
          · exact Or.inr (Or.inr (Or.inr (Or.inr (Or.inr rfl))))
        · rcases renderAccess_chars hacc c h2 with h | h | h | h
          · exact Or.inl h
          · exact Or.inr (Or.inl h)
          · exact Or.inr (Or.inr (Or.inl h))
          · exact Or.inr (Or.inr (Or.inr (Or.inl h)))

theorem chain_ne_nil {s : Str} (hch : Chain s) : s ≠ [] := by
  induction hch with
  | single t idx hacc =>
      intro h
      unfold renderAccess at h
      simp at h
  | op u2 c2 t idx hu2 hc2 hacc ih => simp

theorem chain_head {s : Str} (hch : Chain s) : s.head? ≠ some '(' := by
  induction hch with
  | single t idx hacc => exact renderAccess_head hacc
  | op u2 c2 t idx hu2 hc2 hacc ih =>
      rw [List.head?_append]
      cases u2 with
      | nil => exact absurd rfl (chain_ne_nil hu2)
      | cons a u3 => simpa using ih

theorem clean_expr_chain {s : Str} (hch : Chain s) : clean_expr s = s := by
  apply clean_expr_id_of
  · intro c hc
    rcases chain_chars hch c hc with h | h | h | h | h | h
    · exact isAlphanum_not_space h
    all_goals (subst h; decide)
  · exact chain_head hch

theorem plus_not_mem_access {t : Str} {idx : List Str} (h : accessOk t idx) :
    '+' ∉ renderAccess t idx :=
  renderAccess_not_mem h (by decide) (by decide) (by decide) (by decide)

theorem star_not_mem_access {t : Str} {idx : List Str} (h : accessOk t idx) :
    '*' ∉ renderAccess t idx :=
  renderAccess_not_mem h (by decide) (by decide) (by decide) (by decide)

theorem chain_single_of_no_ops {s : Str} (hch : Chain s) (hplus : '+' ∉ s)
    (hstar : '*' ∉ s) : ∃ t idx, s = renderAccess t idx ∧ accessOk t idx := by
  induction hch with
  | single t idx hacc => exact ⟨t, idx, rfl, hacc⟩
  | op u2 c2 t idx hu2 hc2 hacc ih =>
      exfalso
      rcases hc2 with h3 | h3 <;> subst h3
      · exact hplus (by simp)
      · exact hstar (by simp)

theorem chain_split_plus {s : Str} (hch : Chain s) (hlen : s.length ≤ NPOS)
    (hp : rfindChar '+' s ≠ NPOS) :
    ∃ s₁ s₂, Chain s₁ ∧ Chain s₂ ∧
      s.take (rfindChar '+' s) = s₁ ∧ s.drop (rfindChar '+' s + 1) = s₂ := by
  induction hch with
  | single t idx hacc =>
      exact absurd (rfindChar_eq_NPOS_of_not_mem (plus_not_mem_access hacc)) hp
  | op u2 c2 t idx hu2 hc2 hacc ih =>
      have hlenu : u2.length ≤ NPOS := by
        have := hlen
        simp only [List.length_append, List.length_cons] at this
        omega
      have hlenu2 : u2.length < NPOS := by
        have := hlen
        simp only [List.length_append, List.length_cons] at this
        omega
      rcases hc2 with h3 | h3 <;> subst h3
      · -- the rightmost '+' is this separator
        have hr : rfindChar '+' (u2 ++ '+' :: renderAccess t idx) = u2.length :=
          rfindChar_append_last _ (plus_not_mem_access hacc) hlenu2
        refine ⟨u2, renderAccess t idx, hu2, Chain.single t idx hacc, ?_, ?_⟩
        · rw [hr]; exact List.take_left u2 _
        · rw [hr]
          have : u2 ++ '+' :: renderAccess t idx =
              (u2 ++ ['+']) ++ renderAccess t idx := by simp
          rw [this]
          exact List.drop_left' (by simp)
      · -- the separator is '*': the rightmost '+' lies inside the left chain
        have hnr : '+' ∉ '*' :: renderAccess t idx := by
          intro hmem
          rcases List.mem_cons.mp hmem with h4 | h4
          · exact absurd h4 (by decide)
          · exact plus_not_mem_access hacc h4
        have hr : rfindChar '+' (u2 ++ '*' :: renderAccess t idx) =
            rfindChar '+' u2 := rfindChar_append_no_right u2 hnr
        rw [hr] at hp ⊢
        obtain ⟨s₁, s₂, hc1, hc2', ht, hd⟩ := ih hlenu hp
        have hplt : rfindChar '+' u2 < u2.length := (rfindChar_spec '+' u2 hlenu).2 hp
        refine ⟨s₁, s₂ ++ '*' :: renderAccess t idx, hc1,
          Chain.append hc2' (Chain.single t idx hacc) (Or.inr rfl), ?_, ?_⟩
        · rw [List.take_append_of_le_length (le_of_lt hplt), ht]
        · rw [List.drop_append_of_le_length hplt, hd]

theorem chain_split_star {s : Str} (hch : Chain s) (hlen : s.length ≤ NPOS)
    (hnoplus : '+' ∉ s) (hq : rfindChar '*' s ≠ NPOS) :
    ∃ s₁ t idx, Chain s₁ ∧ accessOk t idx ∧
      s.take (rfindChar '*' s) = s₁ ∧
      s.drop (rfindChar '*' s + 1) = renderAccess t idx := by
  induction hch with
  | single t idx hacc =>
      exact absurd (rfindChar_eq_NPOS_of_not_mem (star_not_mem_access hacc)) hq
  | op u2 c2 t idx hu2 hc2 hacc ih =>
      have hlenu2 : u2.length < NPOS := by
        have := hlen
        simp only [List.length_append, List.length_cons] at this
        omega
      rcases hc2 with h3 | h3 <;> subst h3
      · exact absurd (by simp) hnoplus
      · have hr : rfindChar '*' (u2 ++ '*' :: renderAccess t idx) = u2.length :=
          rfindChar_append_last _ (star_not_mem_access hacc) hlenu2
        refine ⟨u2, t, idx, hu2, hacc, ?_, ?_⟩
        · rw [hr]; exact List.take_left u2 _
        · rw [hr]
          have : u2 ++ '*' :: renderAccess t idx =
              (u2 ++ ['*']) ++ renderAccess t idx := by simp
          rw [this]
          exact List.drop_left' (by simp)

theorem parseExpression_chain :
    ∀ f s, Chain s → s.length < f → s.length ≤ NPOS →
      ∃ e, parseExpression f s = .ok e := by
  intro f
  induction f with
  | zero => intro s _ h _; omega
  | succ f ih =>
      intro s hch hlf hlen
      have hcl : clean_expr s = s := clean_expr_chain hch
      by_cases hp : rfindChar '+' s = NPOS
      · have hplus : '+' ∉ s := (rfindChar_spec '+' s hlen).1.mp hp
        have hfplus : findChar '+' s = NPOS := findChar_eq_NPOS_of_not_mem hplus
        by_cases hq : rfindChar '*' s = NPOS
        · -- a single access
          have hstar : '*' ∉ s := (rfindChar_spec '*' s hlen).1.mp hq
          have hfstar : findChar '*' s = NPOS := findChar_eq_NPOS_of_not_mem hstar
          obtain ⟨t, idx, hs, hacc⟩ := chain_single_of_no_ops hch hplus hstar
          refine ⟨.load t (idx.map PNode.var), ?_⟩
          simp only [parseExpression, hcl]
          rw [if_pos (And.intro hfplus hfstar), hs]
          exact parseLoad_render hacc (hs ▸ hlen)
        · -- rightmost '*' splits chain / access
          have hstar : '*' ∈ s := by
            by_contra hcon
            exact hq (rfindChar_eq_NPOS_of_not_mem hcon)
          have hfstar : findChar '*' s ≠ NPOS :=
            fun hN => ((findChar_spec '*' s hlen).1.mp hN) hstar
          have hqlt : rfindChar '*' s < s.length := (rfindChar_spec '*' s hlen).2 hq
          obtain ⟨s₁, t, idx, hc1, hacc, ht, hd⟩ := chain_split_star hch hlen hplus hq
          have hlen1 : s₁.length < f := by
            have : s₁.length = rfindChar '*' s := by
              rw [← ht, List.length_take]
              omega
            omega
          have hlen2 : (renderAccess t idx).length < f := by
            have : (renderAccess t idx).length ≤ s.length - (rfindChar '*' s + 1) := by
              rw [← hd, List.length_drop]
            omega
          obtain ⟨l, hl⟩ := ih s₁ hc1 hlen1 (by
            have : s₁.length ≤ s.length := by
              rw [← ht, List.length_take]
              exact le_trans (min_le_right _ _) (le_refl _)
            omega)
          obtain ⟨r, hr⟩ := ih (renderAccess t idx) (Chain.single t idx hacc) hlen2 (by
            have : (renderAccess t idx).length ≤ s.length := by
              rw [← hd, List.length_drop]
              omega
            omega)
          refine ⟨.mul l r, ?_⟩
          simp only [parseExpression, hcl]
          rw [if_neg (fun hand => hfstar hand.2), if_neg (not_not_intro hp), if_pos hq]
          have hw : w64 (rfindChar '*' s + 1) = rfindChar '*' s + 1 := by
            apply w64_eq
            have : NPOS < 2 ^ 64 := by norm_num [NPOS]
            omega
          rw [hw, ht, hd, hl, hr]
          rfl
      · -- rightmost '+' splits chain / chain
        have hplus : '+' ∈ s := by
          by_contra hcon
          exact hp (rfindChar_eq_NPOS_of_not_mem hcon)
        have hfplus : findChar '+' s ≠ NPOS :=
          fun hN => ((findChar_spec '+' s hlen).1.mp hN) hplus
        have hplt : rfindChar '+' s < s.length := (rfindChar_spec '+' s hlen).2 hp
        obtain ⟨s₁, s₂, hc1, hc2, ht, hd⟩ := chain_split_plus hch hlen hp
        have hlen1 : s₁.length < f := by
          have : s₁.length = rfindChar '+' s := by
            rw [← ht, List.length_take]
            omega
          omega
        have hlen2 : s₂.length < f := by
          have : s₂.length = s.length - (rfindChar '+' s + 1) := by
            rw [← hd, List.length_drop]
          omega
        obtain ⟨l, hl⟩ := ih s₁ hc1 hlen1 (by
          have : s₁.length ≤ s.length := by
            rw [← ht, List.length_take]
            exact le_trans (min_le_right _ _) (le_refl _)
          omega)
        obtain ⟨r, hr⟩ := ih s₂ hc2 hlen2 (by
          have : s₂.length = s.length - (rfindChar '+' s + 1) := by
            rw [← hd, List.length_drop]
          omega)
        refine ⟨.add l r, ?_⟩
        simp only [parseExpression, hcl]
        rw [if_neg (fun hand => hfplus hand.1), if_pos hp]
        have hw : w64 (rfindChar '+' s + 1) = rfindChar '+' s + 1 := by
          apply w64_eq
          have : NPOS < 2 ^ 64 := by norm_num [NPOS]
          omega
        rw [hw, ht, hd, hl, hr]
        rfl

theorem renderExpr_chain : ∀ {e : RExpr}, rexprOk e → parenFree e →
    Chain (renderExpr e) := by
  intro e
  induction e with
  | acc t i => intro hok _; exact Chain.single t i hok
  | paren e ih => intro _ hpf; exact absurd hpf (by simp [parenFree])
  | add a b iha ihb =>
      intro hok hpf
      have : renderExpr (RExpr.add a b) = renderExpr a ++ '+' :: renderExpr b := by
        simp [renderExpr]
      rw [this]
      exact Chain.append (iha hok.1 hpf.1) (ihb hok.2 hpf.2) (Or.inl rfl)
  | mul a b iha ihb =>
      intro hok hpf
      have : renderExpr (RExpr.mul a b) = renderExpr a ++ '*' :: renderExpr b := by
        simp [renderExpr]
      rw [this]
      exact Chain.append (iha hok.1 hpf.1) (ihb hok.2 hpf.2) (Or.inr rfl)

theorem isPrefixOf_head {a : Char} {p l : Str} (h : (a :: p).isPrefixOf l = true) :
    l.head? = some a := by
  cases l with
  | nil => simp [List.isPrefixOf] at h
  | cons b bs =>
      simp [List.isPrefixOf] at h
      simp [h.1]

theorem isPrefixOf_ne_nil {p l : Str} (hp : p ≠ []) (h : p.isPrefixOf l = true) :
    l ≠ [] := by
  cases p with
  | nil => exact absurd rfl hp
  | cons a p2 =>
      cases l with
      | nil => simp [List.isPrefixOf] at h
      | cons b bs => simp

theorem findSub_first {pat : Str} (hpat : pat ≠ []) :
    ∀ {k : Nat} {s : Str}, s.length ≤ NPOS →
      pat.isPrefixOf (s.drop k) = true →
      (∀ i, i < k → pat.isPrefixOf (s.drop i) = false) →
      findSub pat s = k := by
  intro k
  induction k with
  | zero =>
      intro s _ hk _
      cases s with
      | nil =>
          exfalso
          exact (isPrefixOf_ne_nil hpat (by simpa using hk)) rfl
      | cons x xs =>
          simp only [findSub]
          rw [if_pos (by simpa using hk)]
  | succ k ih =>
      intro s hlen hk hmin
      cases s with
      | nil =>
          exfalso
          exact (isPrefixOf_ne_nil hpat (by simpa using hk)) rfl
      | cons x xs =>
          have h0 : pat.isPrefixOf (x :: xs) = false := by
            have := hmin 0 (Nat.succ_pos k)
            simpa using this
          have hxs : xs.length ≤ NPOS := by
            simp only [List.length_cons] at hlen
            omega
          have hkxs : pat.isPrefixOf (xs.drop k) = true := by
            simpa using hk
          have hminxs : ∀ i, i < k → pat.isPrefixOf (xs.drop i) = false := by
            intro i hi
            have := hmin (i + 1) (Nat.succ_lt_succ hi)
            simpa using this
          have hr := ih hxs hkxs hminxs
          have hkne : k ≠ NPOS := by
            have hne : xs.drop k ≠ [] := isPrefixOf_ne_nil hpat hkxs
            have : k < xs.length := by
              by_contra hcon
              exact hne (List.drop_eq_nil_of_le (by omega))
            omega
          simp only [findSub, h0, Bool.false_eq_true, if_false, hr, if_neg hkne]

theorem headerTok_not_mem {s : Str} (h : headerTokOk s) {c : Char}
    (hc : c.isAlphanum = false) : c ∉ s := by
  intro hm
  have := (h.2 c hm).1
  rw [hc] at this
  exact Bool.false_ne_true this

theorem renderHeader_chars {h : LoopHeader} (hok : headerOk h) :
    ∀ c ∈ renderHeader h, (c.isAlphanum = true ∧ c ≠ 'B') ∨ c = '=' ∨ c = ':' := by
  intro c hc
  unfold renderHeader at hc
  simp only [List.append_assoc, List.mem_append, List.mem_singleton] at hc
  rcases hc with hc | hc | hc | hc | hc | hc | hc
  · exact Or.inl (hok.1.2 c hc)
  · exact Or.inr (Or.inl hc)
  · exact Or.inl (hok.2.1.1.2 c hc)
  · exact Or.inr (Or.inr hc)
  · exact Or.inl (hok.2.2.1.1.2 c hc)
  · exact Or.inr (Or.inr hc)
  · exact Or.inl (hok.2.2.2.1.2 c hc)

theorem renderHeader_no_B {h : LoopHeader} (hok : headerOk h) :
    'B' ∉ renderHeader h := by
  intro hm
  rcases renderHeader_chars hok 'B' hm with h1 | h1 | h1
  · exact h1.2 rfl
  · exact absurd h1 (by decide)
  · exact absurd h1 (by decide)

theorem split_renderHeader_eq {h : LoopHeader} (hok : headerOk h) :
    split (renderHeader h) '=' =
      [h.var, h.lb ++ ':' :: (h.ub ++ ':' :: h.st)] := by
  have hshape : renderHeader h =
      h.var ++ '=' :: (h.lb ++ ':' :: (h.ub ++ ':' :: h.st)) := by
    unfold renderHeader
    simp
  rw [hshape]
  unfold split
  rw [splitRaw_append_delim _ (headerTok_not_mem hok.1 (by decide))]
  rw [splitRaw_no_delim (by
    intro hm
    simp only [List.mem_append, List.mem_cons] at hm
    rcases hm with hm | hm | hm | hm | hm
    · exact headerTok_not_mem hok.2.1.1 (by decide) hm
    · exact absurd hm (by decide)
    · exact headerTok_not_mem hok.2.2.1.1 (by decide) hm
    · exact absurd hm (by decide)
    · exact headerTok_not_mem hok.2.2.2.1 (by decide) hm)]
  rw [List.filter_eq_self.mpr]
  intro t ht
  rcases List.mem_cons.mp ht with h1 | h1
  · subst h1; simpa using hok.1.1
  · rcases List.mem_cons.mp h1 with h2 | h2
    · subst h2; simp
    · simp at h2

theorem split_bounds_eq {h : LoopHeader} (hok : headerOk h) :
    split (h.lb ++ ':' :: (h.ub ++ ':' :: h.st)) ':' = [h.lb, h.ub, h.st] := by
  unfold split
  rw [splitRaw_append_delim _ (headerTok_not_mem hok.2.1.1 (by decide))]
  rw [splitRaw_append_delim _ (headerTok_not_mem hok.2.2.1.1 (by decide))]
  rw [splitRaw_no_delim (headerTok_not_mem hok.2.2.2.1 (by decide))]
  rw [List.filter_eq_self.mpr]
  intro t ht
  rcases List.mem_cons.mp ht with h1 | h1
  · subst h1; simpa using hok.2.1.1.1
  · rcases List.mem_cons.mp h1 with h2 | h2
    · subst h2; simpa using hok.2.2.1.1.1
    · rcases List.mem_cons.mp h2 with h3 | h3
      · subst h3; simpa using hok.2.2.2.1.1
      · simp at h3

theorem parse_bound_ok {s : Str} (h : boundTokOk s) :
    ∃ e, parse_bound s = .ok e := by
  unfold parse_bound
  by_cases hd : s.all (fun c => c.isDigit) = true
  · rw [if_pos hd]
    unfold stoiDigits
    rw [if_neg h.1.1, if_neg (by
      have := h.2 hd
      omega)]
    exact ⟨_, rfl⟩
  · rw [if_neg hd]
    exact ⟨_, rfl⟩

theorem buildLoopNest_render (inner : PNode) :
    ∀ (hs : List LoopHeader), (∀ h ∈ hs, headerOk h) →
      ∃ out, buildLoopNest (hs.map renderHeader) inner = .ok out ∧
        nestAround hs inner out := by
  intro hs
  induction hs with
  | nil => intro _; exact ⟨inner, rfl, rfl⟩
  | cons h rest ih =>
      intro hall
      have hok : headerOk h := hall h (List.mem_cons_self h rest)
      obtain ⟨body, hbody, hshape⟩ := ih (fun g hg => hall g (List.mem_cons_of_mem h hg))
      obtain ⟨lb, hlb⟩ := parse_bound_ok hok.2.1
      obtain ⟨ub, hub⟩ := parse_bound_ok hok.2.2.1
      obtain ⟨st, hst⟩ := parse_bound_ok hok.2.2.2
      refine ⟨.loop h.var lb ub st [body], ?_, ?_⟩
      · show buildLoopNest (renderHeader h :: rest.map renderHeader) inner = _
        unfold buildLoopNest
        rw [hbody]
        simp only [bind, Except.bind, pure, Except.pure]
        rw [split_renderHeader_eq hok]
        simp only [vecGet, List.get?]
        rw [split_bounds_eq hok]
        simp only [vecGet, List.get?]
        rw [hlb, hub, hst]
      · exact ⟨lb, ub, st, body, rfl, hshape⟩

theorem nestAround_to_nestShape :
    ∀ {hs : List LoopHeader} {lt : Str} {li : List Str} {v inner out : PNode},
      nestAround hs inner out → inner = .assign (.store lt (li.map PNode.var)) v →
      nestShape hs lt li out := by
  intro hs
  induction hs with
  | nil =>
      intro lt li v inner out hna hin
      exact ⟨v, hna.trans hin⟩
  | cons h rest ih =>
      intro lt li v inner out hna hin
      obtain ⟨lb, ub, st, body, hout, hna2⟩ := hna
      exact ⟨lb, ub, st, body, hout, ih hna2 hin⟩

set_option maxHeartbeats 2000000 in
/-- Claim C5, amended.  For the canonical whitespace-free text of a valid
DSL program whose right side uses no parentheses AND whose header tokens
are `B`-free (`progOk`, which strengthens grammar-validity `progOkGrammar`
exactly by the `B`-freeness of `headerTokOk`, ruling out `BODY:` marker
collisions), `buildUntiledIR` (deterministic, being a function) succeeds
and returns exactly one `Loop` per header — the first listed header
outermost, each loop owning the next level as its single body statement —
wrapping a single `Assign` whose target is the `Store` built from the
statement's left side.  Both restrictions beyond grammar-validity are
necessary: parenthesized right sides fail
(`buildUntiledIR_valid_paren_program_fails`), and so do marker collisions
(`buildUntiledIR_marker_collision_fails`). -/
theorem buildUntiledIR_valid_program (p : Prog) (hok : progOk p)
    (hpf : parenFree p.rhs) (hlen : (renderProg p).length ≤ NPOS) :
    ∃ t, buildUntiledIR (renderProg p) = .ok t ∧
      nestShape p.headers p.lhsTensor p.lhsIdx t := by
  obtain ⟨hheads, hacc, hrhs⟩ := hok
  have hchain : Chain (renderExpr p.rhs) := renderExpr_chain hrhs hpf
  have hs1 : renderProg p = kLOOPS ++
      (interc [','] (p.headers.map renderHeader) ++
        (kBODY ++ (renderAccess p.lhsTensor p.lhsIdx ++ '=' :: renderExpr p.rhs))) := by
    simp [renderProg]
  have hs2 : renderProg p = (kLOOPS ++ interc [','] (p.headers.map renderHeader)) ++
      (kBODY ++ (renderAccess p.lhsTensor p.lhsIdx ++ '=' :: renderExpr p.rhs)) := by
    simp [renderProg]
  have hs3 : renderProg p =
      ((kLOOPS ++ interc [','] (p.headers.map renderHeader)) ++ kBODY) ++
      (renderAccess p.lhsTensor p.lhsIdx ++ '=' :: renderExpr p.rhs) := by
    simp [renderProg]
  have hLB : 'B' ∉ kLOOPS ++ interc [','] (p.headers.map renderHeader) := by
    intro hm
    rcases List.mem_append.mp hm with hm | hm
    · exact absurd hm (by decide)
    · rcases interc_mem hm with hm2 | ⟨tok, htok, hm2⟩
      · exact absurd hm2 (by decide)
      · obtain ⟨g, hg, rfl⟩ := List.mem_map.mp htok
        exact renderHeader_no_B (hheads g hg) hm2
  have hfindL : findSub kLOOPS (renderProg p) = 0 := by
    apply findSub_first (by decide) hlen
    · rw [List.drop_zero, hs1]
      exact List.isPrefixOf_iff_prefix.mpr (List.prefix_append _ _)
    · intro i hi
      omega
  have hlenKL : (kLOOPS ++ interc [','] (p.headers.map renderHeader)).length =
      6 + (interc [','] (p.headers.map renderHeader)).length := by
    rw [List.length_append, show kLOOPS.length = 6 from rfl]
  have hfindB : findSub kBODY (renderProg p) =
      6 + (interc [','] (p.headers.map renderHeader)).length := by
    apply findSub_first (by decide) hlen
    · rw [hs2, ← hlenKL, List.drop_left]
      exact List.isPrefixOf_iff_prefix.mpr (List.prefix_append _ _)
    · intro i hi
      cases hB : kBODY.isPrefixOf ((renderProg p).drop i)
      · rfl
      · exfalso
        have hhd : ((renderProg p).drop i).head? = some 'B' := isPrefixOf_head hB
        rw [List.head?_drop] at hhd
        rw [hs2] at hhd
        rw [List.getElem?_append_left (by omega)] at hhd
        have hget : (kLOOPS ++ interc [','] (p.headers.map renderHeader)).get? i =
            some 'B' := by
          rw [List.get?_eq_getElem?]
          exact hhd
        exact hLB (List.get?_mem hget)
  -- the four substring extractions
  have hlen5 : (renderProg p).length =
      6 + (interc [','] (p.headers.map renderHeader)).length + 5 +
      ((renderAccess p.lhsTensor p.lhsIdx).length + 1 + (renderExpr p.rhs).length) := by
    rw [hs3]
    simp only [List.length_append, List.length_cons,
      show kLOOPS.length = 6 from rfl, show kBODY.length = 5 from rfl]
    omega
  have hNP : NPOS < 2 ^ 64 := by norm_num [NPOS]
  have hloopsStr : substrCnt (renderProg p) (w64 (0 + 6))
      (sub64 (6 + (interc [','] (p.headers.map renderHeader)).length) (0 + 6)) =
      .ok (interc [','] (p.headers.map renderHeader)) := by
    have h6 : kLOOPS.length = 6 := rfl
    rw [Nat.zero_add, w64_eq (by omega), sub64_eq (by omega) (by omega),
      Nat.add_sub_cancel_left]
    unfold substrCnt
    rw [if_neg (by omega)]
    congr 1
    rw [hs1, ← h6, List.drop_left, List.take_left]
  have hbodyStr : substrFrom (renderProg p)
      (w64 (6 + (interc [','] (p.headers.map renderHeader)).length + 5)) =
      .ok (renderAccess p.lhsTensor p.lhsIdx ++ '=' :: renderExpr p.rhs) := by
    rw [w64_eq (by omega)]
    unfold substrFrom
    rw [if_neg (by omega)]
    rw [hs3]
    congr 1
    apply List.drop_left'
    rw [List.length_append, List.length_append,
      show kLOOPS.length = 6 from rfl, show kBODY.length = 5 from rfl]
  have hassignPos : findChar '='
      (renderAccess p.lhsTensor p.lhsIdx ++ '=' :: renderExpr p.rhs) =
      (renderAccess p.lhsTensor p.lhsIdx).length := by
    apply findChar_append_first
    · exact renderAccess_not_mem hacc (by decide) (by decide) (by decide) (by decide)
    · omega
  have htarget : clean_expr ((renderAccess p.lhsTensor p.lhsIdx ++
      '=' :: renderExpr p.rhs).take (renderAccess p.lhsTensor p.lhsIdx).length) =
      renderAccess p.lhsTensor p.lhsIdx := by
    rw [List.take_left]
    exact clean_expr_renderAccess hacc
  have hvalueRaw : substrFrom (renderAccess p.lhsTensor p.lhsIdx ++
      '=' :: renderExpr p.rhs) (w64 ((renderAccess p.lhsTensor p.lhsIdx).length + 1)) =
      .ok (renderExpr p.rhs) := by
    rw [w64_eq (by omega)]
    unfold substrFrom
    rw [if_neg (by simp only [List.length_append, List.length_cons, gt_iff_lt]; omega)]
    have : renderAccess p.lhsTensor p.lhsIdx ++ '=' :: renderExpr p.rhs =
        (renderAccess p.lhsTensor p.lhsIdx ++ ['=']) ++ renderExpr p.rhs := by simp
    rw [this]
    congr 1
    apply List.drop_left'
    simp
  have hvalue : clean_expr (renderExpr p.rhs) = renderExpr p.rhs :=
    clean_expr_chain hchain
  have hstore : parseStore (renderAccess p.lhsTensor p.lhsIdx) =
      .ok (.store p.lhsTensor (p.lhsIdx.map PNode.var)) :=
    parseStore_render hacc (by omega)
  obtain ⟨val, hval⟩ := parseExpression_chain ((renderExpr p.rhs).length + 1)
    (renderExpr p.rhs) hchain (by omega) (by omega)
  have hloopToks : split (interc [','] (p.headers.map renderHeader)) ',' =
      p.headers.map renderHeader := by
    apply split_interc
    intro tok htok
    obtain ⟨g, hg, rfl⟩ := List.mem_map.mp htok
    constructor
    · have := (hheads g hg).1.1
      unfold renderHeader
      intro hnil
      simp at hnil
    · intro hm
      rcases renderHeader_chars (hheads g hg) ',' hm with h1 | h1 | h1
      · exact absurd h1.1 (by decide)
      · exact absurd h1 (by decide)
      · exact absurd h1 (by decide)
  obtain ⟨out, hnest, hna⟩ := buildLoopNest_render
    (.assign (.store p.lhsTensor (p.lhsIdx.map PNode.var)) val) p.headers hheads
  refine ⟨out, ?_, nestAround_to_nestShape hna rfl⟩
  unfold buildUntiledIR
  simp only [bind, Except.bind, pure, Except.pure]
  rw [hfindL, hfindB, hloopsStr]
  simp only []
  rw [hbodyStr]
  simp only []
  rw [hassignPos, htarget, hvalueRaw]
  simp only []
  rw [hvalue, hstore]
  simp only []
  rw [hval]
  simp only []
  rw [hloopToks]
  exact hnest

set_option maxRecDepth 4000 in
/-- Witness for `buildUntiledIR_valid_program` at the Scenario-A program
`LOOPS:i=0:N:1,j=0:M:1BODY:C[i,j]=A[i,j]+B[i,j]`. -/
theorem buildUntiledIR_valid_program_witness :
    ∃ t, buildUntiledIR (renderProg ⟨[⟨"i".toList, "0".toList, "N".toList, "1".toList⟩,
        ⟨"j".toList, "0".toList, "M".toList, "1".toList⟩], "C".toList,
        ["i".toList, "j".toList],
        .add (.acc "A".toList ["i".toList, "j".toList])
          (.acc "B".toList ["i".toList, "j".toList])⟩) = .ok t ∧
      nestShape [⟨"i".toList, "0".toList, "N".toList, "1".toList⟩,
        ⟨"j".toList, "0".toList, "M".toList, "1".toList⟩] "C".toList
        ["i".toList, "j".toList] t :=
  buildUntiledIR_valid_program _ (by decide) (by decide) (by decide)

set_option maxRecDepth 4000 in
/-- The header-token restriction (`headerTokOk`, no `B`) is necessary, not
cosmetic: this grammar-valid, parenthesis-free program has the bare symbol
`BODY` as an upper bound, so `find("BODY:")` matches inside the header
section, the body is mis-extracted, and `buildUntiledIR` fails with
unknown tensor `1BODY:C` instead of returning a one-loop nest — exactly
as the C++ does (`TensorMap.at("1BODY:C")` throws `std::out_of_range`). -/
theorem buildUntiledIR_marker_collision_fails :
    progOkGrammar pMarkerCollision ∧ parenFree pMarkerCollision.rhs ∧
    renderProg pMarkerCollision = "LOOPS:i=0:BODY:1BODY:C[i]=A[i]".toList ∧
    buildUntiledIR (renderProg pMarkerCollision) =
      .error (.unknownTensor "1BODY:C".toList) :=
  ⟨by decide, by decide, by rfl, by rfl⟩

set_option maxRecDepth 4000 in
/-- Claim C5, counterexample: this program is valid DSL text per the §4.2
grammar — its right side is the product of a parenthesized sum and an
access — yet `buildUntiledIR` does not return a nest of Loops wrapping the
Assign: the non-matching parenthesis strip hands the tensor lookup the
name `(A`, and the build aborts with an unknown-tensor error. -/
theorem buildUntiledIR_valid_paren_program_fails :
    progOk ⟨[⟨"i".toList, "0".toList, "N".toList, "1".toList⟩,
        ⟨"j".toList, "0".toList, "M".toList, "1".toList⟩], "C".toList,
        ["i".toList, "j".toList],
        .mul (.paren (.add (.acc "A".toList ["i".toList, "j".toList])
          (.acc "B".toList ["i".toList, "j".toList])))
          (.acc "C".toList ["i".toList, "j".toList])⟩ ∧
    renderProg ⟨[⟨"i".toList, "0".toList, "N".toList, "1".toList⟩,
        ⟨"j".toList, "0".toList, "M".toList, "1".toList⟩], "C".toList,
        ["i".toList, "j".toList],
        .mul (.paren (.add (.acc "A".toList ["i".toList, "j".toList])
          (.acc "B".toList ["i".toList, "j".toList])))
          (.acc "C".toList ["i".toList, "j".toList])⟩ =
      "LOOPS:i=0:N:1,j=0:M:1BODY:C[i,j]=(A[i,j]+B[i,j])*C[i,j]".toList ∧
    buildUntiledIR
        "LOOPS:i=0:N:1,j=0:M:1BODY:C[i,j]=(A[i,j]+B[i,j])*C[i,j]".toList =
      .error (.unknownTensor "(A".toList) :=
  ⟨by decide, rfl, rfl⟩

theorem get?_lt_of_some {h : Heap} {a : Nat} {c : HCell} (hg : h.get? a = some c) :
    a < h.length := by
  obtain ⟨hlt, _⟩ := List.get?_eq_some.mp hg
  exact hlt

theorem set_get_self {α : Type} {h : List α} {i : Nat} {c : α} (hi : i < h.length) :
    (h.set i c).get? i = some c := by
  induction h generalizing i with
  | nil => simp at hi
  | cons d t ih =>
      cases i with
      | zero => rfl
      | succ n => exact ih (by simpa using hi)

theorem set_get_other {α : Type} {h : List α} {i j : Nat} {c : α} (hij : i ≠ j) :
    (h.set i c).get? j = h.get? j := by
  induction h generalizing i j with
  | nil => rfl
  | cons d t ih =>
      cases i with
      | zero =>
          cases j with
          | zero => exact absurd rfl hij
          | succ m => rfl
      | succ n =>
          cases j with
          | zero => rfl
          | succ m => exact ih (by omega)

theorem extends_rfl (h : Heap) : Extends h h := ⟨le_refl _, fun _ _ => rfl⟩

theorem Extends.trans {h1 h2 h3 : Heap} (e1 : Extends h1 h2) (e2 : Extends h2 h3) :
    Extends h1 h3 :=
  ⟨le_trans e1.1 e2.1, fun i hi => (e2.2 i (lt_of_lt_of_le hi e1.1)).trans (e1.2 i hi)⟩

theorem extends_snoc {h hk : Heap} (e : Extends h hk) (c : HCell) :
    Extends h (hk ++ [c]) := by
  constructor
  · rw [List.length_append, List.length_singleton]
    have := e.1
    omega
  · intro i hi
    rw [List.get?_append (lt_of_lt_of_le hi e.1)]
    exact e.2 i hi

theorem extends_set {h hk : Heap} (e : Extends h hk) {i : Nat} (c : HCell)
    (hi : h.length ≤ i) : Extends h (hk.set i c) := by
  constructor
  · rw [List.length_set]
    exact e.1
  · intro j hj
    rw [set_get_other (show i ≠ j by omega)]
    exact e.2 j hj

theorem extends_get_some {h h2 : Heap} (e : Extends h h2) {j : Nat} {c : HCell}
    (hj : h.get? j = some c) : h2.get? j = some c := by
  rw [e.2 j (get?_lt_of_some hj)]
  exact hj

theorem freshClosed_rfl (h : Heap) : FreshClosed h h := by
  intro i c hi hg
  exact absurd (get?_lt_of_some hg) (by omega)

theorem freshClosed_trans {h h1 h2 : Heap} (e1 : Extends h h1) (e2 : Extends h1 h2)
    (f1 : FreshClosed h h1) (f2 : FreshClosed h1 h2) : FreshClosed h h2 := by
  intro i c hi hg k hk
  by_cases hi1 : i < h1.length
  · rw [e2.2 i hi1] at hg
    obtain ⟨hk1, hk2⟩ := f1 i c hi hg k hk
    exact ⟨hk1, lt_of_lt_of_le hk2 e2.1⟩
  · obtain ⟨hk1, hk2⟩ := f2 i c (by omega) hg k hk
    exact ⟨le_trans e1.1 hk1, hk2⟩

theorem freshClosed_snoc {h hk : Heap} (fc : FreshClosed h hk) {c : HCell}
    (hkids : ∀ k ∈ cellKids c, h.length ≤ k ∧ k < hk.length) :
    FreshClosed h (hk ++ [c]) := by
  intro i d hi hg k hk2
  rw [List.length_append, List.length_singleton]
  rcases lt_trichotomy i hk.length with hilt | hieq | higt
  · rw [List.get?_append hilt] at hg
    obtain ⟨b1, b2⟩ := fc i d hi hg k hk2
    exact ⟨b1, by omega⟩
  · subst hieq
    rw [List.get?_concat_length] at hg
    cases hg
    obtain ⟨b1, b2⟩ := hkids k hk2
    exact ⟨b1, by omega⟩
  · exfalso
    have := get?_lt_of_some hg
    rw [List.length_append, List.length_singleton] at this
    omega

theorem freshClosed_set {h hk : Heap} (fc : FreshClosed h hk) {i : Nat} {c : HCell}
    (hi : h.length ≤ i) (hkids : ∀ k ∈ cellKids c, h.length ≤ k ∧ k < hk.length) :
    FreshClosed h (hk.set i c) := by
  intro j d hj hg k hk2
  rw [List.length_set]
  by_cases hji : i = j
  · subst hji
    have hilt : i < hk.length := by
      have := get?_lt_of_some hg
      rwa [List.length_set] at this
    rw [set_get_self hilt] at hg
    cases hg
    exact hkids k hk2
  · rw [set_get_other hji] at hg
    exact fc j d hj hg k hk2

theorem omap1_some {α γ : Type} {a : α} {k : α → γ} : omap1 (some a) k = some (k a) := rfl

theorem omap2_some {α β γ : Type} {a : α} {b : β} {k : α → β → γ} :
    omap2 (some a) (some b) k = some (k a b) := rfl

theorem omap4_some {α β γ δ ε : Type} {a : α} {b : β} {c : γ} {d : δ}
    {k : α → β → γ → δ → ε} :
    omap4 (some a) (some b) (some c) (some d) k = some (k a b c d) := rfl

theorem omap1_eq_some {α γ : Type} {x : Option α} {k : α → γ} {r : γ}
    (he : omap1 x k = some r) : ∃ a, x = some a ∧ k a = r := by
  cases x with
  | none => exact Option.noConfusion he
  | some a => exact ⟨a, rfl, Option.some.inj he⟩

theorem omap2_eq_some {α β γ : Type} {x : Option α} {y : Option β} {k : α → β → γ}
    {r : γ} (he : omap2 x y k = some r) :
    ∃ a b, x = some a ∧ y = some b ∧ k a b = r := by
  cases x with
  | none => cases y <;> exact Option.noConfusion he
  | some a =>
      cases y with
      | none => exact Option.noConfusion he
      | some b => exact ⟨a, b, rfl, rfl, Option.some.inj he⟩

theorem omap4_eq_some {α β γ δ ε : Type} {x : Option α} {y : Option β} {z : Option γ}
    {w : Option δ} {k : α → β → γ → δ → ε} {r : ε} (he : omap4 x y z w k = some r) :
    ∃ a b c d, x = some a ∧ y = some b ∧ z = some c ∧ w = some d ∧ k a b c d = r := by
  cases x <;> cases y <;> cases z <;> cases w <;>
    first
      | exact Option.noConfusion he
      | exact ⟨_, _, _, _, rfl, rfl, rfl, rfl, Option.some.inj he⟩

theorem hbind_some {α β : Type} {h1 : Heap} {a : α} {k : Heap → α → Heap × Option β} :
    hbind (h1, some a) k = k h1 a := rfl

theorem hbind_none {α β : Type} {h1 : Heap} {k : Heap → α → Heap × Option β} :
    hbind (h1, none) k = (h1, none) := rfl

theorem hbind_allocS {β : Type} {h : Heap} {c : HCell}
    {k : Heap → Nat → Heap × Option β} :
    hbind (allocS h c) k = k (h ++ [c]) h.length := rfl

theorem hbind_cases {α β : Type} {r : Heap × Option α} {k : Heap → α → Heap × Option β}
    {Q : Heap × Option β → Prop}
    (hn : ∀ h1, r = (h1, none) → Q (h1, none))
    (hs : ∀ h1 a, r = (h1, some a) → Q (k h1 a)) : Q (hbind r k) := by
  obtain ⟨hh, o⟩ := r
  cases o with
  | none => exact hn hh rfl
  | some a => exact hs hh a rfl

theorem hbind_eq_someR {α β : Type} {r : Heap × Option α}
    {k : Heap → α → Heap × Option β} {h2 : Heap} {b : β}
    (he : hbind r k = (h2, some b)) :
    ∃ h1 a, r = (h1, some a) ∧ k h1 a = (h2, some b) := by
  obtain ⟨h1, o⟩ := r
  cases o with
  | none => exact Option.noConfusion (congrArg Prod.snd he)
  | some a => exact ⟨h1, a, rfl, he⟩

theorem withHead_cons {h : Heap} {a : Nat} {l : List Nat}
    {k : Nat → Heap × Option Nat} : withHead h (a :: l) k = k a := rfl

theorem withLoop_loop {h : Heap} {a : Nat} {i : Str} {lb ub st : Nat}
    {body : List Nat} {k : Str → Nat → Nat → Nat → List Nat → Heap × Option Nat}
    (hg : h.get? a = some (.loopC i lb ub st body)) :
    withLoop h a k = k i lb ub st body := by
  unfold withLoop
  rw [hg]

theorem withLoop_some_inv {h : Heap} {a : Nat}
    {k : Str → Nat → Nat → Nat → List Nat → Heap × Option Nat}
    {h2 : Heap} {r : Nat} (he : withLoop h a k = (h2, some r)) :
    ∃ i lb ub st body, h.get? a = some (.loopC i lb ub st body) ∧
      k i lb ub st body = (h2, some r) := by
  unfold withLoop at he
  cases hg : h.get? a with
  | none =>
      rw [hg] at he
      exact Option.noConfusion (congrArg Prod.snd he)
  | some c =>
      rw [hg] at he
      cases c with
      | loopC i lb ub st body => exact ⟨i, lb, ub, st, body, rfl, he⟩
      | constC v d => exact Option.noConfusion (congrArg Prod.snd he)
      | varC n => exact Option.noConfusion (congrArg Prod.snd he)
      | minC x y => exact Option.noConfusion (congrArg Prod.snd he)
      | addC x y => exact Option.noConfusion (congrArg Prod.snd he)
      | mulC x y => exact Option.noConfusion (congrArg Prod.snd he)
      | loadC t idx => exact Option.noConfusion (congrArg Prod.snd he)
      | storeC t idx => exact Option.noConfusion (congrArg Prod.snd he)
      | assignC x y => exact Option.noConfusion (congrArg Prod.snd he)

theorem withHead_some_inv {h : Heap} {l : List Nat} {k : Nat → Heap × Option Nat}
    {h2 : Heap} {r : Nat} (he : withHead h l k = (h2, some r)) :
    ∃ a l2, l = a :: l2 ∧ k a = (h2, some r) := by
  cases l with
  | nil => exact Option.noConfusion (congrArg Prod.snd he)
  | cons a l2 => exact ⟨a, l2, rfl, he⟩

theorem readTree_succ_none {f : Nat} {h : Heap} {a : Nat} (hg : h.get? a = none) :
    readTree (f + 1) h a = none := by
  rw [readTree, hg]

theorem readTree_constC {f : Nat} {h : Heap} {a : Nat} {v : CVal} {d : DTy}
    (hg : h.get? a = some (.constC v d)) :
    readTree (f + 1) h a = some (.const v d) := by
  rw [readTree, hg]

theorem readTree_varC {f : Nat} {h : Heap} {a : Nat} {n : Str}
    (hg : h.get? a = some (.varC n)) :
    readTree (f + 1) h a = some (.var n) := by
  rw [readTree, hg]

theorem readTree_minC {f : Nat} {h : Heap} {a x y : Nat}
    (hg : h.get? a = some (.minC x y)) :
    readTree (f + 1) h a = omap2 (readTree f h x) (readTree f h y) PNode.min := by
  rw [readTree, hg]

theorem readTree_addC {f : Nat} {h : Heap} {a x y : Nat}
    (hg : h.get? a = some (.addC x y)) :
    readTree (f + 1) h a = omap2 (readTree f h x) (readTree f h y) PNode.add := by
  rw [readTree, hg]

theorem readTree_mulC {f : Nat} {h : Heap} {a x y : Nat}
    (hg : h.get? a = some (.mulC x y)) :
    readTree (f + 1) h a = omap2 (readTree f h x) (readTree f h y) PNode.mul := by
  rw [readTree, hg]

theorem readTree_assignC {f : Nat} {h : Heap} {a x y : Nat}
    (hg : h.get? a = some (.assignC x y)) :
    readTree (f + 1) h a = omap2 (readTree f h x) (readTree f h y) PNode.assign := by
  rw [readTree, hg]

theorem readTree_loadC {f : Nat} {h : Heap} {a : Nat} {tn : Str} {idx : List Nat}
    (hg : h.get? a = some (.loadC tn idx)) :
    readTree (f + 1) h a = omap1 (readTreeL f h idx) (PNode.load tn) := by
  rw [readTree, hg]

theorem readTree_storeC {f : Nat} {h : Heap} {a : Nat} {tn : Str} {idx : List Nat}
    (hg : h.get? a = some (.storeC tn idx)) :
    readTree (f + 1) h a = omap1 (readTreeL f h idx) (PNode.store tn) := by
  rw [readTree, hg]

theorem readTree_loopC {f : Nat} {h : Heap} {a : Nat} {i : Str} {lb ub st : Nat}
    {body : List Nat} (hg : h.get? a = some (.loopC i lb ub st body)) :
    readTree (f + 1) h a =
      omap4 (readTree f h lb) (readTree f h ub) (readTree f h st)
        (readTreeL f h body) (PNode.loop i) := by
  rw [readTree, hg]

theorem readTreeL_nil {f : Nat} {h : Heap} : readTreeL (f + 1) h [] = some [] := rfl

theorem readTreeL_cons {f : Nat} {h : Heap} {a : Nat} {as : List Nat} :
    readTreeL (f + 1) h (a :: as) =
      omap2 (readTree f h a) (readTreeL f h as) List.cons := rfl

theorem deepCopyH_succ_none {f : Nat} {h : Heap} {a : Nat} (hg : h.get? a = none) :
    deepCopyH (f + 1) h a = (h, none) := by
  rw [deepCopyH, hg]

theorem deepCopyH_constC {f : Nat} {h : Heap} {a : Nat} {v : CVal} {d : DTy}
    (hg : h.get? a = some (.constC v d)) :
    deepCopyH (f + 1) h a = allocS h (.constC v d) := by
  rw [deepCopyH, hg]

theorem deepCopyH_varC {f : Nat} {h : Heap} {a : Nat} {n : Str}
    (hg : h.get? a = some (.varC n)) :
    deepCopyH (f + 1) h a = allocS h (.varC n) := by
  rw [deepCopyH, hg]

theorem deepCopyH_minC {f : Nat} {h : Heap} {a x y : Nat}
    (hg : h.get? a = some (.minC x y)) :
    deepCopyH (f + 1) h a =
      hbind (deepCopyH f h x) (fun h1 x2 =>
        hbind (deepCopyH f h1 y) fun h2 y2 => allocS h2 (.minC x2 y2)) := by
  rw [deepCopyH, hg]

theorem deepCopyH_addC {f : Nat} {h : Heap} {a x y : Nat}
    (hg : h.get? a = some (.addC x y)) :
    deepCopyH (f + 1) h a =
      hbind (deepCopyH f h x) (fun h1 x2 =>
        hbind (deepCopyH f h1 y) fun h2 y2 => allocS h2 (.addC x2 y2)) := by
  rw [deepCopyH, hg]

theorem deepCopyH_mulC {f : Nat} {h : Heap} {a x y : Nat}
    (hg : h.get? a = some (.mulC x y)) :
    deepCopyH (f + 1) h a =
      hbind (deepCopyH f h x) (fun h1 x2 =>
        hbind (deepCopyH f h1 y) fun h2 y2 => allocS h2 (.mulC x2 y2)) := by
  rw [deepCopyH, hg]

theorem deepCopyH_assignC {f : Nat} {h : Heap} {a x y : Nat}
    (hg : h.get? a = some (.assignC x y)) :
    deepCopyH (f + 1) h a =
      hbind (deepCopyH f h x) (fun h1 x2 =>
        hbind (deepCopyH f h1 y) fun h2 y2 => allocS h2 (.assignC x2 y2)) := by
  rw [deepCopyH, hg]

theorem deepCopyH_loadC {f : Nat} {h : Heap} {a : Nat} {tn : Str} {idx : List Nat}
    (hg : h.get? a = some (.loadC tn idx)) :
    deepCopyH (f + 1) h a =
      hbind (deepCopyListH f h idx) (fun h1 idx2 => allocS h1 (.loadC tn idx2)) := by
  rw [deepCopyH, hg]

theorem deepCopyH_storeC {f : Nat} {h : Heap} {a : Nat} {tn : Str} {idx : List Nat}
    (hg : h.get? a = some (.storeC tn idx)) :
    deepCopyH (f + 1) h a =
      hbind (deepCopyListH f h idx) (fun h1 idx2 => allocS h1 (.storeC tn idx2)) := by
  rw [deepCopyH, hg]

theorem deepCopyH_loopC {f : Nat} {h : Heap} {a : Nat} {i : Str} {lb ub st : Nat}
    {body : List Nat} (hg : h.get? a = some (.loopC i lb ub st body)) :
    deepCopyH (f + 1) h a =
      hbind (deepCopyH f h lb) (fun h1 lb2 =>
        hbind (deepCopyH f h1 ub) fun h2 ub2 =>
        hbind (deepCopyH f h2 st) fun h3 st2 =>
        hbind (deepCopyListH f (h3 ++ [.loopC i lb2 ub2 st2 []]) body) fun h5 body2 =>
          (h5.set h3.length (.loopC i lb2 ub2 st2 body2), some h3.length)) := by
  rw [deepCopyH, hg]

theorem deepCopyListH_nil {f : Nat} {h : Heap} :
    deepCopyListH (f + 1) h [] = (h, some []) := rfl

theorem deepCopyListH_cons {f : Nat} {h : Heap} {a : Nat} {as : List Nat} :
    deepCopyListH (f + 1) h (a :: as) =
      hbind (deepCopyH f h a) (fun h1 a2 =>
        hbind (deepCopyListH f h1 as) fun h2 as2 => (h2, some (a2 :: as2))) := rfl

theorem readTree_extend_all (f : Nat) :
    (∀ (h h2 : Heap) (a : Nat) (t : PNode),
      (∀ j c, h.get? j = some c → h2.get? j = some c) →
      readTree f h a = some t → readTree f h2 a = some t) ∧
    (∀ (h h2 : Heap) (as : List Nat) (ts : List PNode),
      (∀ j c, h.get? j = some c → h2.get? j = some c) →
      readTreeL f h as = some ts → readTreeL f h2 as = some ts) := by
  induction f with
  | zero =>
      constructor
      · intro h h2 a t _ hr
        exact Option.noConfusion hr
      · intro h h2 as ts _ hr
        exact Option.noConfusion hr
  | succ f ih =>
      obtain ⟨ihT, ihL⟩ := ih
      constructor
      · intro h h2 a t hag hr
        cases hget : h.get? a with
        | none =>
            rw [readTree_succ_none hget] at hr
            exact Option.noConfusion hr
        | some c =>
            cases c with
            | constC v d =>
                rw [readTree_constC hget] at hr
                rw [readTree_constC (hag _ _ hget)]
                exact hr
            | varC n =>
                rw [readTree_varC hget] at hr
                rw [readTree_varC (hag _ _ hget)]
                exact hr
            | minC x y =>
                rw [readTree_minC hget] at hr
                obtain ⟨tx, ty, hx, hy, hk⟩ := omap2_eq_some hr
                rw [readTree_minC (hag _ _ hget), ihT h h2 x tx hag hx,
                  ihT h h2 y ty hag hy, omap2_some, hk]
            | addC x y =>
                rw [readTree_addC hget] at hr
                obtain ⟨tx, ty, hx, hy, hk⟩ := omap2_eq_some hr
                rw [readTree_addC (hag _ _ hget), ihT h h2 x tx hag hx,
                  ihT h h2 y ty hag hy, omap2_some, hk]
            | mulC x y =>
                rw [readTree_mulC hget] at hr
                obtain ⟨tx, ty, hx, hy, hk⟩ := omap2_eq_some hr
                rw [readTree_mulC (hag _ _ hget), ihT h h2 x tx hag hx,
                  ihT h h2 y ty hag hy, omap2_some, hk]
            | assignC x y =>
                rw [readTree_assignC hget] at hr
                obtain ⟨tx, ty, hx, hy, hk⟩ := omap2_eq_some hr
                rw [readTree_assignC (hag _ _ hget), ihT h h2 x tx hag hx,
                  ihT h h2 y ty hag hy, omap2_some, hk]
            | loadC tn idx =>
                rw [readTree_loadC hget] at hr
                obtain ⟨ts2, hts, hk⟩ := omap1_eq_some hr
                rw [readTree_loadC (hag _ _ hget), ihL h h2 idx ts2 hag hts,
                  omap1_some, hk]
            | storeC tn idx =>
                rw [readTree_storeC hget] at hr
                obtain ⟨ts2, hts, hk⟩ := omap1_eq_some hr
                rw [readTree_storeC (hag _ _ hget), ihL h h2 idx ts2 hag hts,
                  omap1_some, hk]
            | loopC i lb ub st body =>
                rw [readTree_loopC hget] at hr
                obtain ⟨tlb, tub, tst, tbd, hlb, hub, hst, hbd, hk⟩ := omap4_eq_some hr
                rw [readTree_loopC (hag _ _ hget), ihT h h2 lb tlb hag hlb,
                  ihT h h2 ub tub hag hub, ihT h h2 st tst hag hst,
                  ihL h h2 body tbd hag hbd, omap4_some, hk]
      · intro h h2 as ts hag hr
        cases as with
        | nil => exact hr
        | cons a as2 =>
            rw [readTreeL_cons] at hr
            obtain ⟨t, ts2, ht, hts, hk⟩ := omap2_eq_some hr
            rw [readTreeL_cons, ihT h h2 a t hag ht, ihL h h2 as2 ts2 hag hts,
              omap2_some, hk]

theorem readTree_extend {f : Nat} {h h2 : Heap} {a : Nat} {t : PNode}
    (hag : ∀ j c, h.get? j = some c → h2.get? j = some c)
    (hr : readTree f h a = some t) : readTree f h2 a = some t :=
  (readTree_extend_all f).1 h h2 a t hag hr

theorem readTreeL_extend {f : Nat} {h h2 : Heap} {as : List Nat} {ts : List PNode}
    (hag : ∀ j c, h.get? j = some c → h2.get? j = some c)
    (hr : readTreeL f h as = some ts) : readTreeL f h2 as = some ts :=
  (readTree_extend_all f).2 h h2 as ts hag hr

theorem readTree_congr_all (P : Nat → Prop) (f : Nat) :
    (∀ (h h2 : Heap) (a : Nat),
      (∀ j, P j → h2.get? j = h.get? j) →
      (∀ b c, P b → h.get? b = some c → ∀ k ∈ cellKids c, P k) →
      P a → readTree f h2 a = readTree f h a) ∧
    (∀ (h h2 : Heap) (as : List Nat),
      (∀ j, P j → h2.get? j = h.get? j) →
      (∀ b c, P b → h.get? b = some c → ∀ k ∈ cellKids c, P k) →
      (∀ x ∈ as, P x) → readTreeL f h2 as = readTreeL f h as) := by
  induction f with
  | zero => exact ⟨fun _ _ _ _ _ _ => rfl, fun _ _ _ _ _ _ => rfl⟩
  | succ f ih =>
      obtain ⟨ihT, ihL⟩ := ih
      constructor
      · intro h h2 a hag hcl hPa
        cases hget : h.get? a with
        | none =>
            rw [readTree_succ_none hget,
              readTree_succ_none (show h2.get? a = none by rw [hag a hPa]; exact hget)]
        | some c =>
            have hg2 : h2.get? a = some c := by rw [hag a hPa]; exact hget
            have hkids := hcl a c hPa hget
            cases c with
            | constC v d => rw [readTree_constC hget, readTree_constC hg2]
            | varC n => rw [readTree_varC hget, readTree_varC hg2]
            | minC x y =>
                rw [readTree_minC hget, readTree_minC hg2,
                  ihT h h2 x hag hcl (hkids x (by simp [cellKids])),
                  ihT h h2 y hag hcl (hkids y (by simp [cellKids]))]
            | addC x y =>
                rw [readTree_addC hget, readTree_addC hg2,
                  ihT h h2 x hag hcl (hkids x (by simp [cellKids])),
                  ihT h h2 y hag hcl (hkids y (by simp [cellKids]))]
            | mulC x y =>
                rw [readTree_mulC hget, readTree_mulC hg2,
                  ihT h h2 x hag hcl (hkids x (by simp [cellKids])),
                  ihT h h2 y hag hcl (hkids y (by simp [cellKids]))]
            | assignC x y =>
                rw [readTree_assignC hget, readTree_assignC hg2,
                  ihT h h2 x hag hcl (hkids x (by simp [cellKids])),
                  ihT h h2 y hag hcl (hkids y (by simp [cellKids]))]
            | loadC tn idx =>
                rw [readTree_loadC hget, readTree_loadC hg2,
                  ihL h h2 idx hag hcl (fun x hx => hkids x (by simp [cellKids, hx]))]
            | storeC tn idx =>
                rw [readTree_storeC hget, readTree_storeC hg2,
                  ihL h h2 idx hag hcl (fun x hx => hkids x (by simp [cellKids, hx]))]
            | loopC i lb ub st body =>
                rw [readTree_loopC hget, readTree_loopC hg2,
                  ihT h h2 lb hag hcl (hkids lb (by simp [cellKids])),
                  ihT h h2 ub hag hcl (hkids ub (by simp [cellKids])),
                  ihT h h2 st hag hcl (hkids st (by simp [cellKids])),
                  ihL h h2 body hag hcl (fun x hx => hkids x (by simp [cellKids, hx]))]
      · intro h h2 as hag hcl hPs
        cases as with
        | nil => rfl
        | cons a as2 =>
            rw [readTreeL_cons, readTreeL_cons,
              ihT h h2 a hag hcl (hPs a (List.mem_cons_self a as2)),
              ihL h h2 as2 hag hcl (fun x hx => hPs x (List.mem_cons_of_mem a hx))]

theorem readTree_mono_all (f : Nat) :
    (∀ (g : Nat) (h : Heap) (a : Nat) (t : PNode), f ≤ g →
      readTree f h a = some t → readTree g h a = some t) ∧
    (∀ (g : Nat) (h : Heap) (as : List Nat) (ts : List PNode), f ≤ g →
      readTreeL f h as = some ts → readTreeL g h as = some ts) := by
  induction f with
  | zero =>
      constructor
      · intro g h a t _ hr
        exact Option.noConfusion hr
      · intro g h as ts _ hr
        exact Option.noConfusion hr
  | succ f ih =>
      obtain ⟨ihT, ihL⟩ := ih
      constructor
      · intro g h a t hfg hr
        obtain ⟨g, rfl⟩ : ∃ g2, g = g2 + 1 := ⟨g - 1, by omega⟩
        have hfg2 : f ≤ g := by omega
        cases hget : h.get? a with
        | none =>
            rw [readTree_succ_none hget] at hr
            exact Option.noConfusion hr
        | some c =>
            cases c with
            | constC v d =>
                rw [readTree_constC hget] at hr
                rw [readTree_constC hget]
                exact hr
            | varC n =>
                rw [readTree_varC hget] at hr
                rw [readTree_varC hget]
                exact hr
            | minC x y =>
                rw [readTree_minC hget] at hr
                obtain ⟨tx, ty, hx, hy, hk⟩ := omap2_eq_some hr
                rw [readTree_minC hget, ihT g h x tx hfg2 hx,
                  ihT g h y ty hfg2 hy, omap2_some, hk]
            | addC x y =>
                rw [readTree_addC hget] at hr
                obtain ⟨tx, ty, hx, hy, hk⟩ := omap2_eq_some hr
                rw [readTree_addC hget, ihT g h x tx hfg2 hx,
                  ihT g h y ty hfg2 hy, omap2_some, hk]
            | mulC x y =>
                rw [readTree_mulC hget] at hr
                obtain ⟨tx, ty, hx, hy, hk⟩ := omap2_eq_some hr
                rw [readTree_mulC hget, ihT g h x tx hfg2 hx,
                  ihT g h y ty hfg2 hy, omap2_some, hk]
            | assignC x y =>
                rw [readTree_assignC hget] at hr
                obtain ⟨tx, ty, hx, hy, hk⟩ := omap2_eq_some hr
                rw [readTree_assignC hget, ihT g h x tx hfg2 hx,
                  ihT g h y ty hfg2 hy, omap2_some, hk]
            | loadC tn idx =>
                rw [readTree_loadC hget] at hr
                obtain ⟨ts2, hts, hk⟩ := omap1_eq_some hr
                rw [readTree_loadC hget, ihL g h idx ts2 hfg2 hts, omap1_some, hk]
            | storeC tn idx =>
                rw [readTree_storeC hget] at hr
                obtain ⟨ts2, hts, hk⟩ := omap1_eq_some hr
                rw [readTree_storeC hget, ihL g h idx ts2 hfg2 hts, omap1_some, hk]
            | loopC i lb ub st body =>
                rw [readTree_loopC hget] at hr
                obtain ⟨tlb, tub, tst, tbd, hlb, hub, hst, hbd, hk⟩ := omap4_eq_some hr
                rw [readTree_loopC hget, ihT g h lb tlb hfg2 hlb,
                  ihT g h ub tub hfg2 hub, ihT g h st tst hfg2 hst,
                  ihL g h body tbd hfg2 hbd, omap4_some, hk]
      · intro g h as ts hfg hr
        obtain ⟨g, rfl⟩ : ∃ g2, g = g2 + 1 := ⟨g - 1, by omega⟩
        have hfg2 : f ≤ g := by omega
        cases as with
        | nil => exact hr
        | cons a as2 =>
            rw [readTreeL_cons] at hr
            obtain ⟨t, ts2, ht, hts, hk⟩ := omap2_eq_some hr
            rw [readTreeL_cons, ihT g h a t hfg2 ht, ihL g h as2 ts2 hfg2 hts,
              omap2_some, hk]

theorem readTree_mono {f g : Nat} {h : Heap} {a : Nat} {t : PNode} (hfg : f ≤ g)
    (hr : readTree f h a = some t) : readTree g h a = some t :=
  (readTree_mono_all f).1 g h a t hfg hr

theorem exceptBind_ok {ε α β : Type} {x : Except ε α} {f : α → Except ε β} {b : β}
    (h : (x >>= f) = .ok b) : ∃ a, x = .ok a ∧ f a = .ok b := by
  cases x with
  | error e => simp [Bind.bind, Except.bind] at h
  | ok a => exact ⟨a, rfl, by simpa [Bind.bind, Except.bind] using h⟩

theorem allLoopsSingletonL_map_var (l : List Str) :
    allLoopsSingletonL (l.map PNode.var) = true := by
  induction l with
  | nil => rfl
  | cons x xs ih => simp [allLoopsSingletonL, allLoopsSingleton, ih]

theorem parseTensorAccess_ok_shape {s : Str} {p : Str × List PNode}
    (h : parseTensorAccess s = .ok p) :
    ∃ (name : Str) (vars : List Str), p = (name, vars.map PNode.var) := by
  unfold parseTensorAccess at h
  split at h
  · exact absurd h (by simp)
  · obtain ⟨t, h1, h2⟩ := exceptBind_ok h
    simp only [pure, Except.pure, Except.ok.injEq] at h2
    exact ⟨t, _, h2.symm⟩

theorem parseLoad_ok_singleton {s : Str} {e : PNode} (h : parseLoad s = .ok e) :
    allLoopsSingleton e = true := by
  unfold parseLoad at h
  obtain ⟨⟨t, idx⟩, h1, h2⟩ := exceptBind_ok h
  obtain ⟨name, vars, hp⟩ := parseTensorAccess_ok_shape h1
  cases hp
  simp only [pure, Except.pure, Except.ok.injEq] at h2
  subst h2
  simpa [allLoopsSingleton] using allLoopsSingletonL_map_var vars

theorem parseStore_ok_singleton {s : Str} {e : PNode} (h : parseStore s = .ok e) :
    allLoopsSingleton e = true := by
  unfold parseStore at h
  obtain ⟨⟨t, idx⟩, h1, h2⟩ := exceptBind_ok h
  obtain ⟨name, vars, hp⟩ := parseTensorAccess_ok_shape h1
  cases hp
  simp only [pure, Except.pure, Except.ok.injEq] at h2
  subst h2
  simpa [allLoopsSingleton] using allLoopsSingletonL_map_var vars

theorem parseExpression_ok_singleton :
    ∀ {f : Nat} {s : Str} {e : PNode}, parseExpression f s = .ok e →
      allLoopsSingleton e = true := by
  intro f
  induction f with
  | zero => intro s e h; exact absurd h (by simp [parseExpression])
  | succ f ih =>
      intro s e h
      unfold parseExpression at h
      split at h
      · exact parseLoad_ok_singleton h
      · split at h
        · obtain ⟨l, hl, h2⟩ := exceptBind_ok h
          obtain ⟨r, hr, h3⟩ := exceptBind_ok h2
          simp only [pure, Except.pure, Except.ok.injEq] at h3
          subst h3
          simp [allLoopsSingleton, ih hl, ih hr]
        · split at h
          · obtain ⟨l, hl, h2⟩ := exceptBind_ok h
            obtain ⟨r, hr, h3⟩ := exceptBind_ok h2
            simp only [pure, Except.pure, Except.ok.injEq] at h3
            subst h3
            simp [allLoopsSingleton, ih hl, ih hr]
          · exact ih h

theorem parse_bound_ok_singleton {s : Str} {e : PNode} (h : parse_bound s = .ok e) :
    allLoopsSingleton e = true := by
  unfold parse_bound at h
  split at h
  · obtain ⟨v, _, h2⟩ := exceptBind_ok h
    simp only [pure, Except.pure, Except.ok.injEq] at h2
    subst h2
    rfl
  · simp only [pure, Except.pure, Except.ok.injEq] at h
    subst h
    rfl

theorem buildLoopNest_ok_singleton :
    ∀ {toks : List Str} {inner out : PNode},
      allLoopsSingleton inner = true → buildLoopNest toks inner = .ok out →
      allLoopsSingleton out = true := by
  intro toks
  induction toks with
  | nil =>
      intro inner out hin h
      simp only [buildLoopNest, Except.ok.injEq] at h
      exact h ▸ hin
  | cons tok rest ih =>
      intro inner out hin h
      unfold buildLoopNest at h
      obtain ⟨body, hb, h2⟩ := exceptBind_ok h
      obtain ⟨parts, _, h3⟩ := exceptBind_ok h2
      obtain ⟨v, _, h4⟩ := exceptBind_ok h3
      obtain ⟨bstr, _, h5⟩ := exceptBind_ok h4
      obtain ⟨bounds, _, h6⟩ := exceptBind_ok h5
      obtain ⟨b0, _, h7⟩ := exceptBind_ok h6
      obtain ⟨b1, _, h8⟩ := exceptBind_ok h7
      obtain ⟨b2, _, h9⟩ := exceptBind_ok h8
      obtain ⟨lb, hlb, h10⟩ := exceptBind_ok h9
      obtain ⟨ub, hub, h11⟩ := exceptBind_ok h10
      obtain ⟨st, hst, h12⟩ := exceptBind_ok h11
      simp only [pure, Except.pure, Except.ok.injEq] at h12
      subst h12
      simp [allLoopsSingleton, allLoopsSingletonL, parse_bound_ok_singleton hlb,
        parse_bound_ok_singleton hub, parse_bound_ok_singleton hst, ih hin hb]

/-- Claim C10: every `Loop` node of any tree `buildUntiledIR` returns owns
exactly one body statement, and `tilingPass` on a two-level one-statement
input (whose subtrees satisfy the same invariant) returns a tree all of
whose `Loop` nodes own exactly one body statement. -/
theorem loops_always_single_statement :
    (∀ s t, buildUntiledIR s = .ok t → allLoopsSingleton t = true) ∧
    (∀ i lb ub st j lb2 ub2 st2 stmt out,
      allLoopsSingleton (.loop i lb ub st [.loop j lb2 ub2 st2 [stmt]]) = true →
      tilingPass (.loop i lb ub st [.loop j lb2 ub2 st2 [stmt]]) = some out →
      allLoopsSingleton out = true) := by
  constructor
  · intro s t h
    unfold buildUntiledIR at h
    obtain ⟨lst, _, h2⟩ := exceptBind_ok h
    obtain ⟨bst, _, h3⟩ := exceptBind_ok h2
    obtain ⟨ls, _, h4⟩ := exceptBind_ok h3
    obtain ⟨bs, _, h5⟩ := exceptBind_ok h4
    obtain ⟨ap, _, h6⟩ := exceptBind_ok h5
    obtain ⟨ts, _, h7⟩ := exceptBind_ok h6
    obtain ⟨vr, _, h8⟩ := exceptBind_ok h7
    obtain ⟨vs, _, h9⟩ := exceptBind_ok h8
    obtain ⟨stg, hstg, h10⟩ := exceptBind_ok h9
    obtain ⟨ve, hve, h11⟩ := exceptBind_ok h10
    obtain ⟨ltk, _, h12⟩ := exceptBind_ok h11
    exact buildLoopNest_ok_singleton
      (by simp [allLoopsSingleton, parseStore_ok_singleton hstg,
        parseExpression_ok_singleton hve]) h12
  · intro i lb ub st j lb2 ub2 st2 stmt out hin hout
    simp only [tilingPass, deepCopyVector, deepCopy_id, Option.some.injEq] at hout
    subst hout
    simp only [allLoopsSingleton, allLoopsSingletonL, Bool.and_eq_true,
      decide_eq_true_eq, List.length_cons, List.length_nil] at hin ⊢
    simp_all

/-- Witness for `loops_always_single_statement`: the Scenario-A program
parses to a nest of singleton-bodied loops, and tiling a concrete two-level
nest keeps every loop singleton-bodied. -/
theorem loops_always_single_statement_witness :
    allLoopsSingleton
      ((buildUntiledIR "LOOPS:i=0:N:1,j=0:M:1BODY:C[i,j]=A[i,j]+B[i,j]".toList).toOption.getD
        (.var "x".toList)) = true ∧
    allLoopsSingleton
      (.loop "ii".toList (.const (.i32 0) .int32) (.var "N".toList) (.var "T".toList)
        [.loop "jj".toList (.const (.i32 0) .int32) (.var "M".toList) (.var "T".toList)
          [.loop "i".toList (.var "ii".toList)
              (.min (.add (.var "ii".toList) (.var "T".toList)) (.var "N".toList))
              (.const (.i32 1) .int32)
            [.loop "j".toList (.var "jj".toList)
                (.min (.add (.var "jj".toList) (.var "T".toList)) (.var "M".toList))
                (.const (.i32 1) .int32)
              [.assign (.store "C".toList [.var "i".toList, .var "j".toList])
                (.load "A".toList [.var "j".toList, .var "i".toList])]]]]) = true := by
  constructor
  · exact loops_always_single_statement.1
      "LOOPS:i=0:N:1,j=0:M:1BODY:C[i,j]=A[i,j]+B[i,j]".toList _ rfl
  · exact loops_always_single_statement.2 "i".toList (.const (.i32 0) .int32)
      (.var "N".toList) (.const (.i32 1) .int32) "j".toList (.const (.i32 0) .int32)
      (.var "M".toList) (.const (.i32 1) .int32)
      (.assign (.store "C".toList [.var "i".toList, .var "j".toList])
        (.load "A".toList [.var "j".toList, .var "i".toList]))
      _ (by rfl) rfl


theorem copyOk_none {h hk : Heap} (e : Extends h hk) (fc : FreshClosed h hk) :
    CopyOk h (hk, none) :=
  ⟨e, fc, fun _ ha => Option.noConfusion ha⟩

theorem copyOkL_none {h hk : Heap} (e : Extends h hk) (fc : FreshClosed h hk) :
    CopyOkL h (hk, none) :=
  ⟨e, fc, fun _ ha => Option.noConfusion ha⟩

theorem copyOk_allocS {h hk : Heap} (e : Extends h hk) (fc : FreshClosed h hk)
    {c : HCell} (hkids : ∀ k ∈ cellKids c, h.length ≤ k ∧ k < hk.length) :
    CopyOk h (allocS hk c) := by
  refine ⟨extends_snoc e c, freshClosed_snoc fc hkids, ?_⟩
  intro a2 ha
  obtain rfl : hk.length = a2 := Option.some.inj ha
  refine ⟨e.1, ?_⟩
  show hk.length < (hk ++ [c]).length
  rw [List.length_append, List.length_singleton]
  omega

theorem copyOk_bin {f : Nat}
    (ihT : ∀ (h : Heap) (a : Nat), CopyOk h (deepCopyH f h a))
    (h : Heap) (x y : Nat) (mk : Nat → Nat → HCell)
    (hmk : ∀ u v, cellKids (mk u v) = [u, v]) :
    CopyOk h (hbind (deepCopyH f h x) fun h1 x2 =>
      hbind (deepCopyH f h1 y) fun h2 y2 => allocS h2 (mk x2 y2)) := by
  rcases hx : deepCopyH f h x with ⟨h1, o1⟩
  have hr1 := ihT h x
  rw [hx] at hr1
  cases o1 with
  | none =>
      rw [hbind_none]
      exact copyOk_none hr1.1 hr1.2.1
  | some x2 =>
      simp only [hbind_some]
      rcases hy : deepCopyH f h1 y with ⟨h2, o2⟩
      have hr2 := ihT h1 y
      rw [hy] at hr2
      cases o2 with
      | none =>
          rw [hbind_none]
          exact copyOk_none (hr1.1.trans hr2.1)
            (freshClosed_trans hr1.1 hr2.1 hr1.2.1 hr2.2.1)
      | some y2 =>
          simp only [hbind_some]
          obtain ⟨bx1, bx2⟩ := hr1.2.2 x2 rfl
          obtain ⟨hy1, hy2⟩ := hr2.2.2 y2 rfl
          refine copyOk_allocS (hr1.1.trans hr2.1)
            (freshClosed_trans hr1.1 hr2.1 hr1.2.1 hr2.2.1) ?_
          intro k hk
          rw [hmk] at hk
          simp only [List.mem_cons, List.not_mem_nil, or_false] at hk
          rcases hk with rfl | rfl
          · exact ⟨bx1, lt_of_lt_of_le bx2 hr2.1.1⟩
          · exact ⟨le_trans hr1.1.1 hy1, hy2⟩

theorem copyOk_idx {f : Nat}
    (ihL : ∀ (h : Heap) (as : List Nat), CopyOkL h (deepCopyListH f h as))
    (h : Heap) (idx : List Nat) (mk : List Nat → HCell)
    (hmk : ∀ u, cellKids (mk u) = u) :
    CopyOk h (hbind (deepCopyListH f h idx) fun h1 idx2 => allocS h1 (mk idx2)) := by
  rcases hi : deepCopyListH f h idx with ⟨h1, o1⟩
  have hr1 := ihL h idx
  rw [hi] at hr1
  cases o1 with
  | none =>
      rw [hbind_none]
      exact copyOk_none hr1.1 hr1.2.1
  | some idx2 =>
      simp only [hbind_some]
      refine copyOk_allocS hr1.1 hr1.2.1 ?_
      intro k hk
      rw [hmk] at hk
      exact hr1.2.2 idx2 rfl k hk

theorem deepCopyH_ext_all (f : Nat) :
    (∀ (h : Heap) (a : Nat), CopyOk h (deepCopyH f h a)) ∧
    (∀ (h : Heap) (as : List Nat), CopyOkL h (deepCopyListH f h as)) := by
  induction f with
  | zero =>
      constructor
      · intro h a
        exact copyOk_none (extends_rfl h) (freshClosed_rfl h)
      · intro h as
        exact copyOkL_none (extends_rfl h) (freshClosed_rfl h)
  | succ f ih =>
      obtain ⟨ihT, ihL⟩ := ih
      constructor
      · intro h a
        cases hget : h.get? a with
        | none =>
            rw [deepCopyH_succ_none hget]
            exact copyOk_none (extends_rfl h) (freshClosed_rfl h)
        | some c =>
            cases c with
            | constC v d =>
                rw [deepCopyH_constC hget]
                exact copyOk_allocS (extends_rfl h) (freshClosed_rfl h)
                  (fun k hk => absurd hk (by simp [cellKids]))
            | varC n =>
                rw [deepCopyH_varC hget]
                exact copyOk_allocS (extends_rfl h) (freshClosed_rfl h)
                  (fun k hk => absurd hk (by simp [cellKids]))
            | minC x y =>
                rw [deepCopyH_minC hget]
                exact copyOk_bin ihT h x y HCell.minC (fun u v => rfl)
            | addC x y =>
                rw [deepCopyH_addC hget]
                exact copyOk_bin ihT h x y HCell.addC (fun u v => rfl)
            | mulC x y =>
                rw [deepCopyH_mulC hget]
                exact copyOk_bin ihT h x y HCell.mulC (fun u v => rfl)
            | assignC x y =>
                rw [deepCopyH_assignC hget]
                exact copyOk_bin ihT h x y HCell.assignC (fun u v => rfl)
            | loadC tn idx =>
                rw [deepCopyH_loadC hget]
                exact copyOk_idx ihL h idx (HCell.loadC tn) (fun u => rfl)
            | storeC tn idx =>
                rw [deepCopyH_storeC hget]
                exact copyOk_idx ihL h idx (HCell.storeC tn) (fun u => rfl)
            | loopC i lb ub st body =>
                rw [deepCopyH_loopC hget]
                rcases hlb : deepCopyH f h lb with ⟨h1, o1⟩
                have hr1 := ihT h lb
                rw [hlb] at hr1
                cases o1 with
                | none =>
                    rw [hbind_none]
                    exact copyOk_none hr1.1 hr1.2.1
                | some lb2 =>
                    simp only [hbind_some]
                    rcases hub : deepCopyH f h1 ub with ⟨h2, o2⟩
                    have hr2 := ihT h1 ub
                    rw [hub] at hr2
                    cases o2 with
                    | none =>
                        rw [hbind_none]
                        exact copyOk_none (hr1.1.trans hr2.1)
                          (freshClosed_trans hr1.1 hr2.1 hr1.2.1 hr2.2.1)
                    | some ub2 =>
                        simp only [hbind_some]
                        rcases hst : deepCopyH f h2 st with ⟨h3, o3⟩
                        have hr3 := ihT h2 st
                        rw [hst] at hr3
                        have e1 : Extends h h1 := hr1.1
                        have e2 : Extends h1 h2 := hr2.1
                        have f1 : FreshClosed h h1 := hr1.2.1
                        have f2 : FreshClosed h1 h2 := hr2.2.1
                        cases o3 with
                        | none =>
                            rw [hbind_none]
                            exact copyOk_none ((e1.trans e2).trans hr3.1)
                              (freshClosed_trans (e1.trans e2) hr3.1
                                (freshClosed_trans e1 e2 f1 f2) hr3.2.1)
                        | some st2 =>
                            simp only [hbind_some]
                            have e3 : Extends h2 h3 := hr3.1
                            have f3 : FreshClosed h2 h3 := hr3.2.1
                            have hblb : h.length ≤ lb2 ∧ lb2 < h1.length :=
                              hr1.2.2 lb2 rfl
                            have hbub : h1.length ≤ ub2 ∧ ub2 < h2.length :=
                              hr2.2.2 ub2 rfl
                            have hbst : h2.length ≤ st2 ∧ st2 < h3.length :=
                              hr3.2.2 st2 rfl
                            obtain ⟨blb1, blb2⟩ := hblb
                            obtain ⟨bub1, bub2⟩ := hbub
                            obtain ⟨bst1, bst2⟩ := hbst
                            have L01 : h.length ≤ h1.length := e1.1
                            have L12 : h1.length ≤ h2.length := e2.1
                            have L23 : h2.length ≤ h3.length := e3.1
                            have e13 : Extends h h3 := (e1.trans e2).trans e3
                            have f13 : FreshClosed h h3 :=
                              freshClosed_trans (e1.trans e2) e3
                                (freshClosed_trans e1 e2 f1 f2) f3
                            have hkids4 : ∀ k ∈ cellKids (HCell.loopC i lb2 ub2 st2 []),
                                h.length ≤ k ∧ k < h3.length := by
                              intro k hk
                              simp only [cellKids, List.mem_cons, List.not_mem_nil,
                                or_false] at hk
                              rcases hk with rfl | rfl | rfl
                              · exact ⟨blb1, by omega⟩
                              · exact ⟨by omega, by omega⟩
                              · exact ⟨by omega, bst2⟩
                            have e14 : Extends h (h3 ++ [HCell.loopC i lb2 ub2 st2 []]) :=
                              extends_snoc e13 _
                            have f14 : FreshClosed h (h3 ++ [HCell.loopC i lb2 ub2 st2 []]) :=
                              freshClosed_snoc f13 hkids4
                            rcases hbd : deepCopyListH f
                                (h3 ++ [HCell.loopC i lb2 ub2 st2 []]) body with ⟨h5, o4⟩
                            have hr4 := ihL (h3 ++ [HCell.loopC i lb2 ub2 st2 []]) body
                            rw [hbd] at hr4
                            cases o4 with
                            | none =>
                                rw [hbind_none]
                                exact copyOk_none (e14.trans hr4.1)
                                  (freshClosed_trans e14 hr4.1 f14 hr4.2.1)
                            | some body2 =>
                                simp only [hbind_some]
                                have e15 : Extends h h5 := e14.trans hr4.1
                                have f15 : FreshClosed h h5 :=
                                  freshClosed_trans e14 hr4.1 f14 hr4.2.1
                                have bbody : ∀ x ∈ body2,
                                    (h3 ++ [HCell.loopC i lb2 ub2 st2 []]).length ≤ x ∧
                                      x < h5.length := hr4.2.2 body2 rfl
                                have hL4 : (h3 ++ [HCell.loopC i lb2 ub2 st2 []]).length
                                    = h3.length + 1 := by
                                  rw [List.length_append, List.length_singleton]
                                have L45 : (h3 ++ [HCell.loopC i lb2 ub2 st2 []]).length
                                    ≤ h5.length := hr4.1.1
                                have h3le : h.length ≤ h3.length := e13.1
                                have hkids6 : ∀ k ∈ cellKids
                                    (HCell.loopC i lb2 ub2 st2 body2),
                                    h.length ≤ k ∧ k < h5.length := by
                                  intro k hk
                                  simp only [cellKids, List.mem_cons] at hk
                                  rcases hk with rfl | rfl | rfl | hk
                                  · exact ⟨blb1, by omega⟩
                                  · exact ⟨by omega, by omega⟩
                                  · exact ⟨by omega, by omega⟩
                                  · obtain ⟨bk1, bk2⟩ := bbody k hk
                                    exact ⟨by omega, bk2⟩
                                refine ⟨extends_set e15 _ h3le,
                                  freshClosed_set f15 h3le hkids6, ?_⟩
                                intro a2 ha
                                obtain rfl : h3.length = a2 := Option.some.inj ha
                                refine ⟨h3le, ?_⟩
                                show h3.length <
                                  (h5.set h3.length (HCell.loopC i lb2 ub2 st2 body2)).length
                                rw [List.length_set]
                                omega
      · intro h as
        cases as with
        | nil =>
            rw [deepCopyListH_nil]
            refine ⟨extends_rfl h, freshClosed_rfl h, ?_⟩
            intro as2 ha
            obtain rfl : ([] : List Nat) = as2 := Option.some.inj ha
            intro x hx
            exact absurd hx (List.not_mem_nil x)
        | cons a as2 =>
            rw [deepCopyListH_cons]
            rcases ha : deepCopyH f h a with ⟨h1, o1⟩
            have hr1 := ihT h a
            rw [ha] at hr1
            cases o1 with
            | none =>
                rw [hbind_none]
                exact copyOkL_none hr1.1 hr1.2.1
            | some a2 =>
                simp only [hbind_some]
                rcases hs : deepCopyListH f h1 as2 with ⟨h2, o2⟩
                have hr2 := ihL h1 as2
                rw [hs] at hr2
                cases o2 with
                | none =>
                    rw [hbind_none]
                    exact copyOkL_none (hr1.1.trans hr2.1)
                      (freshClosed_trans hr1.1 hr2.1 hr1.2.1 hr2.2.1)
                | some as3 =>
                    simp only [hbind_some]
                    obtain ⟨ba1, ba2⟩ := hr1.2.2 a2 rfl
                    have hb := hr2.2.2 as3 rfl
                    refine ⟨hr1.1.trans hr2.1,
                      freshClosed_trans hr1.1 hr2.1 hr1.2.1 hr2.2.1, ?_⟩
                    intro as4 has
                    obtain rfl : a2 :: as3 = as4 := Option.some.inj has
                    intro x hx
                    rcases List.mem_cons.mp hx with rfl | hx2
                    · exact ⟨ba1, lt_of_lt_of_le ba2 hr2.1.1⟩
                    · obtain ⟨c1, c2⟩ := hb x hx2
                      exact ⟨le_trans hr1.1.1 c1, c2⟩

theorem deepCopyH_extends {f : Nat} {h h2 : Heap} {a : Nat} {o : Option Nat}
    (he : deepCopyH f h a = (h2, o)) : Extends h h2 := by
  have hx := ((deepCopyH_ext_all f).1 h a).1
  rw [he] at hx
  exact hx

theorem deepCopyH_freshClosed {f : Nat} {h h2 : Heap} {a : Nat} {o : Option Nat}
    (he : deepCopyH f h a = (h2, o)) : FreshClosed h h2 := by
  have hx := ((deepCopyH_ext_all f).1 h a).2.1
  rw [he] at hx
  exact hx

theorem deepCopyH_fresh_addr {f : Nat} {h h2 : Heap} {a a2 : Nat}
    (he : deepCopyH f h a = (h2, some a2)) : h.length ≤ a2 ∧ a2 < h2.length := by
  have hx := ((deepCopyH_ext_all f).1 h a).2.2
  rw [he] at hx
  exact hx a2 rfl

theorem deepCopyListH_extends {f : Nat} {h h2 : Heap} {as : List Nat}
    {o : Option (List Nat)} (he : deepCopyListH f h as = (h2, o)) : Extends h h2 := by
  have hx := ((deepCopyH_ext_all f).2 h as).1
  rw [he] at hx
  exact hx

theorem deepCopyListH_freshClosed {f : Nat} {h h2 : Heap} {as : List Nat}
    {o : Option (List Nat)} (he : deepCopyListH f h as = (h2, o)) :
    FreshClosed h h2 := by
  have hx := ((deepCopyH_ext_all f).2 h as).2.1
  rw [he] at hx
  exact hx

theorem deepCopyListH_fresh_addrs {f : Nat} {h h2 : Heap} {as as2 : List Nat}
    (he : deepCopyListH f h as = (h2, some as2)) :
    ∀ x ∈ as2, h.length ≤ x ∧ x < h2.length := by
  have hx := ((deepCopyH_ext_all f).2 h as).2.2
  rw [he] at hx
  exact hx as2 rfl

theorem deepCopyH_spec_all (f : Nat) :
    (∀ (h : Heap) (a : Nat) (t : PNode), readTree f h a = some t →
      ∃ h2 a2, deepCopyH f h a = (h2, some a2) ∧ readTree f h2 a2 = some t) ∧
    (∀ (h : Heap) (as : List Nat) (ts : List PNode), readTreeL f h as = some ts →
      ∃ h2 as2, deepCopyListH f h as = (h2, some as2) ∧
        readTreeL f h2 as2 = some ts) := by
  induction f with
  | zero =>
      constructor
      · intro h a t hr
        exact Option.noConfusion hr
      · intro h as ts hr
        exact Option.noConfusion hr
  | succ f ih =>
      obtain ⟨ihT, ihL⟩ := ih
      constructor
      · intro h a t hr
        cases hget : h.get? a with
        | none =>
            rw [readTree_succ_none hget] at hr
            exact Option.noConfusion hr
        | some c =>
            cases c with
            | constC v d =>
                rw [readTree_constC hget] at hr
                refine ⟨h ++ [.constC v d], h.length, ?_, ?_⟩
                · rw [deepCopyH_constC hget]
                  rfl
                · rw [readTree_constC (List.get?_concat_length _ _)]
                  exact hr
            | varC n =>
                rw [readTree_varC hget] at hr
                refine ⟨h ++ [.varC n], h.length, ?_, ?_⟩
                · rw [deepCopyH_varC hget]
                  rfl
                · rw [readTree_varC (List.get?_concat_length _ _)]
                  exact hr
            | minC x y =>
                rw [readTree_minC hget] at hr
                obtain ⟨tx, ty, hx, hy, hk⟩ := omap2_eq_some hr
                obtain ⟨h1, x2, hdx, hrx⟩ := ihT h x tx hx
                have e1 : Extends h h1 := deepCopyH_extends hdx
                obtain ⟨h2, y2, hdy, hry⟩ := ihT h1 y ty
                  (readTree_extend (fun j c hj => extends_get_some e1 hj) hy)
                have e2 : Extends h1 h2 := deepCopyH_extends hdy
                refine ⟨h2 ++ [.minC x2 y2], h2.length, ?_, ?_⟩
                · rw [deepCopyH_minC hget, hdx]
                  simp only [hbind_some]
                  rw [hdy]
                  simp only [hbind_some]
                  rfl
                · have hrx2 : readTree f (h2 ++ [HCell.minC x2 y2]) x2 = some tx :=
                    readTree_extend (fun j c hj =>
                      extends_get_some (e2.trans (extends_snoc (extends_rfl h2) _)) hj) hrx
                  have hry2 : readTree f (h2 ++ [HCell.minC x2 y2]) y2 = some ty :=
                    readTree_extend (fun j c hj =>
                      extends_get_some (extends_snoc (extends_rfl h2) _) hj) hry
                  rw [readTree_minC (List.get?_concat_length _ _), hrx2, hry2,
                    omap2_some, hk]
            | addC x y =>
                rw [readTree_addC hget] at hr
                obtain ⟨tx, ty, hx, hy, hk⟩ := omap2_eq_some hr
                obtain ⟨h1, x2, hdx, hrx⟩ := ihT h x tx hx
                have e1 : Extends h h1 := deepCopyH_extends hdx
                obtain ⟨h2, y2, hdy, hry⟩ := ihT h1 y ty
                  (readTree_extend (fun j c hj => extends_get_some e1 hj) hy)
                have e2 : Extends h1 h2 := deepCopyH_extends hdy
                refine ⟨h2 ++ [.addC x2 y2], h2.length, ?_, ?_⟩
                · rw [deepCopyH_addC hget, hdx]
                  simp only [hbind_some]
                  rw [hdy]
                  simp only [hbind_some]
                  rfl
                · have hrx2 : readTree f (h2 ++ [HCell.addC x2 y2]) x2 = some tx :=
                    readTree_extend (fun j c hj =>
                      extends_get_some (e2.trans (extends_snoc (extends_rfl h2) _)) hj) hrx
                  have hry2 : readTree f (h2 ++ [HCell.addC x2 y2]) y2 = some ty :=
                    readTree_extend (fun j c hj =>
                      extends_get_some (extends_snoc (extends_rfl h2) _) hj) hry
                  rw [readTree_addC (List.get?_concat_length _ _), hrx2, hry2,
                    omap2_some, hk]
            | mulC x y =>
                rw [readTree_mulC hget] at hr
                obtain ⟨tx, ty, hx, hy, hk⟩ := omap2_eq_some hr
                obtain ⟨h1, x2, hdx, hrx⟩ := ihT h x tx hx
                have e1 : Extends h h1 := deepCopyH_extends hdx
                obtain ⟨h2, y2, hdy, hry⟩ := ihT h1 y ty
                  (readTree_extend (fun j c hj => extends_get_some e1 hj) hy)
                have e2 : Extends h1 h2 := deepCopyH_extends hdy
                refine ⟨h2 ++ [.mulC x2 y2], h2.length, ?_, ?_⟩
                · rw [deepCopyH_mulC hget, hdx]
                  simp only [hbind_some]
                  rw [hdy]
                  simp only [hbind_some]
                  rfl
                · have hrx2 : readTree f (h2 ++ [HCell.mulC x2 y2]) x2 = some tx :=
                    readTree_extend (fun j c hj =>
                      extends_get_some (e2.trans (extends_snoc (extends_rfl h2) _)) hj) hrx
                  have hry2 : readTree f (h2 ++ [HCell.mulC x2 y2]) y2 = some ty :=
                    readTree_extend (fun j c hj =>
                      extends_get_some (extends_snoc (extends_rfl h2) _) hj) hry
                  rw [readTree_mulC (List.get?_concat_length _ _), hrx2, hry2,
                    omap2_some, hk]
            | assignC x y =>
                rw [readTree_assignC hget] at hr
                obtain ⟨tx, ty, hx, hy, hk⟩ := omap2_eq_some hr
                obtain ⟨h1, x2, hdx, hrx⟩ := ihT h x tx hx
                have e1 : Extends h h1 := deepCopyH_extends hdx
                obtain ⟨h2, y2, hdy, hry⟩ := ihT h1 y ty
                  (readTree_extend (fun j c hj => extends_get_some e1 hj) hy)
                have e2 : Extends h1 h2 := deepCopyH_extends hdy
                refine ⟨h2 ++ [.assignC x2 y2], h2.length, ?_, ?_⟩
                · rw [deepCopyH_assignC hget, hdx]
                  simp only [hbind_some]
                  rw [hdy]
                  simp only [hbind_some]
                  rfl
                · have hrx2 : readTree f (h2 ++ [HCell.assignC x2 y2]) x2 = some tx :=
                    readTree_extend (fun j c hj =>
                      extends_get_some (e2.trans (extends_snoc (extends_rfl h2) _)) hj) hrx
                  have hry2 : readTree f (h2 ++ [HCell.assignC x2 y2]) y2 = some ty :=
                    readTree_extend (fun j c hj =>
                      extends_get_some (extends_snoc (extends_rfl h2) _) hj) hry
                  rw [readTree_assignC (List.get?_concat_length _ _), hrx2, hry2,
                    omap2_some, hk]
            | loadC tn idx =>
                rw [readTree_loadC hget] at hr
                obtain ⟨ts2, hts, hk⟩ := omap1_eq_some hr
                obtain ⟨h1, idx2, hdi, hri⟩ := ihL h idx ts2 hts
                refine ⟨h1 ++ [.loadC tn idx2], h1.length, ?_, ?_⟩
                · rw [deepCopyH_loadC hget, hdi]
                  simp only [hbind_some]
                  rfl
                · have hri2 : readTreeL f (h1 ++ [HCell.loadC tn idx2]) idx2 = some ts2 :=
                    readTreeL_extend (fun j c hj =>
                      extends_get_some (extends_snoc (extends_rfl h1) _) hj) hri
                  rw [readTree_loadC (List.get?_concat_length _ _), hri2,
                    omap1_some, hk]
            | storeC tn idx =>
                rw [readTree_storeC hget] at hr
                obtain ⟨ts2, hts, hk⟩ := omap1_eq_some hr
                obtain ⟨h1, idx2, hdi, hri⟩ := ihL h idx ts2 hts
                refine ⟨h1 ++ [.storeC tn idx2], h1.length, ?_, ?_⟩
                · rw [deepCopyH_storeC hget, hdi]
                  simp only [hbind_some]
                  rfl
                · have hri2 : readTreeL f (h1 ++ [HCell.storeC tn idx2]) idx2 = some ts2 :=
                    readTreeL_extend (fun j c hj =>
                      extends_get_some (extends_snoc (extends_rfl h1) _) hj) hri
                  rw [readTree_storeC (List.get?_concat_length _ _), hri2,
                    omap1_some, hk]
            | loopC i lb ub st body =>
                rw [readTree_loopC hget] at hr
                obtain ⟨tlb, tub, tst, tbd, hlb, hub, hst, hbd, hk⟩ := omap4_eq_some hr
                obtain ⟨h1, lb2, hd1, hr1⟩ := ihT h lb tlb hlb
                have e1 : Extends h h1 := deepCopyH_extends hd1
                obtain ⟨h2, ub2, hd2, hr2⟩ := ihT h1 ub tub
                  (readTree_extend (fun j c hj => extends_get_some e1 hj) hub)
                have e2 : Extends h1 h2 := deepCopyH_extends hd2
                obtain ⟨h3, st2, hd3, hr3⟩ := ihT h2 st tst
                  (readTree_extend (fun j c hj =>
                    extends_get_some (e1.trans e2) hj) hst)
                have e3 : Extends h2 h3 := deepCopyH_extends hd3
                have e4 : Extends h3 (h3 ++ [HCell.loopC i lb2 ub2 st2 []]) :=
                  extends_snoc (extends_rfl h3) _
                obtain ⟨h5, body2, hd5, hr5⟩ := ihL
                  (h3 ++ [HCell.loopC i lb2 ub2 st2 []]) body tbd
                  (readTreeL_extend (fun j c hj =>
                    extends_get_some (((e1.trans e2).trans e3).trans e4) hj) hbd)
                have e5 : Extends (h3 ++ [HCell.loopC i lb2 ub2 st2 []]) h5 :=
                  deepCopyListH_extends hd5
                have f5 : FreshClosed (h3 ++ [HCell.loopC i lb2 ub2 st2 []]) h5 :=
                  deepCopyListH_freshClosed hd5
                have bbody := deepCopyListH_fresh_addrs hd5
                have hL4 : (h3 ++ [HCell.loopC i lb2 ub2 st2 []]).length
                    = h3.length + 1 := by
                  rw [List.length_append, List.length_singleton]
                have L45 : (h3 ++ [HCell.loopC i lb2 ub2 st2 []]).length ≤ h5.length :=
                  e5.1
                have hlt35 : h3.length < h5.length := by omega
                refine ⟨h5.set h3.length (.loopC i lb2 ub2 st2 body2), h3.length,
                  ?_, ?_⟩
                · rw [deepCopyH_loopC hget, hd1]
                  simp only [hbind_some]
                  rw [hd2]
                  simp only [hbind_some]
                  rw [hd3]
                  simp only [hbind_some]
                  rw [hd5]
                  simp only [hbind_some]
                · have trans3 : ∀ j c, h3.get? j = some c →
                      (h5.set h3.length (HCell.loopC i lb2 ub2 st2 body2)).get? j
                        = some c := by
                    intro j c hj
                    have hjlt : j < h3.length := get?_lt_of_some hj
                    rw [set_get_other (show h3.length ≠ j by omega)]
                    exact extends_get_some (e4.trans e5) hj
                  have hrlb6 := readTree_extend (fun j c hj =>
                    trans3 j c (extends_get_some (e2.trans e3) hj)) hr1
                  have hrub6 := readTree_extend (fun j c hj =>
                    trans3 j c (extends_get_some e3 hj)) hr2
                  have hrst6 := readTree_extend trans3 hr3
                  have hagP : ∀ j, (h3 ++ [HCell.loopC i lb2 ub2 st2 []]).length ≤ j →
                      (h5.set h3.length (HCell.loopC i lb2 ub2 st2 body2)).get? j
                        = h5.get? j := by
                    intro j hj
                    rw [set_get_other (show h3.length ≠ j by omega)]
                  have hclP : ∀ b c, (h3 ++ [HCell.loopC i lb2 ub2 st2 []]).length ≤ b →
                      h5.get? b = some c → ∀ k ∈ cellKids c,
                        (h3 ++ [HCell.loopC i lb2 ub2 st2 []]).length ≤ k :=
                    fun b c hb hbc k hkk => (f5 b c hb hbc k hkk).1
                  have hPbody : ∀ x ∈ body2,
                      (h3 ++ [HCell.loopC i lb2 ub2 st2 []]).length ≤ x :=
                    fun x hx => (bbody x hx).1
                  have hbody6 : readTreeL f
                      (h5.set h3.length (HCell.loopC i lb2 ub2 st2 body2)) body2
                        = some tbd := by
                    rw [(readTree_congr_all
                      (fun z => (h3 ++ [HCell.loopC i lb2 ub2 st2 []]).length ≤ z) f).2
                      h5 (h5.set h3.length (HCell.loopC i lb2 ub2 st2 body2)) body2
                      hagP hclP hPbody]
                    exact hr5
                  rw [readTree_loopC (set_get_self hlt35), hrlb6, hrub6, hrst6,
                    hbody6, omap4_some, hk]
      · intro h as ts hr
        cases as with
        | nil => exact ⟨h, [], rfl, hr⟩
        | cons a as2 =>
            rw [readTreeL_cons] at hr
            obtain ⟨t, ts2, ht, hts, hk⟩ := omap2_eq_some hr
            obtain ⟨h1, a2, hda, hra⟩ := ihT h a t ht
            have e1 : Extends h h1 := deepCopyH_extends hda
            obtain ⟨h2, as3, hds, hrs⟩ := ihL h1 as2 ts2
              (readTreeL_extend (fun j c hj => extends_get_some e1 hj) hts)
            have e2 : Extends h1 h2 := deepCopyListH_extends hds
            refine ⟨h2, a2 :: as3, ?_, ?_⟩
            · rw [deepCopyListH_cons, hda]
              simp only [hbind_some]
              rw [hds]
              simp only [hbind_some]
            · have hra2 : readTree f h2 a2 = some t :=
                readTree_extend (fun j c hj => extends_get_some e2 hj) hra
              rw [readTreeL_cons, hra2, hrs, omap2_some, hk]

theorem readTree_loop_inv {f : Nat} {h : Heap} {a : Nat} {i : Str} {l u s : PNode}
    {bs : List PNode} (hr : readTree (f + 1) h a = some (.loop i l u s bs)) :
    ∃ lb ub st body, h.get? a = some (.loopC i lb ub st body) ∧
      readTree f h lb = some l ∧ readTree f h ub = some u ∧
      readTree f h st = some s ∧ readTreeL f h body = some bs := by
  cases hget : h.get? a with
  | none =>
      rw [readTree_succ_none hget] at hr
      exact Option.noConfusion hr
  | some c =>
      cases c with
      | constC v d =>
          rw [readTree_constC hget] at hr
          exact PNode.noConfusion (Option.some.inj hr)
      | varC n =>
          rw [readTree_varC hget] at hr
          exact PNode.noConfusion (Option.some.inj hr)
      | minC x y =>
          rw [readTree_minC hget] at hr
          obtain ⟨tx, ty, _, _, hk⟩ := omap2_eq_some hr
          exact PNode.noConfusion hk
      | addC x y =>
          rw [readTree_addC hget] at hr
          obtain ⟨tx, ty, _, _, hk⟩ := omap2_eq_some hr
          exact PNode.noConfusion hk
      | mulC x y =>
          rw [readTree_mulC hget] at hr
          obtain ⟨tx, ty, _, _, hk⟩ := omap2_eq_some hr
          exact PNode.noConfusion hk
      | assignC x y =>
          rw [readTree_assignC hget] at hr
          obtain ⟨tx, ty, _, _, hk⟩ := omap2_eq_some hr
          exact PNode.noConfusion hk
      | loadC tn idx =>
          rw [readTree_loadC hget] at hr
          obtain ⟨ts2, _, hk⟩ := omap1_eq_some hr
          exact PNode.noConfusion hk
      | storeC tn idx =>
          rw [readTree_storeC hget] at hr
          obtain ⟨ts2, _, hk⟩ := omap1_eq_some hr
          exact PNode.noConfusion hk
      | loopC i2 lb ub st body =>
          rw [readTree_loopC hget] at hr
          obtain ⟨tlb, tub, tst, tbd, hlb, hub, hst, hbd, hk⟩ := omap4_eq_some hr
          injection hk with q1 q2 q3 q4 q5
          subst q1
          subst q2
          subst q3
          subst q4
          subst q5
          exact ⟨lb, ub, st, body, rfl, hlb, hub, hst, hbd⟩

theorem readTreeL_cons_inv {f : Nat} {h : Heap} {a : Nat} {as : List Nat}
    {ts : List PNode} (hr : readTreeL (f + 1) h (a :: as) = some ts) :
    ∃ t ts2, ts = t :: ts2 ∧ readTree f h a = some t ∧ readTreeL f h as = some ts2 := by
  rw [readTreeL_cons] at hr
  obtain ⟨t, ts2, ht, hts, hk⟩ := omap2_eq_some hr
  exact ⟨t, ts2, hk.symm, ht, hts⟩

theorem readTreeL_eq_nil_inv {f : Nat} {h : Heap} {as : List Nat}
    (hr : readTreeL (f + 1) h as = some []) : as = [] := by
  cases as with
  | nil => rfl
  | cons a as2 =>
      rw [readTreeL_cons] at hr
      obtain ⟨t, ts2, _, _, hk⟩ := omap2_eq_some hr
      exact List.noConfusion hk


/-- **C3.** For every tree readable in the heap (`readTree f h a = some t`),
`deepCopy` — modeled heap-explicitly by `deepCopyH` — succeeds and returns a
tree structurally identical to its argument (the copy reads back as exactly
the same pure tree `t`), leaves every cell of the original heap region
untouched, places the copy entirely at fresh addresses (its root is outside
the input region), and the two trees share no node: overwriting any cell of
the original region leaves the copy reading `t`, and overwriting any fresh
cell leaves the original reading `t`. -/
theorem deepCopy_identical_no_sharing (f : Nat) (h : Heap) (a : Nat) (t : PNode)
    (hr : readTree f h a = some t) :
    ∃ h2 a2, deepCopyH f h a = (h2, some a2) ∧
      readTree f h2 a2 = some t ∧
      (∀ i, i < h.length → h2.get? i = h.get? i) ∧
      readTree f h2 a = some t ∧
      h.length ≤ a2 ∧
      (∀ i c, i < h.length → readTree f (h2.set i c) a2 = some t) ∧
      (∀ i c, h.length ≤ i → readTree f (h2.set i c) a = some t) := by
  obtain ⟨h2, a2, hdc, hread⟩ := (deepCopyH_spec_all f).1 h a t hr
  have e : Extends h h2 := deepCopyH_extends hdc
  have fc : FreshClosed h h2 := deepCopyH_freshClosed hdc
  have hba : h.length ≤ a2 ∧ a2 < h2.length := deepCopyH_fresh_addr hdc
  refine ⟨h2, a2, hdc, hread, fun i hi => e.2 i hi, ?_, hba.1, ?_, ?_⟩
  · exact readTree_extend (fun j c hj => extends_get_some e hj) hr
  · intro i c hi
    have hag : ∀ j, h.length ≤ j → (h2.set i c).get? j = h2.get? j :=
      fun j hj => set_get_other (show i ≠ j by omega)
    have hcl : ∀ b cc, h.length ≤ b → h2.get? b = some cc →
        ∀ k ∈ cellKids cc, h.length ≤ k :=
      fun b cc hbge hbc k hkk => (fc b cc hbge hbc k hkk).1
    rw [(readTree_congr_all (fun z => h.length ≤ z) f).1 h2 (h2.set i c) a2
      hag hcl hba.1]
    exact hread
  · intro i c hi
    refine readTree_extend (fun j cc hj => ?_) hr
    have hjlt : j < h.length := get?_lt_of_some hj
    rw [set_get_other (show i ≠ j by omega)]
    exact extends_get_some e hj

/-- Witness for C3 at a concrete input: copying the tree `x = 1` held in the
three-cell heap `hC3`. -/
theorem deepCopy_identical_no_sharing_witness :
    ∃ h2 a2, deepCopyH 2 hC3 2 = (h2, some a2) ∧
      readTree 2 h2 a2 = some (.assign (.var ['x']) (.const (.i32 1) .int32)) ∧
      (∀ i, i < hC3.length → h2.get? i = hC3.get? i) ∧
      readTree 2 h2 2 = some (.assign (.var ['x']) (.const (.i32 1) .int32)) ∧
      hC3.length ≤ a2 ∧
      (∀ i c, i < hC3.length → readTree 2 (h2.set i c) a2 =
        some (.assign (.var ['x']) (.const (.i32 1) .int32))) ∧
      (∀ i c, hC3.length ≤ i → readTree 2 (h2.set i c) 2 =
        some (.assign (.var ['x']) (.const (.i32 1) .int32))) :=
  deepCopy_identical_no_sharing 2 hC3 2 _ (by rfl)

theorem stepOk_snoc {h hk : Heap} (e : Extends h hk) (fc : FreshClosed h hk)
    (c : HCell) (hkids : ∀ k ∈ cellKids c, h.length ≤ k ∧ k < hk.length) :
    Extends h (hk ++ [c]) ∧ FreshClosed h (hk ++ [c]) :=
  ⟨extends_snoc e c, freshClosed_snoc fc hkids⟩

theorem stepOk_copy {f : Nat} {h hk hk2 : Heap} {a : Nat} {o : Option Nat}
    (e : Extends h hk) (fc : FreshClosed h hk)
    (hd : deepCopyH f hk a = (hk2, o)) : Extends h hk2 ∧ FreshClosed h hk2 :=
  ⟨e.trans (deepCopyH_extends hd),
   freshClosed_trans e (deepCopyH_extends hd) fc (deepCopyH_freshClosed hd)⟩

theorem stepOk_set {h hk : Heap} (e : Extends h hk) (fc : FreshClosed h hk)
    {i : Nat} {c : HCell} (hi : h.length ≤ i)
    (hkids : ∀ k ∈ cellKids c, h.length ≤ k ∧ k < hk.length) :
    Extends h (hk.set i c) ∧ FreshClosed h (hk.set i c) :=
  ⟨extends_set e c hi, freshClosed_set fc hi hkids⟩

set_option maxHeartbeats 3000000 in
/-- **C2.** On a clean two-level one-statement nest, `tilingPass` (modeled
heap-explicitly by `tilingPassH`) succeeds and never mutates its input:
every cell of the input heap region is unchanged, every tree readable
before the pass is still readable with the same value (in particular the
root still reads as exactly the original nest), and the returned tree lives
entirely in the fresh region: its root address is outside the input region
and overwriting any input-region cell does not change what the returned
tree reads as. -/
theorem tilingPass_no_input_mutation (f : Nat) (h : Heap) (root : Nat)
    (i j : Str) (lbT ubT stT lbT2 ubT2 stT2 stmt : PNode)
    (hr : readTree f h root =
      some (.loop i lbT ubT stT [.loop j lbT2 ubT2 stT2 [stmt]])) :
    ∃ h2 r, tilingPassH f h root = (h2, some r) ∧
      (∀ n, n < h.length → h2.get? n = h.get? n) ∧
      (∀ g a t, readTree g h a = some t → readTree g h2 a = some t) ∧
      readTree f h2 root =
        some (.loop i lbT ubT stT [.loop j lbT2 ubT2 stT2 [stmt]]) ∧
      h.length ≤ r ∧
      (∀ n c g, n < h.length →
        readTree g (h2.set n c) r = readTree g h2 r) := by
  cases f with
  | zero => exact Option.noConfusion hr
  | succ f1 =>
  obtain ⟨lbI, ubI, stI, bodyI, hcRoot, hrLb, hrUb, hrSt, hrBody⟩ :=
    readTree_loop_inv hr
  cases f1 with
  | zero => exact Option.noConfusion hrBody
  | succ f2 =>
  cases bodyI with
  | nil => exact List.noConfusion (Option.some.inj hrBody)
  | cons ogJ rest =>
  obtain ⟨tog, tsRest, hEq, hrOg, hrRest⟩ := readTreeL_cons_inv hrBody
  injection hEq with hEq1 hEq2
  subst hEq1
  subst hEq2
  cases f2 with
  | zero => exact Option.noConfusion hrOg
  | succ f3 =>
  obtain ⟨lbJ, ubJ, stJ, bodyJ, hcOgJ, hrLb2, hrUb2, hrSt2, hrBody2⟩ :=
    readTree_loop_inv hrOg
  -- step 0: deep copy of the whole root nest
  obtain ⟨h1, cpy, hdcRoot, hreadCpy⟩ :=
    (deepCopyH_spec_all (f3 + 1 + 1 + 1)).1 h root _ hr
  have eH1 : Extends h h1 := deepCopyH_extends hdcRoot
  have fcH1 : FreshClosed h h1 := deepCopyH_freshClosed hdcRoot
  have bcpy : h.length ≤ cpy ∧ cpy < h1.length := deepCopyH_fresh_addr hdcRoot
  -- the copied root cell and copied inner-loop cell
  obtain ⟨lbC, ubC, stC, bodyC, hcCpy, hrLbC, hrUbC, hrStC, hrBodyC⟩ :=
    readTree_loop_inv hreadCpy
  cases bodyC with
  | nil => exact List.noConfusion (Option.some.inj hrBodyC)
  | cons lj restC =>
  obtain ⟨togC, tsRestC, hEqC, hrLj, hrRestC⟩ := readTreeL_cons_inv hrBodyC
  injection hEqC with hEqC1 hEqC2
  subst hEqC1
  subst hEqC2
  obtain ⟨lbJ2, ubJ2, stJ2, bodyJ2, hcLj, hrLbJ2, hrUbJ2, hrStJ2, hrBodyJ2⟩ :=
    readTree_loop_inv hrLj
  have kidsCpy := fcH1 cpy _ bcpy.1 hcCpy
  have kidLj : h.length ≤ lj ∧ lj < h1.length := kidsCpy lj (by simp [cellKids])
  have kidsLj := fcH1 lj _ kidLj.1 hcLj
  -- the three fresh variable cells
  have gII_A : (h1 ++ [HCell.varC "ii".toList]).get? h1.length
      = some (.varC "ii".toList) := List.get?_concat_length _ _
  have gII_B : (h1 ++ [HCell.varC "ii".toList] ++ [HCell.varC "jj".toList]).get?
      h1.length = some (.varC "ii".toList) :=
    extends_get_some (extends_snoc (extends_rfl _) _) gII_A
  have gII_C : (h1 ++ [HCell.varC "ii".toList] ++ [HCell.varC "jj".toList]
      ++ [HCell.varC "T".toList]).get? h1.length = some (.varC "ii".toList) :=
    extends_get_some (extends_snoc (extends_rfl _) _) gII_B
  have gJJ_B : (h1 ++ [HCell.varC "ii".toList] ++ [HCell.varC "jj".toList]).get?
      (h1 ++ [HCell.varC "ii".toList]).length = some (.varC "jj".toList) :=
    List.get?_concat_length _ _
  have gJJ_C : (h1 ++ [HCell.varC "ii".toList] ++ [HCell.varC "jj".toList]
      ++ [HCell.varC "T".toList]).get? (h1 ++ [HCell.varC "ii".toList]).length
      = some (.varC "jj".toList) :=
    extends_get_some (extends_snoc (extends_rfl _) _) gJJ_B
  have gT_C : (h1 ++ [HCell.varC "ii".toList] ++ [HCell.varC "jj".toList]
      ++ [HCell.varC "T".toList]).get?
      (h1 ++ [HCell.varC "ii".toList] ++ [HCell.varC "jj".toList]).length
      = some (.varC "T".toList) := List.get?_concat_length _ _
  have LA : (h1 ++ [HCell.varC "ii".toList]).length = h1.length + 1 := by
    rw [List.length_append, List.length_singleton]
  have LB : (h1 ++ [HCell.varC "ii".toList] ++ [HCell.varC "jj".toList]).length
      = h1.length + 2 := by
    rw [List.length_append, List.length_singleton, LA]
  have LC : (h1 ++ [HCell.varC "ii".toList] ++ [HCell.varC "jj".toList]
      ++ [HCell.varC "T".toList]).length = h1.length + 3 := by
    rw [List.length_append, List.length_singleton, LB]
  -- copies of the three variables and the original bounds, in program order
  obtain ⟨h5, aII2, hd5, hrd5⟩ := (deepCopyH_spec_all (f3 + 1 + 1 + 1)).1
    (h1 ++ [HCell.varC "ii".toList] ++ [HCell.varC "jj".toList]
      ++ [HCell.varC "T".toList]) h1.length _ (readTree_varC gII_C)
  have bII2 := deepCopyH_fresh_addr hd5
  have T5 : ∀ n cc, h1.length ≤ n →
      (h1 ++ [HCell.varC "ii".toList] ++ [HCell.varC "jj".toList]
        ++ [HCell.varC "T".toList]).get? n = some cc → h5.get? n = some cc :=
    fun n cc _ hc => extends_get_some (deepCopyH_extends hd5) hc
  obtain ⟨h6, aT2, hd6, hrd6⟩ := (deepCopyH_spec_all (f3 + 1 + 1 + 1)).1
    h5 (h1 ++ [HCell.varC "ii".toList] ++ [HCell.varC "jj".toList]).length _
    (readTree_varC (T5 _ _ (by omega) gT_C))
  have bT2 := deepCopyH_fresh_addr hd6
  have T6 : ∀ n cc, h1.length ≤ n →
      (h1 ++ [HCell.varC "ii".toList] ++ [HCell.varC "jj".toList]
        ++ [HCell.varC "T".toList]).get? n = some cc → h6.get? n = some cc :=
    fun n cc hn hc => extends_get_some (deepCopyH_extends hd6) (T5 n cc hn hc)
  have T7 : ∀ n cc, h1.length ≤ n →
      (h1 ++ [HCell.varC "ii".toList] ++ [HCell.varC "jj".toList]
        ++ [HCell.varC "T".toList]).get? n = some cc →
      (h6 ++ [HCell.addC aII2 aT2]).get? n = some cc :=
    fun n cc hn hc =>
      extends_get_some (extends_snoc (extends_rfl h6) _) (T6 n cc hn hc)
  obtain ⟨h8, aJJ2, hd8, hrd8⟩ := (deepCopyH_spec_all (f3 + 1 + 1 + 1)).1
    (h6 ++ [HCell.addC aII2 aT2]) (h1 ++ [HCell.varC "ii".toList]).length _
    (readTree_varC (T7 _ _ (by omega) gJJ_C))
  have bJJ2 := deepCopyH_fresh_addr hd8
  have T8 : ∀ n cc, h1.length ≤ n →
      (h1 ++ [HCell.varC "ii".toList] ++ [HCell.varC "jj".toList]
        ++ [HCell.varC "T".toList]).get? n = some cc → h8.get? n = some cc :=
    fun n cc hn hc => extends_get_some (deepCopyH_extends hd8) (T7 n cc hn hc)
  obtain ⟨h9, aT3, hd9, hrd9⟩ := (deepCopyH_spec_all (f3 + 1 + 1 + 1)).1
    h8 (h1 ++ [HCell.varC "ii".toList] ++ [HCell.varC "jj".toList]).length _
    (readTree_varC (T8 _ _ (by omega) gT_C))
  have bT3 := deepCopyH_fresh_addr hd9
  have T9 : ∀ n cc, h1.length ≤ n →
      (h1 ++ [HCell.varC "ii".toList] ++ [HCell.varC "jj".toList]
        ++ [HCell.varC "T".toList]).get? n = some cc → h9.get? n = some cc :=
    fun n cc hn hc => extends_get_some (deepCopyH_extends hd9) (T8 n cc hn hc)
  have T10 : ∀ n cc, h1.length ≤ n →
      (h1 ++ [HCell.varC "ii".toList] ++ [HCell.varC "jj".toList]
        ++ [HCell.varC "T".toList]).get? n = some cc →
      (h9 ++ [HCell.addC aJJ2 aT3]).get? n = some cc :=
    fun n cc hn hc =>
      extends_get_some (extends_snoc (extends_rfl h9) _) (T9 n cc hn hc)
  -- the extends/fresh chain up to h10
  have sA := stepOk_snoc eH1 fcH1
    (HCell.varC "ii".toList) (fun k hk => absurd hk (by simp [cellKids]))
  have sB := stepOk_snoc sA.1 sA.2
    (HCell.varC "jj".toList) (fun k hk => absurd hk (by simp [cellKids]))
  have sC := stepOk_snoc sB.1 sB.2
    (HCell.varC "T".toList) (fun k hk => absurd hk (by simp [cellKids]))
  have Lh0 : h.length ≤ h1.length := eH1.1
  have L5 : (h1 ++ [HCell.varC "ii".toList] ++ [HCell.varC "jj".toList]
      ++ [HCell.varC "T".toList]).length ≤ h5.length := (deepCopyH_extends hd5).1
  have L6 : h5.length ≤ h6.length := (deepCopyH_extends hd6).1
  have s5 := stepOk_copy sC.1 sC.2 hd5
  have s6 := stepOk_copy s5.1 s5.2 hd6
  have L7 : (h6 ++ [HCell.addC aII2 aT2]).length = h6.length + 1 := by
    rw [List.length_append, List.length_singleton]
  have kids7 : ∀ k ∈ cellKids (HCell.addC aII2 aT2),
      h.length ≤ k ∧ k < h6.length := by
    intro k hk
    simp only [cellKids, List.mem_cons, List.not_mem_nil, or_false] at hk
    obtain ⟨b1, b2⟩ := bII2
    obtain ⟨b3, b4⟩ := bT2
    rcases hk with rfl | rfl
    · exact ⟨by omega, by omega⟩
    · exact ⟨by omega, by omega⟩
  have s7 := stepOk_snoc s6.1 s6.2 (HCell.addC aII2 aT2) kids7
  have L8 : (h6 ++ [HCell.addC aII2 aT2]).length ≤ h8.length :=
    (deepCopyH_extends hd8).1
  have L9 : h8.length ≤ h9.length := (deepCopyH_extends hd9).1
  have s8 := stepOk_copy s7.1 s7.2 hd8
  have s9 := stepOk_copy s8.1 s8.2 hd9
  have L10 : (h9 ++ [HCell.addC aJJ2 aT3]).length = h9.length + 1 := by
    rw [List.length_append, List.length_singleton]
  have kids10 : ∀ k ∈ cellKids (HCell.addC aJJ2 aT3),
      h.length ≤ k ∧ k < h9.length := by
    intro k hk
    simp only [cellKids, List.mem_cons, List.not_mem_nil, or_false] at hk
    obtain ⟨b1, b2⟩ := bJJ2
    obtain ⟨b3, b4⟩ := bT3
    rcases hk with rfl | rfl
    · exact ⟨by omega, by omega⟩
    · exact ⟨by omega, by omega⟩
  have s10 := stepOk_snoc s9.1 s9.2 (HCell.addC aJJ2 aT3) kids10
  -- copy of the original outer upper bound, then Min cell
  obtain ⟨h11, ubI3, hd11, hrd11⟩ := (deepCopyH_spec_all (f3 + 1 + 1 + 1)).1
    (h9 ++ [HCell.addC aJJ2 aT3]) ubI _
    (readTree_extend (fun n cc hc => extends_get_some s10.1 hc)
      (readTree_mono (by omega) hrUb))
  have bUbI3 := deepCopyH_fresh_addr hd11
  have L11 : (h9 ++ [HCell.addC aJJ2 aT3]).length ≤ h11.length :=
    (deepCopyH_extends hd11).1
  have s11 := stepOk_copy s10.1 s10.2 hd11
  have L12 : (h11 ++ [HCell.minC h6.length ubI3]).length = h11.length + 1 := by
    rw [List.length_append, List.length_singleton]
  have kids12 : ∀ k ∈ cellKids (HCell.minC h6.length ubI3),
      h.length ≤ k ∧ k < h11.length := by
    intro k hk
    simp only [cellKids, List.mem_cons, List.not_mem_nil, or_false] at hk
    obtain ⟨b1, b2⟩ := bUbI3
    rcases hk with rfl | rfl
    · exact ⟨by omega, by omega⟩
    · exact ⟨by omega, by omega⟩
  have s12 := stepOk_snoc s11.1 s11.2 (HCell.minC h6.length ubI3) kids12
  obtain ⟨h13, ubJ3, hd13, hrd13⟩ := (deepCopyH_spec_all (f3 + 1 + 1 + 1)).1
    (h11 ++ [HCell.minC h6.length ubI3]) ubJ _
    (readTree_extend (fun n cc hc => extends_get_some s12.1 hc)
      (readTree_mono (by omega) hrUb2))
  have bUbJ3 := deepCopyH_fresh_addr hd13
  have L13 : (h11 ++ [HCell.minC h6.length ubI3]).length ≤ h13.length :=
    (deepCopyH_extends hd13).1
  have s13 := stepOk_copy s12.1 s12.2 hd13
  have L14 : (h13 ++ [HCell.minC h9.length ubJ3]).length = h13.length + 1 := by
    rw [List.length_append, List.length_singleton]
  have kids14 : ∀ k ∈ cellKids (HCell.minC h9.length ubJ3),
      h.length ≤ k ∧ k < h13.length := by
    intro k hk
    simp only [cellKids, List.mem_cons, List.not_mem_nil, or_false] at hk
    obtain ⟨b1, b2⟩ := bUbJ3
    rcases hk with rfl | rfl
    · exact ⟨by omega, by omega⟩
    · exact ⟨by omega, by omega⟩
  have s14 := stepOk_snoc s13.1 s13.2 (HCell.minC h9.length ubJ3) kids14
  have T14 : ∀ n cc, h1.length ≤ n →
      (h1 ++ [HCell.varC "ii".toList] ++ [HCell.varC "jj".toList]
        ++ [HCell.varC "T".toList]).get? n = some cc →
      (h13 ++ [HCell.minC h9.length ubJ3]).get? n = some cc := by
    intro n cc hn hc
    refine extends_get_some (extends_snoc (extends_rfl h13) _) ?_
    refine extends_get_some (deepCopyH_extends hd13) ?_
    refine extends_get_some (extends_snoc (extends_rfl h11) _) ?_
    refine extends_get_some (deepCopyH_extends hd11) ?_
    exact T10 n cc hn hc
  obtain ⟨h15, aII3, hd15, hrd15⟩ := (deepCopyH_spec_all (f3 + 1 + 1 + 1)).1
    (h13 ++ [HCell.minC h9.length ubJ3]) h1.length _
    (readTree_varC (T14 _ _ (by omega) gII_C))
  have bAII3 := deepCopyH_fresh_addr hd15
  have L15 : (h13 ++ [HCell.minC h9.length ubJ3]).length ≤ h15.length :=
    (deepCopyH_extends hd15).1
  have s15 := stepOk_copy s14.1 s14.2 hd15
  have T15 : ∀ n cc, h1.length ≤ n →
      (h1 ++ [HCell.varC "ii".toList] ++ [HCell.varC "jj".toList]
        ++ [HCell.varC "T".toList]).get? n = some cc → h15.get? n = some cc :=
    fun n cc hn hc =>
      extends_get_some (deepCopyH_extends hd15) (T14 n cc hn hc)
  -- first in-place mutation: loop_i->lower_bound_ = copy of var ii
  have kids16 : ∀ k ∈ cellKids (HCell.loopC i aII3 ubC stC (lj :: restC)),
      h.length ≤ k ∧ k < h15.length := by
    intro k hk
    simp only [cellKids, List.mem_cons] at hk
    obtain ⟨b1, b2⟩ := bAII3
    rcases hk with rfl | rfl | rfl | hk2
    · exact ⟨by omega, by omega⟩
    · obtain ⟨u1, u2⟩ := kidsCpy k (by simp [cellKids])
      exact ⟨u1, by omega⟩
    · obtain ⟨u1, u2⟩ := kidsCpy k (by simp [cellKids])
      exact ⟨u1, by omega⟩
    · obtain ⟨u1, u2⟩ := kidsCpy k (by
        simp only [cellKids, List.mem_cons]
        exact Or.inr (Or.inr (Or.inr hk2)))
      exact ⟨u1, by omega⟩
  have s16 := stepOk_set s15.1 s15.2 bcpy.1 kids16
  have T16 : ∀ n cc, h1.length ≤ n →
      (h1 ++ [HCell.varC "ii".toList] ++ [HCell.varC "jj".toList]
        ++ [HCell.varC "T".toList]).get? n = some cc →
      (h15.set cpy (HCell.loopC i aII3 ubC stC (lj :: restC))).get? n = some cc := by
    intro n cc hn hc
    obtain ⟨b1, b2⟩ := bcpy
    rw [set_get_other (show cpy ≠ n by omega)]
    exact T15 n cc hn hc
  obtain ⟨h17, aJJ3, hd17, hrd17⟩ := (deepCopyH_spec_all (f3 + 1 + 1 + 1)).1
    (h15.set cpy (HCell.loopC i aII3 ubC stC (lj :: restC)))
    (h1 ++ [HCell.varC "ii".toList]).length _
    (readTree_varC (T16 _ _ (by omega) gJJ_C))
  have bAJJ3 := deepCopyH_fresh_addr hd17
  have L16 : (h15.set cpy (HCell.loopC i aII3 ubC stC (lj :: restC))).length
      = h15.length := List.length_set _ _ _
  have L17 : (h15.set cpy (HCell.loopC i aII3 ubC stC (lj :: restC))).length
      ≤ h17.length := (deepCopyH_extends hd17).1
  have s17 := stepOk_copy s16.1 s16.2 hd17
  -- remaining three in-place bound mutations
  have kids18 : ∀ k ∈ cellKids (HCell.loopC j aJJ3 ubJ2 stJ2 bodyJ2),
      h.length ≤ k ∧ k < h17.length := by
    intro k hk
    simp only [cellKids, List.mem_cons] at hk
    obtain ⟨b1, b2⟩ := bAJJ3
    rcases hk with rfl | rfl | rfl | hk2
    · exact ⟨by omega, by omega⟩
    · obtain ⟨u1, u2⟩ := kidsLj k (by simp [cellKids])
      exact ⟨u1, by omega⟩
    · obtain ⟨u1, u2⟩ := kidsLj k (by simp [cellKids])
      exact ⟨u1, by omega⟩
    · obtain ⟨u1, u2⟩ := kidsLj k (by
        simp only [cellKids, List.mem_cons]
        exact Or.inr (Or.inr (Or.inr hk2)))
      exact ⟨u1, by omega⟩
  have s18 := stepOk_set s17.1 s17.2 kidLj.1 kids18
  have L18 : ((h17.set lj (HCell.loopC j aJJ3 ubJ2 stJ2 bodyJ2))).length
      = h17.length := List.length_set _ _ _
  have kids19 : ∀ k ∈ cellKids (HCell.loopC i aII3 h11.length stC (lj :: restC)),
      h.length ≤ k ∧ k < (h17.set lj (HCell.loopC j aJJ3 ubJ2 stJ2 bodyJ2)).length := by
    intro k hk
    simp only [cellKids, List.mem_cons] at hk
    obtain ⟨b1, b2⟩ := bAII3
    rcases hk with rfl | rfl | rfl | hk2
    · exact ⟨by omega, by omega⟩
    · exact ⟨by omega, by omega⟩
    · obtain ⟨u1, u2⟩ := kidsCpy k (by simp [cellKids])
      exact ⟨u1, by omega⟩
    · obtain ⟨u1, u2⟩ := kidsCpy k (by
        simp only [cellKids, List.mem_cons]
        exact Or.inr (Or.inr (Or.inr hk2)))
      exact ⟨u1, by omega⟩
  have s19 := stepOk_set s18.1 s18.2 bcpy.1 kids19
  have L19 : (((h17.set lj (HCell.loopC j aJJ3 ubJ2 stJ2 bodyJ2)).set cpy
      (HCell.loopC i aII3 h11.length stC (lj :: restC)))).length
      = (h17.set lj (HCell.loopC j aJJ3 ubJ2 stJ2 bodyJ2)).length :=
    List.length_set _ _ _
  have kids20 : ∀ k ∈ cellKids (HCell.loopC j aJJ3 h13.length stJ2 bodyJ2),
      h.length ≤ k ∧ k < ((h17.set lj (HCell.loopC j aJJ3 ubJ2 stJ2 bodyJ2)).set cpy
        (HCell.loopC i aII3 h11.length stC (lj :: restC))).length := by
    intro k hk
    simp only [cellKids, List.mem_cons] at hk
    obtain ⟨b1, b2⟩ := bAJJ3
    rcases hk with rfl | rfl | rfl | hk2
    · exact ⟨by omega, by omega⟩
    · exact ⟨by omega, by omega⟩
    · obtain ⟨u1, u2⟩ := kidsLj k (by simp [cellKids])
      exact ⟨u1, by omega⟩
    · obtain ⟨u1, u2⟩ := kidsLj k (by
        simp only [cellKids, List.mem_cons]
        exact Or.inr (Or.inr (Or.inr hk2)))
      exact ⟨u1, by omega⟩
  have s20 := stepOk_set s19.1 s19.2 kidLj.1 kids20
  have L20 : ((((h17.set lj (HCell.loopC j aJJ3 ubJ2 stJ2 bodyJ2)).set cpy
      (HCell.loopC i aII3 h11.length stC (lj :: restC))).set lj
      (HCell.loopC j aJJ3 h13.length stJ2 bodyJ2))).length
      = (((h17.set lj (HCell.loopC j aJJ3 ubJ2 stJ2 bodyJ2)).set cpy
      (HCell.loopC i aII3 h11.length stC (lj :: restC)))).length :=
    List.length_set _ _ _
  -- building the fresh jj tile loop
  obtain ⟨h21, lbJ3, hd21, hrd21⟩ := (deepCopyH_spec_all (f3 + 1 + 1 + 1)).1
    (((h17.set lj (HCell.loopC j aJJ3 ubJ2 stJ2 bodyJ2)).set cpy
      (HCell.loopC i aII3 h11.length stC (lj :: restC))).set lj
      (HCell.loopC j aJJ3 h13.length stJ2 bodyJ2)) lbJ _
    (readTree_extend (fun n cc hc => extends_get_some s20.1 hc)
      (readTree_mono (by omega) hrLb2))
  have bLbJ3 := deepCopyH_fresh_addr hd21
  have L21 : ((((h17.set lj (HCell.loopC j aJJ3 ubJ2 stJ2 bodyJ2)).set cpy
      (HCell.loopC i aII3 h11.length stC (lj :: restC))).set lj
      (HCell.loopC j aJJ3 h13.length stJ2 bodyJ2))).length ≤ h21.length :=
    (deepCopyH_extends hd21).1
  have s21 := stepOk_copy s20.1 s20.2 hd21
  obtain ⟨h22, ubJ4, hd22, hrd22⟩ := (deepCopyH_spec_all (f3 + 1 + 1 + 1)).1
    h21 ubJ _
    (readTree_extend (fun n cc hc => extends_get_some s21.1 hc)
      (readTree_mono (by omega) hrUb2))
  have bUbJ4 := deepCopyH_fresh_addr hd22
  have L22 : h21.length ≤ h22.length := (deepCopyH_extends hd22).1
  have s22 := stepOk_copy s21.1 s21.2 hd22
  have T22 : ∀ n cc, h1.length ≤ n →
      (h1 ++ [HCell.varC "ii".toList] ++ [HCell.varC "jj".toList]
        ++ [HCell.varC "T".toList]).get? n = some cc → h22.get? n = some cc := by
    intro n cc hn hc
    refine extends_get_some (deepCopyH_extends hd22) ?_
    refine extends_get_some (deepCopyH_extends hd21) ?_
    obtain ⟨b1, b2⟩ := bcpy
    obtain ⟨c1, c2⟩ := kidLj
    rw [set_get_other (show lj ≠ n by omega)]
    rw [set_get_other (show cpy ≠ n by omega)]
    rw [set_get_other (show lj ≠ n by omega)]
    refine extends_get_some (deepCopyH_extends hd17) ?_
    exact T16 n cc hn hc
  obtain ⟨h23, aT4, hd23, hrd23⟩ := (deepCopyH_spec_all (f3 + 1 + 1 + 1)).1
    h22 (h1 ++ [HCell.varC "ii".toList] ++ [HCell.varC "jj".toList]).length _
    (readTree_varC (T22 _ _ (by omega) gT_C))
  have bAT4 := deepCopyH_fresh_addr hd23
  have L23 : h22.length ≤ h23.length := (deepCopyH_extends hd23).1
  have s23 := stepOk_copy s22.1 s22.2 hd23
  have L24 : (h23 ++ [HCell.loopC "jj".toList lbJ3 ubJ4 aT4 []]).length
      = h23.length + 1 := by
    rw [List.length_append, List.length_singleton]
  have kids24 : ∀ k ∈ cellKids (HCell.loopC "jj".toList lbJ3 ubJ4 aT4 []),
      h.length ≤ k ∧ k < h23.length := by
    intro k hk
    simp only [cellKids, List.mem_cons, List.not_mem_nil, or_false] at hk
    obtain ⟨b1, b2⟩ := bLbJ3
    obtain ⟨b3, b4⟩ := bUbJ4
    obtain ⟨b5, b6⟩ := bAT4
    rcases hk with rfl | rfl | rfl
    · exact ⟨by omega, by omega⟩
    · exact ⟨by omega, by omega⟩
    · exact ⟨by omega, by omega⟩
  have s24 := stepOk_snoc s23.1 s23.2 (HCell.loopC "jj".toList lbJ3 ubJ4 aT4 []) kids24
  -- building the fresh ii tile loop
  obtain ⟨h25, lbI3, hd25, hrd25⟩ := (deepCopyH_spec_all (f3 + 1 + 1 + 1)).1
    (h23 ++ [HCell.loopC "jj".toList lbJ3 ubJ4 aT4 []]) lbI _
    (readTree_extend (fun n cc hc => extends_get_some s24.1 hc)
      (readTree_mono (by omega) hrLb))
  have bLbI3 := deepCopyH_fresh_addr hd25
  have L25 : (h23 ++ [HCell.loopC "jj".toList lbJ3 ubJ4 aT4 []]).length
      ≤ h25.length := (deepCopyH_extends hd25).1
  have s25 := stepOk_copy s24.1 s24.2 hd25
  obtain ⟨h26, ubI4, hd26, hrd26⟩ := (deepCopyH_spec_all (f3 + 1 + 1 + 1)).1
    h25 ubI _
    (readTree_extend (fun n cc hc => extends_get_some s25.1 hc)
      (readTree_mono (by omega) hrUb))
  have bUbI4 := deepCopyH_fresh_addr hd26
  have L26 : h25.length ≤ h26.length := (deepCopyH_extends hd26).1
  have s26 := stepOk_copy s25.1 s25.2 hd26
  have T26 : ∀ n cc, h1.length ≤ n →
      (h1 ++ [HCell.varC "ii".toList] ++ [HCell.varC "jj".toList]
        ++ [HCell.varC "T".toList]).get? n = some cc → h26.get? n = some cc := by
    intro n cc hn hc
    refine extends_get_some (deepCopyH_extends hd26) ?_
    refine extends_get_some (deepCopyH_extends hd25) ?_
    refine extends_get_some (extends_snoc (extends_rfl h23) _) ?_
    refine extends_get_some (deepCopyH_extends hd23) ?_
    exact T22 n cc hn hc
  obtain ⟨h27, aT5, hd27, hrd27⟩ := (deepCopyH_spec_all (f3 + 1 + 1 + 1)).1
    h26 (h1 ++ [HCell.varC "ii".toList] ++ [HCell.varC "jj".toList]).length _
    (readTree_varC (T26 _ _ (by omega) gT_C))
  have bAT5 := deepCopyH_fresh_addr hd27
  have L27 : h26.length ≤ h27.length := (deepCopyH_extends hd27).1
  have s27 := stepOk_copy s26.1 s26.2 hd27
  have L28 : (h27 ++ [HCell.loopC "ii".toList lbI3 ubI4 aT5 []]).length
      = h27.length + 1 := by
    rw [List.length_append, List.length_singleton]
  have kids28 : ∀ k ∈ cellKids (HCell.loopC "ii".toList lbI3 ubI4 aT5 []),
      h.length ≤ k ∧ k < h27.length := by
    intro k hk
    simp only [cellKids, List.mem_cons, List.not_mem_nil, or_false] at hk
    obtain ⟨b1, b2⟩ := bLbI3
    obtain ⟨b3, b4⟩ := bUbI4
    obtain ⟨b5, b6⟩ := bAT5
    rcases hk with rfl | rfl | rfl
    · exact ⟨by omega, by omega⟩
    · exact ⟨by omega, by omega⟩
    · exact ⟨by omega, by omega⟩
  have s28 := stepOk_snoc s27.1 s27.2 (HCell.loopC "ii".toList lbI3 ubI4 aT5 []) kids28
  -- the two push_backs
  have kids29 : ∀ k ∈ cellKids (HCell.loopC "jj".toList lbJ3 ubJ4 aT4 [cpy]),
      h.length ≤ k ∧ k < (h27 ++ [HCell.loopC "ii".toList lbI3 ubI4 aT5 []]).length := by
    intro k hk
    simp only [cellKids, List.mem_cons, List.not_mem_nil, or_false] at hk
    obtain ⟨b1, b2⟩ := bLbJ3
    obtain ⟨b3, b4⟩ := bUbJ4
    obtain ⟨b5, b6⟩ := bAT4
    obtain ⟨b7, b8⟩ := bcpy
    rcases hk with rfl | rfl | rfl | rfl
    · exact ⟨by omega, by omega⟩
    · exact ⟨by omega, by omega⟩
    · exact ⟨by omega, by omega⟩
    · exact ⟨by omega, by omega⟩
  have s29 := stepOk_set s28.1 s28.2 (show h.length ≤ h23.length by omega) kids29
  have L29 : ((h27 ++ [HCell.loopC "ii".toList lbI3 ubI4 aT5 []]).set h23.length
      (HCell.loopC "jj".toList lbJ3 ubJ4 aT4 [cpy])).length
      = (h27 ++ [HCell.loopC "ii".toList lbI3 ubI4 aT5 []]).length :=
    List.length_set _ _ _
  have kids30 : ∀ k ∈ cellKids (HCell.loopC "ii".toList lbI3 ubI4 aT5 [h23.length]),
      h.length ≤ k ∧ k <
        ((h27 ++ [HCell.loopC "ii".toList lbI3 ubI4 aT5 []]).set h23.length
          (HCell.loopC "jj".toList lbJ3 ubJ4 aT4 [cpy])).length := by
    intro k hk
    simp only [cellKids, List.mem_cons, List.not_mem_nil, or_false] at hk
    obtain ⟨b1, b2⟩ := bLbI3
    obtain ⟨b3, b4⟩ := bUbI4
    obtain ⟨b5, b6⟩ := bAT5
    rcases hk with rfl | rfl | rfl | rfl
    · exact ⟨by omega, by omega⟩
    · exact ⟨by omega, by omega⟩
    · exact ⟨by omega, by omega⟩
    · exact ⟨by omega, by omega⟩
  have s30 := stepOk_set s29.1 s29.2 (show h.length ≤ h27.length by omega) kids30
  -- assemble
  refine ⟨((h27 ++ [HCell.loopC "ii".toList lbI3 ubI4 aT5 []]).set h23.length
      (HCell.loopC "jj".toList lbJ3 ubJ4 aT4 [cpy])).set h27.length
      (HCell.loopC "ii".toList lbI3 ubI4 aT5 [h23.length]), h27.length,
    ?_, ?_, ?_, ?_, ?_, ?_⟩
  · simp only [tilingPassH, withLoop_loop hcRoot, withHead_cons,
      withLoop_loop hcOgJ, hdcRoot, hbind_some, withLoop_loop hcCpy,
      withLoop_loop hcLj, hbind_allocS, hd5, hd6, hd8, hd9, hd11, hd13,
      hd15, hd17, hd21, hd22, hd23, hd25, hd26, hd27]
  · exact fun n hn => s30.1.2 n hn
  · exact fun g a t ht =>
      readTree_extend (fun n cc hc => extends_get_some s30.1 hc) ht
  · exact readTree_extend (fun n cc hc => extends_get_some s30.1 hc) hr
  · omega
  · intro n c g hn
    exact (readTree_congr_all (fun z => h.length ≤ z) g).1 _ _ h27.length
      (fun q hq => set_get_other (show n ≠ q by omega))
      (fun b cc hbge hbc k hkk => (s30.2 b cc hbge hbc k hkk).1)
      (by omega)

set_option maxRecDepth 8000 in
/-- Witness for C2 at a concrete input: tiling the two-level nest held in
the eleven-cell heap `hC2`, rooted at address 10. -/
theorem tilingPass_no_input_mutation_witness :
    ∃ h2 r, tilingPassH 6 hC2 10 = (h2, some r) ∧
      (∀ n, n < hC2.length → h2.get? n = hC2.get? n) ∧
      (∀ g a t, readTree g hC2 a = some t → readTree g h2 a = some t) ∧
      readTree 6 h2 10 =
        some (.loop ['i'] (.const (.i32 0) .int32) (.const (.i32 10) .int32)
          (.const (.i32 1) .int32)
          [.loop ['j'] (.const (.i32 0) .int32) (.const (.i32 10) .int32)
            (.const (.i32 1) .int32)
            [.assign (.var ['x']) (.const (.i32 1) .int32)]]) ∧
      hC2.length ≤ r ∧
      (∀ n c g, n < hC2.length →
        readTree g (h2.set n c) r = readTree g h2 r) :=
  tilingPass_no_input_mutation 6 hC2 10 ['i'] ['j'] _ _ _ _ _ _ _ (by rfl)

end TIR
